import Mathlib

/-!
# SDISK II firmware (`firmware/sdisk2.c`): GCR codec, NIC framing, head stepper, write buffer

A shallow embedding of the C firmware.  Unsigned chars, shorts and longs are natural numbers
reduced `% 256`, `% 65536`, `% 2^32` where the C code can wrap.  RAM buffers and the SD card
are maps from byte addresses to byte values.
-/

namespace Sdisk2

/-! ## Constants and flash tables -/

/-- `#define BUF_NUM 5` -/
def BUF_NUM : Nat := 5

/-- `#define FAT_DSK_ELEMS 18` -/
def FAT_DSK_ELEMS : Nat := 18

/-- `#define FAT_NIC_ELEMS 35` -/
def FAT_NIC_ELEMS : Nat := 35

/-- `const unsigned char volume = 0xfe;` -/
def volume : Nat := 0xfe

/-- `stepper_table`: a table for head stepper motor movement. -/
def stepper_table : List Nat := [0x0f, 0xed, 0x03, 0x21]

/-- `encTable`: the 64 disk bytes of the 6-and-2 code. -/
def encTable : List Nat := [
  0x96,0x97,0x9A,0x9B,0x9D,0x9E,0x9F,0xA6,
  0xA7,0xAB,0xAC,0xAD,0xAE,0xAF,0xB2,0xB3,
  0xB4,0xB5,0xB6,0xB7,0xB9,0xBA,0xBB,0xBC,
  0xBD,0xBE,0xBF,0xCB,0xCD,0xCE,0xCF,0xD3,
  0xD6,0xD7,0xD9,0xDA,0xDB,0xDC,0xDD,0xDE,
  0xDF,0xE5,0xE6,0xE7,0xE9,0xEA,0xEB,0xEC,
  0xED,0xEE,0xEF,0xF2,0xF3,0xF4,0xF5,0xF6,
  0xF7,0xF9,0xFA,0xFB,0xFC,0xFD,0xFE,0xFF]

/-- `decTable`: 256 entries, the 6-bit value of each disk byte. -/
def decTable : List Nat := [
  0x00,0x00,0x00,0x00,0x00,0x00,0x00,0x00,0x00,0x00,0x00,0x00,0x00,0x00,0x00,0x00,
  0x00,0x00,0x00,0x00,0x00,0x00,0x00,0x00,0x00,0x00,0x00,0x00,0x00,0x00,0x00,0x00,
  0x00,0x00,0x00,0x00,0x00,0x00,0x00,0x00,0x00,0x00,0x00,0x00,0x00,0x00,0x00,0x00,
  0x00,0x00,0x00,0x00,0x00,0x00,0x00,0x00,0x00,0x00,0x00,0x00,0x00,0x00,0x00,0x00,
  0x00,0x00,0x00,0x00,0x00,0x00,0x00,0x00,0x00,0x00,0x00,0x00,0x00,0x00,0x00,0x00,
  0x00,0x00,0x00,0x00,0x00,0x00,0x00,0x00,0x00,0x00,0x00,0x00,0x00,0x00,0x00,0x00,
  0x00,0x00,0x00,0x00,0x00,0x00,0x00,0x00,0x00,0x00,0x00,0x00,0x00,0x00,0x00,0x00,
  0x00,0x00,0x00,0x00,0x00,0x00,0x00,0x00,0x00,0x00,0x00,0x00,0x00,0x00,0x00,0x00,
  0x00,0x00,0x00,0x00,0x00,0x00,0x00,0x00,0x00,0x00,0x00,0x00,0x00,0x00,0x00,0x00,
  0x00,0x00,0x00,0x00,0x00,0x00,0x00,0x01,0x00,0x00,0x02,0x03,0x00,0x04,0x05,0x06,
  0x00,0x00,0x00,0x00,0x00,0x00,0x07,0x08,0x00,0x00,0x00,0x09,0x0a,0x0b,0x0c,0x0d,
  0x00,0x00,0x0e,0x0f,0x10,0x11,0x12,0x13,0x00,0x14,0x15,0x16,0x17,0x18,0x19,0x1a,
  0x00,0x00,0x00,0x00,0x00,0x00,0x00,0x00,0x00,0x00,0x00,0x1b,0x00,0x1c,0x1d,0x1e,
  0x00,0x00,0x00,0x1f,0x00,0x00,0x20,0x21,0x00,0x22,0x23,0x24,0x25,0x26,0x27,0x28,
  0x00,0x00,0x00,0x00,0x00,0x29,0x2a,0x2b,0x00,0x2c,0x2d,0x2e,0x2f,0x30,0x31,0x32,
  0x00,0x00,0x33,0x34,0x35,0x36,0x37,0x38,0x00,0x39,0x3a,0x3b,0x3c,0x3d,0x3e,0x3f]

/-- `physicalSector`: a table for translating logical sectors into physical sectors. -/
def physicalSector : List Nat := [0,13,11,9,7,5,3,1,14,12,10,8,6,4,2,15]

/-- `FlipBit`: swaps the two bits of a 2-bit value. -/
def FlipBit : List Nat := [0, 2, 1, 3]

/-- `FlipBit1`: flipped 2-bit value placed in bits 0..1. -/
def FlipBit1 : List Nat := [0, 2, 1, 3]

/-- `FlipBit2`: flipped 2-bit value placed in bits 2..3. -/
def FlipBit2 : List Nat := [0, 8, 4, 12]

/-- `FlipBit3`: flipped 2-bit value placed in bits 4..5. -/
def FlipBit3 : List Nat := [0, 32, 16, 48]

/-- `pgm_read_byte_near(table + i)`: entry `i` of a flash table. -/
def pgm_read_byte_near (table : List Nat) (i : Nat) : Nat := table.getD i 0

/-! ## Memory and loops -/

/-- Byte-addressed memory: RAM buffers and the SD card contents. -/
abbrev Mem := Nat → Nat

/-- Store to an `unsigned char` cell: `m[a] = v`, the value truncated to 8 bits. -/
def wr (m : Mem) (a v : Nat) : Mem := fun x => if x = a then v % 256 else m x

/-- Counted loop `for (i = 0; i < n; i++) body(i)`: runs the body for `i = 0, 1, ..., n-1`
in that order. -/
def forLoop {σ : Type} : Nat → (Nat → σ → σ) → σ → σ
  | 0, _, s => s
  | n + 1, body, s => body n (forLoop n body s)

/-! ## 6-and-2 encoding (`dsk2Nic`, lines 661-685) -/

/-- Lines 673-675, the value `x` of the first encoding loop:
`FlipBit1[src[i]&3] | FlipBit2[src[i+86]&3] | ((i<=83) ? FlipBit3[src[i+172]&3] : 0)`. -/
def lowValue (m : Mem) (src i : Nat) : Nat :=
  (pgm_read_byte_near FlipBit1 (m (src + i) &&& 3) |||
   pgm_read_byte_near FlipBit2 (m (src + (i + 86)) &&& 3) |||
   (if i ≤ 83 then pgm_read_byte_near FlipBit3 (m (src + (i + 172)) &&& 3) else 0)) % 256

/-- Line 680, the value `x` of the second encoding loop: `src[i] >> 2`. -/
def highValue (m : Mem) (src i : Nat) : Nat := (m (src + i) >>> 2) % 256

/-- Body of the first encoding loop (lines 672-678), on the pair (memory, `ox`):
`x = ...; dst[i+0x38] = encTable[x^ox]; ox = x;` -/
def encLowStep (src dst : Nat) (i : Nat) (p : Mem × Nat) : Mem × Nat :=
  let x := lowValue p.1 src i
  (wr p.1 (dst + (i + 0x38)) (pgm_read_byte_near encTable (x ^^^ p.2)), x)

/-- Body of the second encoding loop (lines 679-683):
`x = (src[i] >> 2); dst[i+0x8e] = encTable[x^ox]; ox = x;` -/
def encHighStep (src dst : Nat) (i : Nat) (p : Mem × Nat) : Mem × Nat :=
  let x := highValue p.1 src i
  (wr p.1 (dst + (i + 0x8e)) (pgm_read_byte_near encTable (x ^^^ p.2)), x)

/-- The two encoding loops, started with `ox = 0`; the result is the memory and the final `ox`. -/
def encodeLoops (src dst : Nat) (m : Mem) : Mem × Nat :=
  forLoop 256 (encHighStep src dst) (forLoop 86 (encLowStep src dst) (m, 0))

/-- Lines 672-684: both loops and the checksum store `dst[0x18e] = encTable[ox]`. -/
def encodeData (src dst : Nat) (m : Mem) : Mem :=
  let p := encodeLoops src dst m
  wr p.1 (dst + 0x18e) (pgm_read_byte_near encTable p.2)

/-- Lines 663-671: the 4-and-4 encoded address field
`dst[0x25..0x2c] = volume, trk, ph_sector, volume^trk^ph_sector`. -/
def writeAddress (dst trk ph_sector : Nat) (m : Mem) : Mem :=
  let m := wr m (dst + 0x25) ((volume >>> 1) ||| 0xaa)
  let m := wr m (dst + 0x26) (volume ||| 0xaa)
  let m := wr m (dst + 0x27) ((trk >>> 1) ||| 0xaa)
  let m := wr m (dst + 0x28) (trk ||| 0xaa)
  let m := wr m (dst + 0x29) ((ph_sector >>> 1) ||| 0xaa)
  let m := wr m (dst + 0x2a) (ph_sector ||| 0xaa)
  let c := (volume ^^^ trk ^^^ ph_sector) % 256
  let m := wr m (dst + 0x2b) ((c >>> 1) ||| 0xaa)
  wr m (dst + 0x2c) (c ||| 0xaa)

/-- A sector given as a list of bytes, placed at address 0 of an otherwise zero memory. -/
def loadSector (S : List Nat) : Mem := fun a => S.getD a 0

/-- The 343 nibbles that the encoding loops leave at `dst[0x38 .. 0x18e]`, for the sector `S`
as source (`src` at address 0, `dst` at address 512 as in `dsk2Nic`). -/
def gcrNibbles (S : List Nat) : List Nat :=
  (List.range 343).map (fun k => encodeData 0 512 (loadSector S) (512 + (0x38 + k)))

/-! ## 6-and-2 decoding -/

/-- Modelled from the spec: the decoder (`nic2Dsk` is declared in the source but not defined).
Running XOR chain: each nibble is looked up in `decTable` and XORed with the previous
recovered value. -/
def xorChain : List Nat → Nat → List Nat
  | [], _ => []
  | nib :: rest, prev =>
    let v := pgm_read_byte_near decTable nib ^^^ prev
    v :: xorChain rest v

/-- Modelled from the spec: the decoder (`nic2Dsk` is declared in the source but not defined).
The low two bits of byte `i` are recovered by inverse flipping from the 6-bit value that
carries them: bits 0..1 of value `i` for `i < 86`, bits 2..3 of value `i - 86` for
`i < 172`, bits 4..5 of value `i - 172` otherwise. -/
def lowBits (v : List Nat) (i : Nat) : Nat :=
  if i < 86 then pgm_read_byte_near FlipBit (v.getD i 0 &&& 3)
  else if i < 172 then pgm_read_byte_near FlipBit ((v.getD (i - 86) 0 >>> 2) &&& 3)
  else pgm_read_byte_near FlipBit ((v.getD (i - 172) 0 >>> 4) &&& 3)

/-- Modelled from the spec: the decoder (`nic2Dsk` is declared in the source but not defined).
Byte `i` of the sector is the high six bits (value `86 + i` of the chain) shifted left by 2,
joined with its low two bits. -/
def gcrDecode (nibs : List Nat) : List Nat :=
  let v := xorChain nibs 0
  (List.range 256).map (fun i => ((v.getD (86 + i) 0 <<< 2) ||| lowBits v i) % 256)

/-! ## Head stepper (`main`, lines 934-951) -/

/-- The part of the state the stepper code uses: `ph_track` and the static `oldStp`. -/
structure Stepper where
  ph_track : Nat
  oldStp : Nat
deriving DecidableEq, Repr

/-- Lines 934-951 for one sample `pinb` of the port `PINB`. -/
def stepperStep (s : Stepper) (pinb : Nat) : Stepper :=
  let stp := pinb &&& 0b00001111
  if stp ≠ s.oldStp then
    let ofs := if stp = 0b00001000 then 2
      else if stp = 0b00000100 then 4
      else if stp = 0b00000010 then 6
      else if stp = 0b00000001 then 0 else 0xff
    if ofs ≠ 0xff then
      let ofs := (ofs + s.ph_track) &&& 7
      let bt := pgm_read_byte_near stepper_table (ofs >>> 1)
      let bt := if ofs &&& 1 ≠ 0 then bt &&& 0x0f else bt >>> 4
      let ph_track := (s.ph_track + (if bt &&& 0x08 ≠ 0 then 0xf8 ||| bt else bt)) % 256
      let ph_track := if ph_track > 196 then 0 else ph_track
      let ph_track := if ph_track > 139 then 139 else ph_track
      { ph_track := ph_track, oldStp := stp }
    else { s with oldStp := stp }
  else s

/-- The stepper code run on a sequence of samples of `PINB`, one per pass of the main loop. -/
def stepperRun (s : Stepper) (samples : List Nat) : Stepper :=
  samples.foldl stepperStep s

/-- The 6-bit value carried by nibble `k` of the payload encoded from the sector at `src`:
the packed low bits for `k < 86`, the high six bits of byte `k - 86` for `k < 342`, and 0
for the checksum position. -/
def sixBit (m : Mem) (src k : Nat) : Nat :=
  if k < 86 then lowValue m src k else if k < 342 then highValue m src (k - 86) else 0

/-! ## SD card and machine state -/

/-- One transaction on the SD bus, as far as the card contents and the host are concerned.
`write adr bits`: `cmdFast(24, adr)` followed by the bits clocked out on the data-in line
(DI = port D bit 4, one bit per clock pulse on bit 5) up to the data-response read.
`read adr`: `cmd17Fast(adr)` whose data block is left to be streamed to the host. -/
inductive SdEvent where
  | write (adr : Nat) (bits : List Bool)
  | read (adr : Nat)
deriving DecidableEq, Repr

/-- The global variables of the firmware together with its environment: the SD card contents
(`card`, byte addressed), the level of the eject line (`eject`, port D bit 3, taken as constant
over one call) and the transactions issued so far (`bus`).  Reads that a routine consumes
itself (directory, FAT and DSK reads) are lookups in `card`; the card is assumed to answer
every command.  The block length set with CMD16 is not tracked: each read returns exactly the
bytes the code consumes.  LED and chip-select writes are left out. -/
structure State where
  rootAddr : Nat
  fatAddr : Nat
  userAddr : Nat
  sectorsPerCluster : Nat
  sectorsPerCluster2 : Nat
  fatNic : Nat → Nat
  prevFatNumDsk : Nat
  prevFatNumNic : Nat
  nicDir : Nat
  dskDir : Nat
  ph_track : Nat
  sector : Nat
  bitbyte : Nat
  prepare : Nat
  inited : Nat
  formatting : Nat
  /-- `writeData[BUF_NUM][350]`, flat: `writeData[b][j]` is at address `b * 350 + j`. -/
  writeData : Mem
  sectors : Nat → Nat
  tracks : Nat → Nat
  buffNum : Nat
  /-- `writePtr`, as an offset into `writeData`. -/
  writePtr : Nat
  /-- `static unsigned char sec` of `writeBack`. -/
  sec : Nat
  /-- `static unsigned char oldStp` of `main`. -/
  oldStp : Nat
  card : Mem
  eject : Bool
  bus : List SdEvent

/-- Store to an `unsigned short` array element: `f[k] = v`. -/
def wr16 (f : Nat → Nat) (k v : Nat) : Nat → Nat := fun x => if x = k then v % 65536 else f x

/-- `ft = readByteFast(); ft += (unsigned short)readByteFast()*0x100;` after `cmd17Fast(adr)`:
the little-endian 16-bit value at card address `adr`. -/
def read16 (card : Mem) (adr : Nat) : Nat :=
  (card adr % 256 + (card (adr + 1) % 256) * 0x100) % 65536

/-- `writeByteFast(c)`: the eight bits of `c` clocked out, most significant first
(`for (d = 0b10000000; d; d >>= 1)`, DI high when `c & d`). -/
def writeByteFast (c : Nat) : List Bool :=
  [0x80, 0x40, 0x20, 0x10, 0x08, 0x04, 0x02, 0x01].map (fun d => c &&& d ≠ 0)

/-- The byte that the card assembles from the next eight clocked bits, most significant first. -/
def bitsToByte (bits : List Bool) : Nat :=
  (bits.take 8).foldl (fun acc b => 2 * acc + (if b then 1 else 0)) 0

/-- Byte `k` of a bit stream on the bus. -/
def busByte (bits : List Bool) (k : Nat) : Nat := bitsToByte (bits.drop (8 * k))

/-- Data byte `j` of a block write: the stream starts with 0xFF and the data token 0xFE, so
data byte `j` is byte `2 + j` of the stream. -/
def dataByte (bits : List Bool) (j : Nat) : Nat := busByte bits (2 + j)

/-- The card side of a block write (CMD24 at `adr`): the 512 data bytes after the token
replace the card contents at `adr .. adr + 511`, and the transaction is recorded. -/
def sdWrite (s : State) (adr : Nat) (bits : List Bool) : State :=
  { s with
    card := fun a => if adr ≤ a ∧ a < adr + 512 then dataByte bits (a - adr) else s.card a
    bus := s.bus ++ [SdEvent.write adr bits] }

/-- The SD address of sector `long_sector` of a file whose cluster is `ft`:
`userAddr + (((unsigned long)(ft-2) << sectorsPerCluster2)
   + (long_sector & (sectorsPerCluster-1))) * 512`,
with `ft - 2` and `sectorsPerCluster - 1` in 16-bit and the rest in 32-bit arithmetic. -/
def clusterAddr (s : State) (ft long_sector : Nat) : Nat :=
  (s.userAddr +
    (((((ft + 65536 - 2) % 65536) <<< s.sectorsPerCluster2) % 2 ^ 32 +
      (long_sector &&& ((s.sectorsPerCluster + 65536 - 1) % 65536))) % 2 ^ 32 * 512) % 2 ^ 32)
    % 2 ^ 32

/-! ## `prepareFat` -/

/-- The loop of `prepareFat` (lines 446-454) with `n` iterations left, loop variable `i`,
current cluster `ft`; `store fat k v` is the assignment `fat[k] = v`.  The loop variable is
the 16-bit `int i` of the source, here a natural number: the embedding is that of the
source as long as `i + 1` stays below 32768, that is for calls with `len <= 32767` (the
firmware calls with `len <= 560`). -/
def prepareFatLoop {α : Type} (store : α → Nat → Nat → α) (card : Mem)
    (fatAddr fatNum fatElemNum : Nat) : Nat → Nat → Nat → α → α
  | 0, _, _, fat => fat
  | n + 1, i, ft, fat =>
    let fn := ((i + 1) / fatElemNum) % 256
    let ft := read16 card ((fatAddr + ft * 2) % 2 ^ 32)
    let fat := if fn = fatNum then store fat ((i + 1) % fatElemNum) ft else fat
    if ft > 0xfff6 ∨ fn > fatNum then fat
    else prepareFatLoop store card fatAddr fatNum fatElemNum n (i + 1) ft fat

/-- `prepareFat(i, fat, len, fatNum, fatElemNum)`: loads the window `fatNum` of the cluster
chain of root directory entry `i` into `fat`.  The array `fat` is passed with its element
store `store`; the result is the array after the call.  The product `i*32` of line 441 is
taken in the 16-bit `int` of the source, here in the natural numbers: the embedding is that
of the source for `i < 1024` (`findExt` returns at most 512) and `len <= 32767`. -/
def prepareFat {α : Type} (store : α → Nat → Nat → α) (s : State) (i : Nat) (fat : α)
    (len fatNum fatElemNum : Nat) : α :=
  if s.eject then fat
  else
    let ft := read16 s.card ((s.rootAddr + i * 32 + 26) % 2 ^ 32)
    let fat := if 0 = fatNum then store fat 0 ft else fat
    prepareFatLoop store s.card s.fatAddr fatNum fatElemNum len 0 ft fat

/-- `fatDsk[k] = v` for `fatDsk = (unsigned short *)(&writeData[0][0]+1024)`: two bytes,
low byte first. -/
def storeFatDsk (m : Mem) (k v : Nat) : Mem :=
  wr (wr m (1024 + 2 * k) (v % 256)) (1024 + 2 * k + 1) (v / 256)

/-- `fatDsk[k]` read back from `writeData`. -/
def fatDsk (m : Mem) (k : Nat) : Nat :=
  (m (1024 + 2 * k) % 256 + (m (1024 + 2 * k + 1) % 256) * 0x100) % 65536

/-- `(n + sectorsPerCluster - 1) >> sectorsPerCluster2`: the number of clusters of a file of
`n` sectors, as passed for `len`. -/
def clusterCount (s : State) (n : Nat) : Nat :=
  ((n + s.sectorsPerCluster - 1) >>> s.sectorsPerCluster2) % 65536

/-- The reload of the NIC window shared by `dsk2Nic`, `main` and `writeBackSub2`:
`if (fatNum != prevFatNumNic) { prevFatNumNic = fatNum; prepareFat(nicDir, fatNic, ...); }` -/
def reloadFatNic (s : State) (fatNum : Nat) : State :=
  if fatNum ≠ s.prevFatNumNic then
    { s with
      prevFatNumNic := fatNum
      fatNic := prepareFat wr16 s s.nicDir s.fatNic (clusterCount s 560) fatNum FAT_NIC_ELEMS }
  else s

/-! ## `dsk2Nic` -/

/-- Lines 591-626: the fixed bytes of the NIC block, written to `dst = writeData + 512`. -/
def dsk2NicFrame (m : Mem) : Mem :=
  let dst := 512
  let m := forLoop 0x16 (fun i m => wr m (dst + i) 0xff) m
  let m := wr m (dst + 0x16) 0x03
  let m := wr m (dst + 0x17) 0xfc
  let m := wr m (dst + 0x18) 0xff
  let m := wr m (dst + 0x19) 0x3f
  let m := wr m (dst + 0x1a) 0xcf
  let m := wr m (dst + 0x1b) 0xf3
  let m := wr m (dst + 0x1c) 0xfc
  let m := wr m (dst + 0x1d) 0xff
  let m := wr m (dst + 0x1e) 0x3f
  let m := wr m (dst + 0x1f) 0xcf
  let m := wr m (dst + 0x20) 0xf3
  let m := wr m (dst + 0x21) 0xfc
  let m := wr m (dst + 0x22) 0xd5
  let m := wr m (dst + 0x23) 0xaa
  let m := wr m (dst + 0x24) 0x96
  let m := wr m (dst + 0x2d) 0xde
  let m := wr m (dst + 0x2e) 0xaa
  let m := wr m (dst + 0x2f) 0xeb
  let m := forLoop 5 (fun i m => wr m (dst + (0x30 + i)) 0xff) m
  let m := wr m (dst + 0x35) 0xd5
  let m := wr m (dst + 0x36) 0xaa
  let m := wr m (dst + 0x37) 0xad
  let m := wr m (dst + 0x18f) 0xde
  let m := wr m (dst + 0x190) 0xaa
  let m := wr m (dst + 0x191) 0xeb
  let m := forLoop 14 (fun i m => wr m (dst + (0x192 + i)) 0xff) m
  forLoop 96 (fun i m => wr m (dst + (0x1a0 + i)) 0x00) m

/-- Lines 643-647: `if (fatNum != prevFatNumDsk) { prevFatNumDsk = fatNum;
prepareFat(dskDir, fatDsk, ...); }` -/
def reloadFatDsk (s : State) (fatNum : Nat) : State :=
  if fatNum ≠ s.prevFatNumDsk then
    { s with
      prevFatNumDsk := fatNum
      writeData := prepareFat storeFatDsk s s.dskDir s.writeData (clusterCount s 280)
        fatNum FAT_DSK_ELEMS }
  else s

/-- Lines 637-659: for an even logical sector, reload the DSK window if needed and read the
512-byte DSK block `trk*8 + logic_sector/2` into `writeData[0..511]`; nothing for an odd one. -/
def dsk2NicRead (trk logic_sector : Nat) (s : State) : State :=
  if logic_sector &&& 1 = 0 then
    let long_sector := (trk * 8 + logic_sector / 2) % 65536
    let long_cluster := long_sector >>> s.sectorsPerCluster2
    let fatNum := (long_cluster / FAT_DSK_ELEMS) % 256
    let s := reloadFatDsk s fatNum
    let ft := fatDsk s.writeData (long_cluster % FAT_DSK_ELEMS)
    let adr := clusterAddr s ft long_sector
    { s with writeData := forLoop 512 (fun i m => wr m i (s.card (adr + i))) s.writeData }
  else s

/-- The source pointer `src`: `writeData` for an even logical sector, `writeData + 256` for
an odd one. -/
def dsk2NicSrc (logic_sector : Nat) : Nat := if logic_sector &&& 1 = 0 then 0 else 256

/-- Lines 660-685: address field and payload written into `dst`. -/
def dsk2NicEncode (trk logic_sector : Nat) (m : Mem) : Mem :=
  encodeData (dsk2NicSrc logic_sector) 512
    (writeAddress 512 trk (pgm_read_byte_near physicalSector logic_sector) m)

/-- Lines 705-723: the bits clocked out for the block, `0xff 0xfe`, `dst[0..511]`,
`0xff 0xff`. -/
def dsk2NicBits (m : Mem) : List Bool :=
  writeByteFast 0xff ++ writeByteFast 0xfe ++
    forLoop 512 (fun i bits => bits ++ writeByteFast (m (512 + i))) [] ++
    writeByteFast 0xff ++ writeByteFast 0xff

/-- Lines 686-729: reload the NIC window if needed and write `dst` to NIC sector
`trk*16 + ph_sector`. -/
def dsk2NicWrite (trk logic_sector : Nat) (s : State) : State :=
  let ph_sector := pgm_read_byte_near physicalSector logic_sector
  let long_sector := (trk * 16 + ph_sector) % 65536
  let long_cluster := long_sector >>> s.sectorsPerCluster2
  let fatNum := (long_cluster / FAT_NIC_ELEMS) % 256
  let s := reloadFatNic s fatNum
  let ft := s.fatNic (long_cluster % FAT_NIC_ELEMS)
  sdWrite s (clusterAddr s ft long_sector) (dsk2NicBits s.writeData)

/-- One pass of the inner loop of `dsk2Nic` (lines 631-730).  With the eject line set the
function returns at the first poll, so the pass, and every later one, does nothing. -/
def dsk2NicSector (trk logic_sector : Nat) (s : State) : State :=
  if s.eject then s
  else
    let s := dsk2NicRead trk logic_sector s
    let s := { s with writeData := dsk2NicEncode trk logic_sector s.writeData }
    dsk2NicWrite trk logic_sector s

/-- `buffClear()`: all of `writeData` zero, all slots empty. -/
def buffClear (s : State) : State :=
  let m := forLoop BUF_NUM (fun i m => forLoop 350 (fun j m => wr m (i * 350 + j) 0) m) s.writeData
  let st := forLoop BUF_NUM (fun i (p : (Nat → Nat) × (Nat → Nat)) => (wr p.1 i 0xff, wr p.2 i 0xff))
    (s.sectors, s.tracks)
  { s with writeData := m, sectors := st.1, tracks := st.2 }

/-- The two nested loops of `dsk2Nic` (lines 629-731). -/
def dsk2NicLoops (s : State) : State :=
  forLoop 35 (fun trk s => forLoop 16 (fun logic_sector s => dsk2NicSector trk logic_sector s) s) s

/-- `dsk2Nic()`: translate the DSK image into the NIC image.  With the eject line set the
function returns from inside the loop, before `buffClear`. -/
def dsk2Nic (s : State) : State :=
  let s := { s with prevFatNumNic := 0xff, prevFatNumDsk := 0xff,
                    writeData := dsk2NicFrame s.writeData }
  if s.eject then s else buffClear (dsk2NicLoops s)

/-! ## Write back (`writeBackSub2`, `writeBackSub`, `writeBack`) -/

/-- The bits `writeBackSub2` clocks out after `cmdFast(24, ...)` (lines 1009-1081): `0xff`,
the token `0xfe`, 22*8 one bits, sync header, address field for (`track`, `sc`), five `0xff`,
the bytes `writeData[bn][0..348]`, 14*8 one bits, 96*8 zero bits, `0xff 0xff`. -/
def writeBackSub2Bits (m : Mem) (bn sc track : Nat) : List Bool :=
  let c := (volume ^^^ track ^^^ sc) % 256
  writeByteFast 0xff ++ writeByteFast 0xfe ++
  forLoop (22 * 8) (fun _ bits => bits ++ [true]) [] ++
  writeByteFast 0x03 ++ writeByteFast 0xfc ++ writeByteFast 0xff ++ writeByteFast 0x3f ++
  writeByteFast 0xcf ++ writeByteFast 0xf3 ++ writeByteFast 0xfc ++ writeByteFast 0xff ++
  writeByteFast 0x3f ++ writeByteFast 0xcf ++ writeByteFast 0xf3 ++ writeByteFast 0xfc ++
  writeByteFast 0xd5 ++ writeByteFast 0xAA ++ writeByteFast 0x96 ++
  writeByteFast ((volume >>> 1) ||| 0xaa) ++ writeByteFast (volume ||| 0xaa) ++
  writeByteFast ((track >>> 1) ||| 0xaa) ++ writeByteFast (track ||| 0xaa) ++
  writeByteFast ((sc >>> 1) ||| 0xaa) ++ writeByteFast (sc ||| 0xaa) ++
  writeByteFast ((c >>> 1) ||| 0xaa) ++ writeByteFast (c ||| 0xaa) ++
  writeByteFast 0xde ++ writeByteFast 0xAA ++ writeByteFast 0xeb ++
  writeByteFast 0xff ++ writeByteFast 0xff ++ writeByteFast 0xff ++ writeByteFast 0xff ++
  writeByteFast 0xff ++
  forLoop 349 (fun i bits => bits ++ writeByteFast (m (bn * 350 + i))) [] ++
  forLoop (14 * 8) (fun _ bits => bits ++ [true]) [] ++
  forLoop (96 * 8) (fun _ bits => bits ++ [false]) [] ++
  writeByteFast 0xff ++ writeByteFast 0xff

/-- `writeBackSub2(bn, sc, track)`: write slot `bn` as NIC sector `track*16 + sc`. -/
def writeBackSub2 (s : State) (bn sc track : Nat) : State :=
  let long_sector := (track * 16 + sc) % 65536
  let long_cluster := long_sector >>> s.sectorsPerCluster2
  let fatNum := (long_cluster / FAT_NIC_ELEMS) % 256
  if s.eject then s
  else
    let s := reloadFatNic s fatNum
    let ft := s.fatNic (long_cluster % FAT_NIC_ELEMS)
    sdWrite s (clusterAddr s ft long_sector) (writeBackSub2Bits s.writeData bn sc track)

/-- Body of the inner loop of `writeBackSub` (lines 1097-1101). -/
def flushSlot (i : Nat) (s : State) : State :=
  let s := if s.sectors i ≠ 0xff then writeBackSub2 s i (s.sectors i) (s.tracks i) else s
  { s with
    sectors := wr s.sectors i 0xff
    tracks := wr s.tracks i 0xff
    writeData := wr s.writeData (i * 350 + 2) 0 }

/-- Lines 1096-1104: the inner loop over all slots, then `buffNum = 0` and `writePtr` back
at slot 0. -/
def flushAll (s : State) : State :=
  let s := forLoop BUF_NUM flushSlot s
  { s with buffNum := 0, writePtr := 0 }

/-- The outer loop of `writeBackSub` (lines 1094-1107) with `n` iterations left at index `j`:
at the first slot with `sectors[j] != 0xff` all slots are flushed and the loop is left. -/
def writeBackSubLoop : Nat → Nat → State → State
  | 0, _, s => s
  | n + 1, j, s =>
    if s.sectors j ≠ 0xff then flushAll s
    else writeBackSubLoop n (j + 1) s

/-- `writeBackSub()`. -/
def writeBackSub (s : State) : State :=
  if s.eject then s else writeBackSubLoop BUF_NUM 0 s

/-- `cancelRead()`: the rest of the staged block is clocked out of the card. -/
def cancelRead (s : State) : State :=
  if s.bitbyte < 402 * 8 then
    if s.eject then s else { s with bitbyte := 402 * 8 }
  else s

/-- Lines 1116-1138 of `writeBack`: the branch `if (writeData[buffNum][2]==0xAD)`. -/
def writeBackData (s : State) : State :=
  if s.writeData (s.buffNum * 350 + 2) = 0xAD then
    if s.formatting = 0 then
      let s := { s with
        sectors := wr s.sectors s.buffNum s.sector
        tracks := wr s.tracks s.buffNum (s.ph_track >>> 2) }
      let s := { s with
        sector := ((if s.sector = 0xf ∨ s.sector = 0xd then s.sector + 2 else s.sector + 1)
          &&& 0xf) }
      if s.buffNum = BUF_NUM - 1 then
        let s := cancelRead s
        let s := writeBackSub s
        { s with prepare := 1 }
      else
        { s with buffNum := (s.buffNum + 1) % 256, writePtr := (s.buffNum + 1) % 256 * 350 }
    else
      let s := { s with sector := s.sec, formatting := 0 }
      if s.sec = 0xf then
        let s := cancelRead s
        { s with prepare := 1 }
      else s
  else s

/-- Lines 1139-1142 of `writeBack`: the branch `if (writeData[buffNum][2]==0x96)`, which
follows the first one without an `else`. -/
def writeBackAddress (s : State) : State :=
  if s.writeData (s.buffNum * 350 + 2) = 0x96 then
    { s with
      sec := (((s.writeData (s.buffNum * 350 + 7) &&& 0x55) <<< 1) |||
              (s.writeData (s.buffNum * 350 + 8) &&& 0x55)) % 256
      formatting := 1 }
  else s

/-- `writeBack()`: called when a capture into the active slot is complete. -/
def writeBack (s : State) : State :=
  if s.eject then s else writeBackAddress (writeBackData s)

/-! ## Main loop (`main`, lines 934-980) -/

/-- `cmd17Fast(adr)` of line 974: the block at `adr` is staged for streaming. -/
def cmd17Stage (s : State) (adr : Nat) : State :=
  { s with bus := s.bus ++ [SdEvent.read adr] }

/-- The slot test of lines 968-972. -/
def slotMatch (s : State) (trk : Nat) : Bool :=
  (s.sectors 0 = s.sector ∧ s.tracks 0 = trk) ∨
  (s.sectors 1 = s.sector ∧ s.tracks 1 = trk) ∨
  (s.sectors 2 = s.sector ∧ s.tracks 2 = trk) ∨
  (s.sectors 3 = s.sector ∧ s.tracks 3 = trk) ∨
  (s.sectors 4 = s.sector ∧ s.tracks 4 = trk)

/-- Lines 952-980: the foreground prepare step. -/
def prepareStep (s : State) : State :=
  if s.inited ≠ 0 ∧ s.prepare ≠ 0 then
    let s := { s with sector := (s.sector + 1) &&& 0xf }
    let trk := s.ph_track >>> 2
    let long_sector := (trk * 16 + s.sector) % 65536
    let long_cluster := long_sector >>> s.sectorsPerCluster2
    let fatNum := (long_cluster / FAT_NIC_ELEMS) % 256
    let s := reloadFatNic s fatNum
    let ft := s.fatNic (long_cluster % FAT_NIC_ELEMS)
    let s := if slotMatch s trk then writeBackSub s else s
    let s := cmd17Stage s (clusterAddr s ft long_sector)
    { s with bitbyte := 0, prepare := 0 }
  else s

/-- Modelled from the spec: the interrupt routines of `sub.S`, which are not among the
sources.  A capture stores the host-written bytes into the active slot
(`writeData[buf_num][writePtr++]`) before `writeBack` is called. -/
def capture (s : State) (bytes : Nat → Nat) : State :=
  { s with
    writeData := fun a =>
      if s.buffNum * 350 ≤ a ∧ a < s.buffNum * 350 + 350 then bytes (a - s.buffNum * 350) % 256
      else s.writeData a }

/-- WriteBuffer uniqueness: no two non-empty slots (`sectors[i] != 0xff`) hold the same
(track, sector). -/
def Unique (s : State) : Prop :=
  ∀ i j, i < BUF_NUM → j < BUF_NUM → i ≠ j → s.sectors i ≠ 0xff → s.sectors j ≠ 0xff →
    ¬ (s.sectors i = s.sectors j ∧ s.tracks i = s.tracks j)

/-- The fixed bytes of a 512-byte NIC block by offset: gap, sync header, address prologue
and epilogue, sync, data prologue and epilogue, trailer gap and zero pad.  `none` at the
address field (0x25..0x2C), at the payload (0x38..0x18E) and past the block. -/
def nicFixedByte (j : Nat) : Option Nat :=
  if j < 0x16 then some 0xff
  else if j < 0x22 then
    [0x03, 0xfc, 0xff, 0x3f, 0xcf, 0xf3, 0xfc, 0xff, 0x3f, 0xcf, 0xf3, 0xfc].get? (j - 0x16)
  else if j < 0x25 then [0xd5, 0xaa, 0x96].get? (j - 0x22)
  else if j < 0x2d then none
  else if j < 0x30 then [0xde, 0xaa, 0xeb].get? (j - 0x2d)
  else if j < 0x35 then some 0xff
  else if j < 0x38 then [0xd5, 0xaa, 0xad].get? (j - 0x35)
  else if j < 0x18f then none
  else if j < 0x192 then [0xde, 0xaa, 0xeb].get? (j - 0x18f)
  else if j < 0x1a0 then some 0xff
  else if j < 0x200 then some 0x00
  else none

/-- A block `b` (offset to byte) carries every fixed byte of the NIC layout. -/
def NicFixed (b : Nat → Nat) : Prop := ∀ j v, nicFixedByte j = some v → b j = v

/-- The 4-and-4 encoding of a byte `v`: `((v>>1)|0xAA, v|0xAA)`. -/
def fourAndFour (v : Nat) : List Nat := [((v >>> 1) ||| 0xaa) % 256, (v ||| 0xaa) % 256]

/-- The first 55 bytes of the stream of `writeBackSub2`: `0xff`, the token, and the block
up to offset 0x34. -/
def wbs2Head (sc track : Nat) : List Nat :=
  [0xff, 0xfe,
   0xff, 0xff, 0xff, 0xff, 0xff, 0xff, 0xff, 0xff, 0xff, 0xff, 0xff,
   0xff, 0xff, 0xff, 0xff, 0xff, 0xff, 0xff, 0xff, 0xff, 0xff, 0xff,
   0x03, 0xfc, 0xff, 0x3f, 0xcf, 0xf3, 0xfc, 0xff, 0x3f, 0xcf, 0xf3, 0xfc,
   0xd5, 0xAA, 0x96,
   (volume >>> 1) ||| 0xaa, volume ||| 0xaa, (track >>> 1) ||| 0xaa, track ||| 0xaa,
   (sc >>> 1) ||| 0xaa, sc ||| 0xaa,
   (((volume ^^^ track ^^^ sc) % 256) >>> 1) ||| 0xaa, ((volume ^^^ track ^^^ sc) % 256) ||| 0xaa,
   0xde, 0xAA, 0xeb,
   0xff, 0xff, 0xff, 0xff, 0xff]

/-- The last 112 bytes of the stream of `writeBackSub2`: 14 bytes `0xff`, 96 bytes `0x00` and
the two CRC bytes `0xff`. -/
def wbs2Tail : List Nat := List.replicate 14 0xff ++ List.replicate 96 0x00 ++ [0xff, 0xff]

/-- The stream of `writeBackSub2` as bytes. -/
def writeBackSub2Bytes (m : Mem) (bn sc track : Nat) : List Nat :=
  wbs2Head sc track ++ (List.range 349).map (fun i => m (bn * 350 + i)) ++ wbs2Tail

/-- Card contents of a small FAT16 volume with 64 sectors per cluster: FAT at 0x400, root
directory at 0x40400, data area at 0x44400.  Root entry 0 is a DSK file (clusters 2..6),
root entry 1 a NIC file (clusters 7..15); every other byte of the data area is 0xA5. -/
def sampleCard : Mem := fun a =>
  if 0x400 ≤ a ∧ a < 0x400 + 32 then
    let e := [0xFFF8, 0xFFFF, 3, 4, 5, 6, 0xFFFF, 8, 9, 10, 11, 12, 13, 14, 15, 0xFFFF].getD
      ((a - 0x400) / 2) 0
    if (a - 0x400) % 2 = 0 then e % 256 else e / 256
  else if a = 0x40400 + 26 then 2
  else if a = 0x40400 + 32 + 26 then 7
  else if 0x44400 ≤ a then 0xA5
  else 0

/-- A machine state on `sampleCard`, card present, as `init` finds it before `dsk2Nic`. -/
def sampleVolume : State where
  rootAddr := 0x40400
  fatAddr := 0x400
  userAddr := 0x44400
  sectorsPerCluster := 64
  sectorsPerCluster2 := 6
  fatNic := fun _ => 0
  prevFatNumDsk := 0
  prevFatNumNic := 0
  nicDir := 1
  dskDir := 0
  ph_track := 0
  sector := 0
  bitbyte := 0
  prepare := 0
  inited := 0
  formatting := 0
  writeData := fun _ => 0
  sectors := fun _ => 0
  tracks := fun _ => 0
  buffNum := 0
  writePtr := 0
  sec := 0
  oldStp := 0
  card := sampleCard
  eject := false
  bus := []

/-- The events a flush of the first `n` slots adds to the bus: one write per non-empty slot,
in slot order, each with the bits `writeBackSub2` builds from the slot and its stored
(track, sector). -/
def FlushedBy (s : State) (n : Nat) (bus : List SdEvent) : Prop :=
  ∃ ws : List (Nat × List Bool),
    bus = s.bus ++ ws.map (fun w => SdEvent.write w.1 w.2) ∧
    ws.map Prod.snd =
      ((List.range n).filter (fun i => decide (s.sectors i ≠ 0xff))).map
        (fun i => writeBackSub2Bits s.writeData i (s.sectors i) (s.tracks i))

/-- A state in which slot 0 holds a captured sector (track 5, sector 3), the head is on track 5
and the prepare step is due with `sector = 2`: the next sector to stage is (5, 3). -/
def sampleBuffered : State :=
  { sampleVolume with
    inited := 1
    prepare := 1
    sector := 2
    ph_track := 20
    sectors := fun i => if i = 0 then 3 else 0xff
    tracks := fun i => if i = 0 then 5 else 0xff }

/-- The state `init` leaves on `sampleVolume`. -/
def sampleInit : State :=
  { sampleVolume with
    inited := 1
    prepare := 1
    prevFatNumNic := 0xff
    prevFatNumDsk := 0xff
    sectors := fun _ => 0xff
    tracks := fun _ => 0xff }

/-- A data-field capture: D5 AA AD and a payload. -/
def dataCapture : Nat → Nat := fun k => if k = 0 then 0xD5 else if k = 1 then 0xAA
  else if k = 2 then 0xAD else 0x96

/-- Cluster `k` of the chain of root directory entry `dir` as the card holds it: the start
cluster is the 16-bit value at offset 26 of the entry, each further cluster is the FAT
entry of the one before. -/
def chain (s : State) (dir : Nat) : Nat → Nat
  | 0 => read16 s.card ((s.rootAddr + dir * 32 + 26) % 2 ^ 32)
  | k + 1 => read16 s.card ((s.fatAddr + chain s dir k * 2) % 2 ^ 32)

/-- The SD address of the 512-byte sector `n` (file byte offset `n * 512`) of the file of
root entry `dir`, resolved through its cluster chain. -/
def fileSectorAddr (s : State) (dir n : Nat) : Nat :=
  clusterAddr s (chain s dir (n >>> s.sectorsPerCluster2)) n

/-- The 256 bytes at byte offset `n * 256` of the DSK file: half `n % 2` of its 512-byte
sector `n / 2`. -/
def dskBytes (s : State) (n : Nat) : List Nat :=
  (List.range 256).map
    (fun i => s.card (fileSectorAddr s s.dskDir (n / 2) + ((n % 2) * 256 + i)) % 256)

/-- The clusters `c` of a chain are valid for the volume: a data cluster number, its FAT
entry below the data area, its data inside the 32-bit address space. -/
def ClusterOk (s : State) (c : Nat) : Prop :=
  2 ≤ c ∧ c ≤ 0xfff6 ∧ s.fatAddr + 2 * c + 2 ≤ s.userAddr ∧
  s.userAddr + (c - 1) * s.sectorsPerCluster * 512 ≤ 2 ^ 32

/-- A well-formed volume for `dsk2Nic`: card present, cluster size a power of two as `init`
assumes, the two directory entries below the data area, a DSK chain of at least
`ceil(280 / sectorsPerCluster)` and a NIC chain of at least `ceil(560 / sectorsPerCluster)`
valid clusters, no cluster shared by the two files, and directory indices as `findExt`
returns them for a file it found (below 512, so that `i*32` stays inside the 16-bit `int`
of `prepareFat`). -/
def VolumeOk (s : State) : Prop :=
  s.eject = false ∧
  s.sectorsPerCluster = 2 ^ s.sectorsPerCluster2 ∧ s.sectorsPerCluster2 ≤ 7 ∧
  s.rootAddr + s.dskDir * 32 + 28 ≤ s.userAddr ∧
  s.rootAddr + s.nicDir * 32 + 28 ≤ s.userAddr ∧
  s.userAddr < 2 ^ 32 ∧
  (∀ k, k < clusterCount s 280 → ClusterOk s (chain s s.dskDir k)) ∧
  (∀ k, k < clusterCount s 560 → ClusterOk s (chain s s.nicDir k)) ∧
  (∀ i j, i < clusterCount s 560 → j < clusterCount s 280 →
    chain s s.nicDir i ≠ chain s s.dskDir j) ∧
  s.dskDir < 512 ∧ s.nicDir < 512

/-- The NIC sector index written in pass `n` of `dsk2Nic`: track `n / 16`, physical sector
of the logical sector `n % 16`. -/
def nicIndex (n : Nat) : Nat := (n / 16) * 16 + pgm_read_byte_near physicalSector (n % 16)

/-- The geometry and directory fields of two states agree. -/
def SameGeom (a b : State) : Prop :=
  a.rootAddr = b.rootAddr ∧ a.fatAddr = b.fatAddr ∧ a.userAddr = b.userAddr ∧
  a.sectorsPerCluster = b.sectorsPerCluster ∧ a.sectorsPerCluster2 = b.sectorsPerCluster2 ∧
  a.nicDir = b.nicDir ∧ a.dskDir = b.dskDir

/-- What pass `n` of `dsk2Nic` must send: 516 bytes, the address field of track `n / 16` and
physical sector `physicalSector[n % 16]`, and the payload encoded from the 256 DSK bytes at
file offset `n * 256`. -/
def GoodBlock (s : State) (n : Nat) (bits : List Bool) : Prop :=
  bits.length = 8 * 516 ∧
  (List.range' 0x25 8).map (dataByte bits) =
    fourAndFour volume ++ fourAndFour (n / 16) ++
      fourAndFour (pgm_read_byte_near physicalSector (n % 16)) ++
      fourAndFour ((volume ^^^ (n / 16) ^^^ pgm_read_byte_near physicalSector (n % 16)) % 256) ∧
  (List.range 343).map (fun k => dataByte bits (0x38 + k)) = gcrNibbles (dskBytes s n)

/-- The invariant of `dsk2Nic` after `n` passes, `s` the state at the call and `σ` the
current state. -/
structure PassInv (s σ : State) (n : Nat) : Prop where
  eject : σ.eject = false
  geom : SameGeom σ s
  cardLow : ∀ a, a < s.userAddr → σ.card a = s.card a
  cardDsk : ∀ m j, m < 280 → j < 512 →
    σ.card (fileSectorAddr s s.dskDir m + j) = s.card (fileSectorAddr s s.dskDir m + j)
  fixed : NicFixed (fun j => σ.writeData (512 + j))
  winDsk : ∀ k, k / FAT_DSK_ELEMS = σ.prevFatNumDsk → k < clusterCount s 280 →
    fatDsk σ.writeData (k % FAT_DSK_ELEMS) = chain s s.dskDir k
  winNic : ∀ k, k / FAT_NIC_ELEMS = σ.prevFatNumNic → k < clusterCount s 560 →
    σ.fatNic (k % FAT_NIC_ELEMS) = chain s s.nicDir k
  scratch : 0 < n → ∀ j, j < 512 →
    σ.writeData j = s.card (fileSectorAddr s s.dskDir ((n - 1) / 2) + j) % 256
  bus : ∃ evs : List SdEvent, σ.bus = s.bus ++ evs ∧ evs.length = n ∧
    ∀ m, m < n → ∃ bits,
      evs[m]? = some (SdEvent.write (fileSectorAddr s s.nicDir (nicIndex m)) bits) ∧
      GoodBlock s m bits

/-- The number of pairs of adjacent bits `(i, i+1)`, `i = 0..6`, of the byte `b` that are
both zero. -/
def zeroPairs (b : Nat) : Nat :=
  ((List.range 7).filter (fun i => !b.testBit i && !b.testBit (i + 1))).length

/-- The number of passes of the loop of `prepareFat` (lines 446-454), one FAT entry read by
`cmd17Fast` in each, with `n` iterations left, loop variable `i` and current cluster `ft`:
the loop is left by `break` at the end of the pass that read an entry `> 0xfff6` or whose
window number `fn` is past `fatNum`. -/
def prepareFatSteps (card : Mem) (fatAddr fatNum fatElemNum : Nat) : Nat → Nat → Nat → Nat
  | 0, _, _ => 0
  | n + 1, i, ft =>
    let fn := ((i + 1) / fatElemNum) % 256
    let ft := read16 card ((fatAddr + ft * 2) % 2 ^ 32)
    if ft > 0xfff6 ∨ fn > fatNum then 1
    else 1 + prepareFatSteps card fatAddr fatNum fatElemNum n (i + 1) ft

/-- The number of FAT entries that `prepareFat(i, fat, len, fatNum, fatElemNum)` reads after
the start cluster of the directory entry. -/
def prepareFatReads (s : State) (i len fatNum fatElemNum : Nat) : Nat :=
  if s.eject then 0
  else prepareFatSteps s.card s.fatAddr fatNum fatElemNum len 0
    (read16 s.card ((s.rootAddr + i * 32 + 26) % 2 ^ 32))

/-- A card whose FAT (at address 0) links every cluster `j` to `j + 1`, with one root
directory entry (at 0x20000) whose start cluster is 2: the chain is `c_k = k + 2`. -/
def longChainCard : Mem := fun a =>
  if a < 0x20000 then (if a % 2 = 0 then (a / 2 + 1) % 256 else (a / 2 + 1) / 256)
  else if a = 0x20000 + 26 then 2
  else 0

/-- A machine state on `longChainCard`. -/
def longChainVolume : State :=
  { sampleVolume with card := longChainCard, fatAddr := 0, rootAddr := 0x20000,
                      userAddr := 0x24000 }

/-- A card, all zero, with one root directory entry (at 0x20000) whose start cluster is
0xFFFF; the FAT is at address 0. -/
def badStartCard : Mem := fun a =>
  if a = 0x20000 + 26 ∨ a = 0x20000 + 27 then 0xff else 0

/-- A machine state on `badStartCard`. -/
def badStartVolume : State :=
  { sampleVolume with card := badStartCard, fatAddr := 0, rootAddr := 0x20000,
                      userAddr := 0x24000 }

/-- The locals of `findExt` that live across the passes of its loop (`max_file`, `max_time`,
`max_date`) and the cell `*protect`. -/
structure FindExt where
  max_file : Nat
  max_time : Nat
  max_date : Nat
  protect : Nat

/-- One pass of the loop of `findExt` (lines 380-417) on root entry `i`, after the eject
poll.  `str` is the extension looked for, `hasProtect` tells whether the pointer `protect`
is non-null.  The one-byte reads at offsets 0 and 11, the four-byte reads at offsets 8 and 22
are lookups in the card; every `continue` leaves the locals as they are. -/
def findExtStep (s : State) (str : Nat → Nat) (hasProtect : Bool) (i : Nat) (st : FindExt) :
    FindExt :=
  let d := s.card ((s.rootAddr + i * 32) % 2 ^ 32) % 256
  if d = 0x00 ∨ d = 0x05 ∨ d = 0x2e ∨ d = 0xe5 then st
  else if ¬ ((0x41 ≤ d ∧ d ≤ 0x5a) ∨ (0x30 ≤ d ∧ d ≤ 0x39)) then st
  else
    let d := s.card ((s.rootAddr + i * 32 + 11) % 2 ^ 32) % 256
    if d &&& 0x1e ≠ 0 then st
    else if d = 0xf then st
    else
      let adr := (s.rootAddr + i * 32 + 8) % 2 ^ 32
      let ext0 := s.card adr % 256
      let ext1 := s.card (adr + 1) % 256
      let ext2 := s.card (adr + 2) % 256
      let st := if hasProtect then { st with protect := ((s.card (adr + 3) % 256) &&& 1) <<< 3 }
        else st
      let adr := (s.rootAddr + i * 32 + 22) % 2 ^ 32
      let time0 := s.card adr % 256
      let time1 := s.card (adr + 1) % 256
      let date0 := s.card (adr + 2) % 256
      let date1 := s.card (adr + 3) % 256
      if ext0 = str 0 ∧ ext1 = str 1 ∧ ext2 = str 2 then
        let tm := time0 + time1 * 0x100
        let dt := date0 + date1 * 0x100
        if dt > st.max_date ∨ (dt = st.max_date ∧ tm ≥ st.max_time) then
          { st with max_time := tm, max_date := dt, max_file := i }
        else st
      else st

/-- `findExt(str, protect, name)`: the result is the return value, the cell `*protect` and
the array `name` after the call; `protect` and `name` are `none` for a null pointer.  With
the eject line set the function returns 512 at the first poll. -/
def findExt (s : State) (str : Nat → Nat) (protect : Option Nat) (name : Option (Nat → Nat)) :
    Nat × Option Nat × Option (Nat → Nat) :=
  if s.eject then (512, protect, name)
  else
    let st := forLoop 512 (findExtStep s str protect.isSome)
      { max_file := 512, max_time := 0, max_date := 0, protect := protect.getD 0 }
    let name := if st.max_file ≠ 512 then
        name.map (fun nm j =>
          if j < 8 then s.card ((s.rootAddr + st.max_file * 32) % 2 ^ 32 + j) % 256 else nm j)
      else name
    (st.max_file, protect.map (fun _ => st.protect), name)

/-- Byte `off` of root directory entry `i` on the card. -/
def rootByte (s : State) (i off : Nat) : Nat := s.card (s.rootAddr + i * 32 + off) % 256

/-- The time stamp of root entry `i`: offsets 22..23, little-endian. -/
def entryTime (s : State) (i : Nat) : Nat := rootByte s i 22 + rootByte s i 23 * 0x100

/-- The date stamp of root entry `i`: offsets 24..25, little-endian. -/
def entryDate (s : State) (i : Nat) : Nat := rootByte s i 24 + rootByte s i 25 * 0x100

/-- Root entry `i` passes the filter of the directory scan: its first byte is a capital
letter or a digit (so none of 0x00, 0x05, 0x2E, 0xE5) and its attribute byte has none of the
bits 0x1E. -/
def EntryFiltered (s : State) (i : Nat) : Prop :=
  ((0x41 ≤ rootByte s i 0 ∧ rootByte s i 0 ≤ 0x5a) ∨
    (0x30 ≤ rootByte s i 0 ∧ rootByte s i 0 ≤ 0x39)) ∧
  rootByte s i 11 &&& 0x1e = 0

/-- Root entry `i` passes the filter and has the three bytes of `str` as its extension
(offsets 8..10). -/
def EntryMatches (s : State) (str : Nat → Nat) (i : Nat) : Prop :=
  EntryFiltered s i ∧
  rootByte s i 8 = str 0 ∧ rootByte s i 9 = str 1 ∧ rootByte s i 10 = str 2

/-- The 32 bytes of a root directory entry: name, extension, attribute byte, time and date
stamps (little-endian at offsets 22 and 24), start cluster 0 and size 0. -/
def dirEntryBytes (name ext : List Nat) (attr time date : Nat) : List Nat :=
  name ++ ext ++ [attr] ++ List.replicate 10 0 ++
    [time % 256, time / 256, date % 256, date / 256] ++ List.replicate 6 0

/-- A card whose root directory (at 0x40400) holds `A.NIC` (read-only, dated 2021-06-15),
`B.NIC` (dated 2020-01-01) and `B.DSK` (dated 2020-01-01), in this order; the rest is zero. -/
def dirCard : Mem := fun a =>
  if 0x40400 ≤ a ∧ a < 0x40400 + 96 then
    (dirEntryBytes [0x41, 0x20, 0x20, 0x20, 0x20, 0x20, 0x20, 0x20] [0x4E, 0x49, 0x43]
        0x01 0 0x52CF ++
      dirEntryBytes [0x42, 0x20, 0x20, 0x20, 0x20, 0x20, 0x20, 0x20] [0x4E, 0x49, 0x43]
        0x00 0 0x5021 ++
      dirEntryBytes [0x42, 0x20, 0x20, 0x20, 0x20, 0x20, 0x20, 0x20] [0x44, 0x53, 0x4B]
        0x00 0 0x5021).getD (a - 0x40400) 0
  else 0

/-- A machine state on `dirCard`. -/
def dirVolume : State := { sampleVolume with card := dirCard }

/-- The extension `"NIC"`. -/
def nicExt : Nat → Nat := fun j => [0x4E, 0x49, 0x43].getD j 0

instance (s : State) (i : Nat) : Decidable (EntryFiltered s i) := by
  unfold EntryFiltered
  infer_instance

instance (s : State) (str : Nat → Nat) (i : Nat) : Decidable (EntryMatches s str i) := by
  unfold EntryMatches
  infer_instance

/-- The bits `writeSD` and `duplicateFat` clock out for a block after `cmdFast(24, ...)`:
`0xff`, the token `0xfe`, `buf[0..511]`, `0xff 0xff`. -/
def blockBits (buf : Mem) : List Bool :=
  writeByteFast 0xff ++ writeByteFast 0xfe ++
    forLoop 512 (fun i bits => bits ++ writeByteFast (buf i)) [] ++
    writeByteFast 0xff ++ writeByteFast 0xff

/-- `writeSD(adr, data, len)`: the 512-byte block of `adr` is read into `buf = writeData`,
`memcp` puts `len` bytes of `data` at offset `adr & 0x1ff`, and the block is written back. -/
def writeSD (s : State) (adr : Nat) (data : Nat → Nat) (len : Nat) : State :=
  if s.eject then s
  else
    let blk := adr &&& 0xfffffe00
    let buf := forLoop 512 (fun i m => wr m i (s.card (blk + i))) s.writeData
    let buf := forLoop len (fun i m => wr m ((adr &&& 0x1ff) + i) (data i)) buf
    sdWrite { s with writeData := buf } blk (blockBits buf)

/-- One pass of the loop of `duplicateFat`: sector `j` of the first FAT is read into `buf`
and written to the second FAT, `sectorsPerFat` sectors further. -/
def duplicateFatStep (sectorsPerFat : Nat) (j : Nat) (s : State) : State :=
  let adr := (s.fatAddr + j * 512) % 2 ^ 32
  let buf := forLoop 512 (fun i m => wr m i (s.card (adr + i))) s.writeData
  sdWrite { s with writeData := buf } ((adr + sectorsPerFat * 512) % 2 ^ 32) (blockBits buf)

/-- `duplicateFat()`; the global `sectorsPerFat` is passed as an argument. -/
def duplicateFat (sectorsPerFat : Nat) (s : State) : State :=
  if s.eject then s else forLoop sectorsPerFat (duplicateFatStep sectorsPerFat) s

/-- The test of line 548 of `createNic` on root entry `re`: first byte 0xE5 or 0x00 and
attribute byte not 0x0F. -/
def entryFree (s : State) (re : Nat) : Bool :=
  (s.card ((s.rootAddr + re * 32 + 0) % 2 ^ 32) % 256 = 0xe5 ∨
    s.card ((s.rootAddr + re * 32 + 0) % 2 ^ 32) % 256 = 0x00) ∧
  s.card ((s.rootAddr + re * 32 + 11) % 2 ^ 32) % 256 ≠ 0xf

/-- The search loop of `createNic` (lines 541-549) with `n` passes left at entry `re`: the
value of `re` when the loop is left, by `break` at the first free entry or at its end. -/
def createNicSearch (s : State) : Nat → Nat → Nat
  | 0, re => re
  | n + 1, re => if entryFree s re then re else createNicSearch s n (re + 1)

/-- The array `dirEntry` of `createNic` (lines 536-539): zeroed, the 8 bytes of `name`, the
extension `"NIC"` and the file size 286720 as a little-endian `unsigned long` at offset 28. -/
def nicDirEntry (name : Nat → Nat) : Mem :=
  let m := forLoop 32 (fun i m => wr m i 0) (fun _ => 0)
  let m := forLoop 8 (fun i m => wr m i (name i)) m
  let m := forLoop 3 (fun i m => wr m (8 + i) (nicExt i)) m
  let m := wr m 28 (286720 % 256)
  let m := wr m 29 (286720 / 256 % 256)
  let m := wr m 30 (286720 / 65536 % 256)
  wr m 31 (286720 / 16777216 % 256)

/-- The loop of `createNic` that links the clusters (lines 555-567), `fuel` passes at most:
`for (ft = ...; clusterNum < needed; ft++)` reads the 16-bit word at `fatAddr + ft*2`, and
for a zero word writes `ft` (two bytes, low first) at `adr` and moves `adr` to that word.
The result is the state and `adr` when the loop is left, `none` when it is still running
after `fuel` passes; the loop has no other exit than `clusterNum` reaching `needed`. -/
def createNicChain (needed : Nat) : Nat → State → Nat → Nat → Nat → Option (State × Nat)
  | 0, s, _, clusterNum, adr => if clusterNum < needed then none else some (s, adr)
  | fuel + 1, s, ft, clusterNum, adr =>
    if clusterNum < needed then
      let d := read16 s.card ((s.fatAddr + ft * 2) % 2 ^ 32)
      if d = 0 then
        createNicChain needed fuel
          (writeSD s adr (fun j => if j = 0 then ft % 256 else ft / 256 % 256) 2)
          ((ft + 1) % 2 ^ 32) ((clusterNum + 1) % 65536) ((s.fatAddr + ft * 2) % 2 ^ 32)
      else createNicChain needed fuel s ((ft + 1) % 2 ^ 32) clusterNum adr
    else some (s, adr)

/-- `createNic(name)`, the linking loop run for `fuel` passes at most: the state and the
return value, `none` when the linking loop is still running after `fuel` passes.  The
global `sectorsPerFat` is passed as an argument. -/
def createNic (fuel sectorsPerFat : Nat) (s : State) (name : Nat → Nat) :
    Option (State × Nat) :=
  if s.eject then some (s, 0)
  else if createNicSearch s 512 0 = 512 then some (s, 0)
  else
    let re := createNicSearch s 512 0
    let s := writeSD s ((s.rootAddr + re * 32) % 2 ^ 32) (nicDirEntry name) 32
    match createNicChain (clusterCount s 560) fuel s 2 0 ((s.rootAddr + re * 32 + 26) % 2 ^ 32)
      with
    | none => none
    | some (s, adr) =>
      some (duplicateFat sectorsPerFat (writeSD s adr (fun _ => 0xff) 2), 1)

/-- The number of zero 16-bit words among the `n` words at `fatAddr + 2*ft`,
`fatAddr + 2*(ft+1)`, ... of the card: what the linking loop of `createNic` takes for free
clusters. -/
def zeroWords (card : Mem) (fatAddr : Nat) : Nat → Nat → Nat
  | _, 0 => 0
  | ft, n + 1 =>
    (if read16 card ((fatAddr + ft * 2) % 2 ^ 32) = 0 then 1 else 0) +
      zeroWords card fatAddr (ft + 1) n

/-- A card with a full FAT: two FAT copies of one sector each at 0x200 and 0x400 with every
entry 0xFFFF, and a root directory at 0x600 whose entry 0 is the file `A.DSK`; the rest is
zero. -/
def fullFatCard : Mem := fun a =>
  if 0x200 ≤ a ∧ a < 0x600 then 0xFF
  else if 0x600 ≤ a ∧ a < 0x620 then
    (dirEntryBytes [0x41, 0x20, 0x20, 0x20, 0x20, 0x20, 0x20, 0x20] [0x44, 0x53, 0x4B]
      0x00 0 0x5021).getD (a - 0x600) 0
  else 0

/-- A machine state on `fullFatCard`, 128 sectors per cluster (a NIC file needs 5). -/
def fullFatVolume : State :=
  { sampleVolume with card := fullFatCard, fatAddr := 0x200, rootAddr := 0x600,
                      userAddr := 0x4600, sectorsPerCluster := 128, sectorsPerCluster2 := 7 }

/-- Modelled from the spec: the timer interrupt of `sub.S`, which is not among the sources
(the interrupt mutates the bit cursor and `prepare`; `prepare` is set by the interrupt at
the end of a stream).  Between two foreground steps the cursor `bitbyte` has moved to `b`,
and `prepare` is set when `done` holds. -/
def timerTick (s : State) (b : Nat) (done : Bool) : State :=
  { s with bitbyte := b % 65536, prepare := if done then 1 else s.prepare }

/-- The foreground after `n` rounds in which the timer interrupt sets `prepare` at the end
of a stream and the prepare step stages the next sector. -/
def tickRun : Nat → State → State
  | 0, s => s
  | n + 1, s => tickRun n (prepareStep (timerTick s (402 * 8) true))

/-- The state after a run from `sampleInit` with no address capture: the prepare step and a
data capture (slot 0 takes sector 1 of track 0, `sector` becomes 2), fourteen rounds of
`tickRun` (`sector` becomes 0; none of the staged sectors 3..15, 0 is in the pool), and two
data captures with no prepare step in between (slot 1 takes sector 0, slot 2 takes sector 1
of track 0 again). -/
def tickDupState : State :=
  writeBack (capture (writeBack (capture
    (tickRun 14 (writeBack (capture (prepareStep sampleInit) dataCapture)))
    dataCapture)) dataCapture)

/-- A card whose root directory (at 0x40400) holds the single entry `a.NIC` (first byte
0x61, a lower-case letter; attribute byte 0; dated 2021-06-15); the rest is zero. -/
def lowerCaseCard : Mem := fun a =>
  if 0x40400 ≤ a ∧ a < 0x40400 + 32 then
    (dirEntryBytes [0x61, 0x20, 0x20, 0x20, 0x20, 0x20, 0x20, 0x20] [0x4E, 0x49, 0x43]
        0x00 0 0x52CF).getD (a - 0x40400) 0
  else 0

/-- A machine state on `lowerCaseCard`. -/
def lowerCaseVolume : State := { sampleVolume with card := lowerCaseCard }

/-! ## Theorems -/

/-! ### Memory and table facts -/

theorem wr_same (m : Mem) (a v : Nat) : wr m a v a = v % 256 := by
  simp [wr]

theorem wr_other (m : Mem) (a v x : Nat) (h : x ≠ a) : wr m a v x = m x := by
  simp [wr, h]

theorem encTable_lt (i : Nat) : pgm_read_byte_near encTable i < 256 := by
  by_cases h : i < 64
  · interval_cases i <;> decide
  · have : encTable.length ≤ i := by simp [encTable]; omega
    simp [pgm_read_byte_near, List.getElem?_eq_none this]

theorem dec_enc (y : Nat) (h : y < 64) :
    pgm_read_byte_near decTable (pgm_read_byte_near encTable y) = y := by
  interval_cases y <;> rfl

theorem lowValue_lt (m : Mem) (src i : Nat) : lowValue m src i < 64 := by
  have h1 : m (src + i) &&& 3 < 4 := Nat.and_lt_two_pow _ (by norm_num : 3 < 2 ^ 2)
  have h2 : m (src + (i + 86)) &&& 3 < 4 := Nat.and_lt_two_pow _ (by norm_num : 3 < 2 ^ 2)
  have h3 : m (src + (i + 172)) &&& 3 < 4 := Nat.and_lt_two_pow _ (by norm_num : 3 < 2 ^ 2)
  unfold lowValue
  generalize m (src + i) &&& 3 = a at h1
  generalize m (src + (i + 86)) &&& 3 = b at h2
  generalize m (src + (i + 172)) &&& 3 = c at h3
  by_cases hi : i ≤ 83
  · simp only [hi, if_true]
    interval_cases a <;> interval_cases b <;> interval_cases c <;> decide
  · simp only [hi, if_false]
    interval_cases a <;> interval_cases b <;> decide

theorem highValue_lt (m : Mem) (src i : Nat) (h : m (src + i) < 256) : highValue m src i < 64 := by
  unfold highValue
  generalize m (src + i) = b at h
  rw [Nat.shiftRight_eq_div_pow]
  omega

/-! ### The encoding loops -/

theorem lowValue_congr (m1 m2 : Mem) (src i : Nat) (hi : i < 86)
    (h : ∀ j, j < 256 → m1 (src + j) = m2 (src + j)) : lowValue m1 src i = lowValue m2 src i := by
  unfold lowValue
  rw [h i (by omega), h (i + 86) (by omega)]
  by_cases h83 : i ≤ 83
  · rw [if_pos h83, if_pos h83, h (i + 172) (by omega)]
  · rw [if_neg h83, if_neg h83]

theorem encLow_frame (src dst : Nat) (m : Mem) (n a : Nat)
    (h : a < dst + 0x38 ∨ dst + 0x38 + n ≤ a) :
    (forLoop n (encLowStep src dst) (m, 0)).1 a = m a := by
  induction n with
  | zero => rfl
  | succ n ih =>
    simp only [forLoop, encLowStep]
    rw [wr_other _ _ _ _ (by omega)]
    exact ih (by omega)

theorem encLow_ox (src dst : Nat) (m : Mem) (hsep : src + 256 ≤ dst) (n : Nat) (hn : n < 86) :
    (forLoop (n + 1) (encLowStep src dst) (m, 0)).2 = lowValue m src n := by
  simp only [forLoop, encLowStep]
  exact lowValue_congr _ _ _ _ hn (fun j hj => encLow_frame src dst m n _ (by omega))

theorem encLow_val (src dst : Nat) (m : Mem) (hsep : src + 256 ≤ dst) (n : Nat) (hn : n ≤ 86)
    (k : Nat) (hk : k < n) :
    (forLoop n (encLowStep src dst) (m, 0)).1 (dst + (k + 0x38)) =
      pgm_read_byte_near encTable
        (lowValue m src k ^^^ (if k = 0 then 0 else lowValue m src (k - 1))) := by
  induction n with
  | zero => omega
  | succ n ih =>
    by_cases hkn : k = n
    · subst hkn
      have hx : lowValue (forLoop k (encLowStep src dst) (m, 0)).1 src k = lowValue m src k :=
        lowValue_congr _ _ _ _ (by omega) (fun j hj => encLow_frame src dst m k _ (by omega))
      have hox : (forLoop k (encLowStep src dst) (m, 0)).2
          = (if k = 0 then 0 else lowValue m src (k - 1)) := by
        by_cases hk0 : k = 0
        · subst hk0; rfl
        · obtain ⟨j, rfl⟩ := Nat.exists_eq_succ_of_ne_zero hk0
          rw [if_neg hk0, encLow_ox src dst m hsep j (by omega)]
          rfl
      simp only [forLoop, encLowStep]
      rw [wr_same, hx, hox, Nat.mod_eq_of_lt (encTable_lt _)]
    · simp only [forLoop, encLowStep]
      rw [wr_other _ _ _ _ (by omega)]
      exact ih (by omega) (by omega)

theorem encHigh_frame (src dst : Nat) (p : Mem × Nat) (n a : Nat)
    (h : a < dst + 0x8e ∨ dst + 0x8e + n ≤ a) :
    (forLoop n (encHighStep src dst) p).1 a = p.1 a := by
  induction n with
  | zero => rfl
  | succ n ih =>
    simp only [forLoop, encHighStep]
    rw [wr_other _ _ _ _ (by omega)]
    exact ih (by omega)

theorem encHigh_ox (src dst : Nat) (p : Mem × Nat) (hsep : src + 256 ≤ dst) (n : Nat)
    (hn : n < 256) :
    (forLoop (n + 1) (encHighStep src dst) p).2 = highValue p.1 src n := by
  simp only [forLoop, encHighStep, highValue]
  rw [encHigh_frame src dst p n _ (by omega)]

theorem encHigh_val (src dst : Nat) (p : Mem × Nat) (hsep : src + 256 ≤ dst) (n : Nat)
    (hn : n ≤ 256) (k : Nat) (hk : k < n) :
    (forLoop n (encHighStep src dst) p).1 (dst + (k + 0x8e)) =
      pgm_read_byte_near encTable
        (highValue p.1 src k ^^^ (if k = 0 then p.2 else highValue p.1 src (k - 1))) := by
  induction n with
  | zero => omega
  | succ n ih =>
    by_cases hkn : k = n
    · subst hkn
      have hx : highValue (forLoop k (encHighStep src dst) p).1 src k = highValue p.1 src k := by
        simp only [highValue]
        rw [encHigh_frame src dst p k _ (by omega)]
      have hox : (forLoop k (encHighStep src dst) p).2
          = (if k = 0 then p.2 else highValue p.1 src (k - 1)) := by
        by_cases hk0 : k = 0
        · subst hk0; rfl
        · obtain ⟨j, rfl⟩ := Nat.exists_eq_succ_of_ne_zero hk0
          rw [if_neg hk0, encHigh_ox src dst p hsep j (by omega)]
          rfl
      simp only [forLoop, encHighStep]
      rw [wr_same, hx, hox, Nat.mod_eq_of_lt (encTable_lt _)]
    · simp only [forLoop, encHighStep]
      rw [wr_other _ _ _ _ (by omega)]
      exact ih (by omega) (by omega)

theorem highValue_low (src dst : Nat) (m : Mem) (hsep : src + 256 ≤ dst) (i : Nat) (hi : i < 256) :
    highValue (forLoop 86 (encLowStep src dst) (m, 0)).1 src i = highValue m src i := by
  simp only [highValue]
  rw [encLow_frame src dst m 86 _ (by omega)]

/-- Nibble `k` of the payload is the disk byte of the XOR of the 6-bit values `k` and `k-1`. -/
theorem nibble_spec (src dst : Nat) (m : Mem) (hsep : src + 256 ≤ dst) (k : Nat) (hk : k < 343) :
    encodeData src dst m (dst + (0x38 + k)) =
      pgm_read_byte_near encTable
        (sixBit m src k ^^^ (if k = 0 then 0 else sixBit m src (k - 1))) := by
  unfold encodeData encodeLoops
  by_cases h1 : k < 86
  · rw [wr_other _ _ _ _ (by omega), encHigh_frame _ _ _ _ _ (by omega),
      show dst + (0x38 + k) = dst + (k + 0x38) by omega, encLow_val src dst m hsep 86 le_rfl k h1]
    have h2 : k - 1 < 86 := by omega
    simp only [sixBit, h1, h2, if_true]
  · by_cases h2 : k < 342
    · rw [wr_other _ _ _ _ (by omega), show dst + (0x38 + k) = dst + ((k - 86) + 0x8e) by omega,
        encHigh_val src dst _ hsep 256 le_rfl (k - 86) (by omega),
        highValue_low src dst m hsep _ (by omega)]
      have hk0 : k ≠ 0 := by omega
      simp only [sixBit, h1, h2, hk0, if_true, if_false]
      by_cases h3 : k = 86
      · subst h3
        simp only [show (86 - 86 = 0) from rfl, if_true, show (86 - 1 < 86) by decide]
        rw [show (86 - 1 : Nat) = 85 from rfl, ← encLow_ox src dst m hsep 85 (by omega)]
      · have h4 : k - 86 ≠ 0 := by omega
        have h5 : ¬ (k - 1 < 86) := by omega
        have h6 : k - 1 < 342 := by omega
        simp only [h4, h5, h6, if_true, if_false]
        rw [highValue_low src dst m hsep _ (by omega), show k - 86 - 1 = k - 1 - 86 by omega]
    · have hk2 : k = 342 := by omega
      subst hk2
      rw [show dst + (0x38 + 342) = dst + 0x18e by omega, wr_same,
        Nat.mod_eq_of_lt (encTable_lt _), show (256 : Nat) = 255 + 1 from rfl,
        encHigh_ox src dst _ hsep 255 (by omega), highValue_low src dst m hsep _ (by omega)]
      simp [sixBit]

/-! ### The XOR chain -/

theorem loadSector_lt (S : List Nat) (hb : ∀ b ∈ S, b < 256) (a : Nat) : loadSector S a < 256 := by
  unfold loadSector
  by_cases h : a < S.length
  · rw [List.getD_eq_getElem _ _ h]
    exact hb _ (List.getElem_mem h)
  · rw [List.getD_eq_default _ _ (by omega)]
    decide

theorem sixBit_lt (m : Mem) (src k : Nat) (hm : ∀ j, j < 256 → m (src + j) < 256) :
    sixBit m src k < 64 := by
  unfold sixBit
  split_ifs with h1 h2
  · exact lowValue_lt m src k
  · exact highValue_lt m src _ (hm _ (by omega))
  · decide

theorem chain_step (src dst : Nat) (m : Mem) (hsep : src + 256 ≤ dst)
    (hm : ∀ j, j < 256 → m (src + j) < 256) (k : Nat) (hk : k < 343) :
    pgm_read_byte_near decTable (encodeData src dst m (dst + (0x38 + k))) ^^^
      (if k = 0 then 0 else sixBit m src (k - 1)) = sixBit m src k := by
  rw [nibble_spec src dst m hsep k hk, dec_enc]
  · exact Nat.xor_cancel_right _ _
  · have h1 := sixBit_lt m src k hm
    have h2 : (if k = 0 then 0 else sixBit m src (k - 1)) < 64 := by
      split_ifs
      · decide
      · exact sixBit_lt m src _ hm
    exact Nat.xor_lt_two_pow (n := 6) h1 h2

theorem xorChain_map (f g : Nat → Nat) (n a prev : Nat)
    (h : ∀ k, a ≤ k → k < a + n →
      pgm_read_byte_near decTable (f k) ^^^ (if k = a then prev else g (k - 1)) = g k) :
    xorChain ((List.range' a n).map f) prev = (List.range' a n).map g := by
  induction n generalizing a prev with
  | zero => rfl
  | succ n ih =>
    have ha := h a le_rfl (by omega)
    rw [if_pos rfl] at ha
    rw [List.range'_succ, List.map_cons, List.map_cons, xorChain]
    simp only [ha]
    rw [ih (a + 1) (g a)]
    intro k hk1 hk2
    have hk := h k (by omega) (by omega)
    rw [if_neg (by omega)] at hk
    by_cases hka : k = a + 1
    · subst hka
      simpa using hk
    · rw [if_neg hka]
      exact hk

theorem foldl_xor_chain (f g : Nat → Nat) (n a acc : Nat)
    (h : ∀ k, a ≤ k → k < a + n →
      pgm_read_byte_near decTable (f k) ^^^ (if k = a then acc else g (k - 1)) = g k) :
    ((List.range' a n).map (fun k => pgm_read_byte_near decTable (f k))).foldl (· ^^^ ·) acc
      = if n = 0 then acc else g (a + n - 1) := by
  induction n generalizing a acc with
  | zero => rfl
  | succ n ih =>
    have ha := h a le_rfl (by omega)
    rw [if_pos rfl] at ha
    rw [List.range'_succ, List.map_cons, List.foldl_cons, Nat.xor_comm, ha, ih (a + 1) (g a)]
    · by_cases hn : n = 0
      · subst hn; simp
      · rw [if_neg hn, if_neg (by omega)]
        congr 1
        omega
    · intro k hk1 hk2
      have hk := h k (by omega) (by omega)
      rw [if_neg (by omega)] at hk
      by_cases hka : k = a + 1
      · subst hka
        simpa using hk
      · rw [if_neg hka]
        exact hk

theorem getD_map_range (g : Nat → Nat) (n k : Nat) (hk : k < n) :
    ((List.range n).map g).getD k 0 = g k := by
  rw [List.getD_eq_getElem _ _ (by simpa using hk)]
  simp

theorem xorChain_nibbles (S : List Nat) (hb : ∀ b ∈ S, b < 256) :
    xorChain (gcrNibbles S) 0 = (List.range 343).map (sixBit (loadSector S) 0) := by
  unfold gcrNibbles
  rw [List.range_eq_range']
  apply xorChain_map
  intro k _ hk
  exact chain_step 0 512 (loadSector S) (by omega) (fun j _ => loadSector_lt S hb _) k (by omega)

/-! ### Reassembling a byte -/

theorem flip_inverse (a b c : Nat) (ha : a < 4) (hb : b < 4) (hc : c < 4) :
    let x := (pgm_read_byte_near FlipBit1 a ||| pgm_read_byte_near FlipBit2 b |||
      pgm_read_byte_near FlipBit3 c) % 256
    pgm_read_byte_near FlipBit (x &&& 3) = a ∧
    pgm_read_byte_near FlipBit ((x >>> 2) &&& 3) = b ∧
    pgm_read_byte_near FlipBit ((x >>> 4) &&& 3) = c := by
  interval_cases a <;> interval_cases b <;> interval_cases c <;> decide

theorem byte_join (b : Nat) (hb : b < 256) : ((((b >>> 2) % 256) <<< 2) ||| (b &&& 3)) % 256 = b := by
  interval_cases b <;> rfl

theorem lowValue_fields (m : Mem) (src i : Nat) :
    pgm_read_byte_near FlipBit (lowValue m src i &&& 3) = m (src + i) &&& 3 ∧
    pgm_read_byte_near FlipBit ((lowValue m src i >>> 2) &&& 3) = m (src + (i + 86)) &&& 3 ∧
    (i ≤ 83 →
      pgm_read_byte_near FlipBit ((lowValue m src i >>> 4) &&& 3) = m (src + (i + 172)) &&& 3) := by
  have h1 : m (src + i) &&& 3 < 4 := Nat.and_lt_two_pow _ (by norm_num : 3 < 2 ^ 2)
  have h2 : m (src + (i + 86)) &&& 3 < 4 := Nat.and_lt_two_pow _ (by norm_num : 3 < 2 ^ 2)
  have h3 : m (src + (i + 172)) &&& 3 < 4 := Nat.and_lt_two_pow _ (by norm_num : 3 < 2 ^ 2)
  unfold lowValue
  by_cases hi : i ≤ 83
  · simp only [hi, if_true, true_implies]
    exact flip_inverse _ _ _ h1 h2 h3
  · simp only [hi, if_false, false_implies, and_true]
    have h := flip_inverse _ _ 0 h1 h2 (by decide)
    exact ⟨h.1, h.2.1⟩

theorem lowBits_nibbles (m : Mem) (i : Nat) (hi : i < 256) :
    lowBits ((List.range 343).map (sixBit m 0)) i = m i &&& 3 := by
  unfold lowBits
  split_ifs with h1 h2
  · rw [getD_map_range _ _ _ (by omega)]
    simp only [sixBit, h1, if_true]
    simpa using (lowValue_fields m 0 i).1
  · rw [getD_map_range _ _ _ (by omega)]
    have h3 : i - 86 < 86 := by omega
    simp only [sixBit, h3, if_true]
    have h := (lowValue_fields m 0 (i - 86)).2.1
    rw [show 0 + (i - 86 + 86) = i by omega] at h
    exact h
  · rw [getD_map_range _ _ _ (by omega)]
    have h3 : i - 172 < 86 := by omega
    simp only [sixBit, h3, if_true]
    have h := (lowValue_fields m 0 (i - 172)).2.2 (by omega)
    rw [show 0 + (i - 172 + 172) = i by omega] at h
    exact h

/-! ### C1, C7: round trip and checksum -/

/-- C1: GCR round trip. For every 256-byte sector `S`, decoding the 343 nibbles that the
encoding loops of `dsk2Nic` store at block offsets 0x38..0x18E (table lookup, running XOR,
inverse flipping of the low two bits, high six bits shifted left by 2) returns exactly `S`. -/
theorem gcr_round_trip (S : List Nat) (hlen : S.length = 256) (hb : ∀ b ∈ S, b < 256) :
    gcrDecode (gcrNibbles S) = S := by
  unfold gcrDecode
  simp only [xorChain_nibbles S hb]
  apply List.ext_getElem
  · simp [hlen]
  · intro i h1 h2
    have hi : i < 256 := by simpa using h1
    rw [List.getElem_map, List.getElem_range, getD_map_range _ _ _ (by omega),
      lowBits_nibbles _ _ hi]
    have h3 : ¬ (86 + i < 86) := by omega
    have h4 : 86 + i < 342 := by omega
    simp only [sixBit, h3, h4, if_true, if_false, highValue]
    rw [show 0 + (86 + i - 86) = i by omega]
    have hS : loadSector S i = S[i] := by
      unfold loadSector
      exact List.getD_eq_getElem _ _ h2
    rw [hS]
    exact byte_join _ (hb _ (List.getElem_mem h2))

/-- Witness for C1: the round trip at the sector of 256 bytes 0xA5. -/
theorem gcr_round_trip_witness :
    (List.replicate 256 0xA5).length = 256 ∧ (∀ b ∈ List.replicate 256 0xA5, b < 256) ∧
      gcrDecode (gcrNibbles (List.replicate 256 0xA5)) = List.replicate 256 0xA5 :=
  ⟨List.length_replicate _ _, fun _ h => by rw [List.eq_of_mem_replicate h]; decide,
    gcr_round_trip _ (List.length_replicate _ _)
      (fun _ h => by rw [List.eq_of_mem_replicate h]; decide)⟩

/-- C7: checksum. For every 256-byte sector the payload has 343 nibbles, the last one is
`encTable[ox]` for the value `ox` left by the two encoding loops (the high six bits of byte
255), and the XOR of the `decTable` values of all 343 nibbles is 0. -/
theorem gcr_checksum (S : List Nat) (_hlen : S.length = 256) (hb : ∀ b ∈ S, b < 256) :
    (gcrNibbles S).length = 343 ∧
    (gcrNibbles S).getD 342 0 = pgm_read_byte_near encTable (encodeLoops 0 512 (loadSector S)).2 ∧
    (encodeLoops 0 512 (loadSector S)).2 = S.getD 255 0 >>> 2 ∧
    ((gcrNibbles S).map (pgm_read_byte_near decTable)).foldl (· ^^^ ·) 0 = 0 := by
  refine ⟨by simp [gcrNibbles], ?_, ?_, ?_⟩
  · unfold gcrNibbles
    rw [getD_map_range _ _ _ (by omega)]
    simp only [encodeData]
    rw [show 512 + (0x38 + 342) = 512 + 0x18e by omega, wr_same, Nat.mod_eq_of_lt (encTable_lt _)]
  · unfold encodeLoops
    rw [show (256 : Nat) = 255 + 1 from rfl, encHigh_ox 0 512 _ (by omega) 255 (by omega),
      highValue_low 0 512 _ (by omega) _ (by omega)]
    simp only [highValue, loadSector, Nat.zero_add]
    have h := loadSector_lt S hb 255
    unfold loadSector at h
    generalize S.getD 255 0 = b at h
    rw [Nat.shiftRight_eq_div_pow]
    omega
  · unfold gcrNibbles
    rw [List.map_map, List.range_eq_range']
    have h := foldl_xor_chain
      (fun k => encodeData 0 512 (loadSector S) (512 + (0x38 + k))) (sixBit (loadSector S) 0)
      343 0 0
      (fun k _ hk => chain_step 0 512 (loadSector S) (by omega)
        (fun j _ => loadSector_lt S hb _) k (by omega))
    simpa [sixBit, Function.comp_def] using h

/-- Witness for C7: the checksum property at the sector of 256 bytes 0xA5. -/
theorem gcr_checksum_witness :
    (List.replicate 256 0xA5).length = 256 ∧ (∀ b ∈ List.replicate 256 0xA5, b < 256) ∧
    ((gcrNibbles (List.replicate 256 0xA5)).map (pgm_read_byte_near decTable)).foldl
      (· ^^^ ·) 0 = 0 :=
  ⟨List.length_replicate _ _, fun _ h => by rw [List.eq_of_mem_replicate h]; decide,
    (gcr_checksum _ (List.length_replicate _ _)
      (fun _ h => by rw [List.eq_of_mem_replicate h]; decide)).2.2.2⟩

/-! ### C9, C10: head stepper -/

/-- C9: stepper scenario. From `ph_track = 0` with phase 0 asserted (`oldStp = 0b0001`), the
samples phase 1, 2, 3, 0 give `ph_track` = 2, 4, 6, 8; the reverse samples phase 3, 2, 1, 0
then give 6, 4, 2, 0; one further reverse sample (phase 3) leaves `ph_track` at 0. -/
theorem stepper_scenario :
    ((List.scanl stepperStep { ph_track := 0, oldStp := 0b0001 }
        [0b0010, 0b0100, 0b1000, 0b0001, 0b1000, 0b0100, 0b0010, 0b0001, 0b1000]).map
      (fun s => s.ph_track)) = [0, 2, 4, 6, 8, 6, 4, 2, 0, 0] := by
  decide

theorem clamp_le (p : Nat) :
    (if (if p > 196 then 0 else p) > 139 then 139 else (if p > 196 then 0 else p)) ≤ 139 := by
  split_ifs <;> omega

theorem ite_track_le (c : Prop) [Decidable c] (a b : Stepper) (ha : a.ph_track ≤ 139)
    (hb : b.ph_track ≤ 139) : (if c then a else b).ph_track ≤ 139 := by
  split_ifs <;> assumption

theorem stepperStep_le (s : Stepper) (pinb : Nat) (h : s.ph_track ≤ 139) :
    (stepperStep s pinb).ph_track ≤ 139 := by
  unfold stepperStep
  exact ite_track_le _ _ _ (ite_track_le _ _ _ (clamp_le _) h) h

theorem stepperRun_le (samples : List Nat) (s : Stepper) (h : s.ph_track ≤ 139) :
    (stepperRun s samples).ph_track ≤ 139 := by
  induction samples generalizing s with
  | nil => exact h
  | cons p rest ih => exact ih _ (stepperStep_le s p h)

/-- C10: track clamp. From `ph_track = 0` (any `oldStp`), after any finite sequence of sampled
port values, one-hot or not, `0 ≤ ph_track ≤ 139`, and the track number `ph_track >> 2` is at
most 34. -/
theorem track_clamp (oldStp : Nat) (samples : List Nat) :
    0 ≤ (stepperRun { ph_track := 0, oldStp := oldStp } samples).ph_track ∧
    (stepperRun { ph_track := 0, oldStp := oldStp } samples).ph_track ≤ 139 ∧
    (stepperRun { ph_track := 0, oldStp := oldStp } samples).ph_track >>> 2 ≤ 34 := by
  have h := stepperRun_le samples { ph_track := 0, oldStp := oldStp } (by simp)
  refine ⟨Nat.zero_le _, h, ?_⟩
  rw [Nat.shiftRight_eq_div_pow]
  omega

/-! ### Bits on the bus -/

theorem writeByteFast_length (c : Nat) : (writeByteFast c).length = 8 := by
  simp [writeByteFast]

theorem writeByteFast_mod (c : Nat) : writeByteFast (c % 256) = writeByteFast c := by
  have h : ∀ d, d < 256 → (c % 256) &&& d = c &&& d := by
    intro d hd
    apply Nat.eq_of_testBit_eq
    intro i
    rw [Nat.testBit_and, Nat.testBit_and, show (256 : Nat) = 2 ^ 8 from rfl, Nat.testBit_mod_two_pow]
    by_cases hi : i < 8
    · simp [hi]
    · have : d.testBit i = false := by
        apply Nat.testBit_lt_two_pow
        calc d < 2 ^ 8 := hd
          _ ≤ 2 ^ i := Nat.pow_le_pow_right (by norm_num) (by omega)
      simp [this]
  simp only [writeByteFast, List.map_cons, List.map_nil]
  rw [h _ (by norm_num), h _ (by norm_num), h _ (by norm_num), h _ (by norm_num),
    h _ (by norm_num), h _ (by norm_num), h _ (by norm_num), h _ (by norm_num)]

theorem bitsToByte_writeByteFast_lt (c : Nat) (hc : c < 256) (rest : List Bool) :
    bitsToByte (writeByteFast c ++ rest) = c := by
  interval_cases c <;> rfl

theorem bitsToByte_writeByteFast (c : Nat) (rest : List Bool) :
    bitsToByte (writeByteFast c ++ rest) = c % 256 := by
  rw [← writeByteFast_mod]
  exact bitsToByte_writeByteFast_lt _ (Nat.mod_lt _ (by norm_num)) rest

/-- The bit stream of a list of bytes. -/
theorem busByte_flatMap (L : List Nat) (rest : List Bool) (k : Nat) (hk : k < L.length) :
    busByte (L.flatMap writeByteFast ++ rest) k = L.getD k 0 % 256 := by
  induction L generalizing k with
  | nil => simp at hk
  | cons c L ih =>
    cases k with
    | zero =>
      simp only [busByte, List.flatMap_cons, Nat.mul_zero, List.drop_zero, List.append_assoc]
      rw [bitsToByte_writeByteFast]
      rfl
    | succ k =>
      have h := ih k (by simpa using hk)
      simp only [busByte, List.flatMap_cons, List.append_assoc] at h ⊢
      rw [show 8 * (k + 1) = (writeByteFast c).length + 8 * k by
        rw [writeByteFast_length]; omega, List.drop_append]
      rw [h]
      simp

theorem forLoop_append_bytes (f : Nat → Nat) (n : Nat) :
    forLoop n (fun i bits => bits ++ writeByteFast (f i)) [] =
      ((List.range n).map f).flatMap writeByteFast := by
  induction n with
  | zero => rfl
  | succ n ih =>
    simp only [forLoop]
    rw [ih, List.range_succ, List.map_append, List.flatMap_append]
    simp

theorem flatMap_writeByteFast_length (L : List Nat) :
    (L.flatMap writeByteFast).length = 8 * L.length := by
  induction L with
  | nil => rfl
  | cons c L ih =>
    rw [List.flatMap_cons, List.length_append, ih, writeByteFast_length, List.length_cons]
    omega

theorem dsk2NicBits_eq (m : Mem) :
    dsk2NicBits m =
      ([0xff, 0xfe] ++ (List.range 512).map (fun i => m (512 + i)) ++ [0xff, 0xff]).flatMap
        writeByteFast := by
  unfold dsk2NicBits
  rw [forLoop_append_bytes]
  simp [List.flatMap_append]

theorem dsk2NicBits_length (m : Mem) : (dsk2NicBits m).length = 8 * 516 := by
  rw [dsk2NicBits_eq, flatMap_writeByteFast_length]
  simp

theorem dsk2NicBits_dataByte (m : Mem) (j : Nat) (hj : j < 512) :
    dataByte (dsk2NicBits m) j = m (512 + j) % 256 := by
  have h := busByte_flatMap
    ([0xff, 0xfe] ++ (List.range 512).map (fun i => m (512 + i)) ++ [0xff, 0xff]) [] (2 + j)
    (by simp; omega)
  rw [List.append_nil] at h
  rw [dataByte, dsk2NicBits_eq, h]
  congr 1
  rw [List.append_assoc, List.getD_eq_getElem?_getD, List.getElem?_append_right (by simp)]
  simp only [List.length_cons, List.length_nil, Nat.add_sub_cancel_left, Nat.zero_add,
    Nat.reduceAdd]
  rw [List.getElem?_append_left (by simpa using hj)]
  simp [hj]

/-! ### Memory frames of one pass of `dsk2Nic` -/

theorem readLoop_val (v : Nat → Nat) (m : Mem) (n a : Nat) :
    forLoop n (fun i m => wr m i (v i)) m a = if a < n then v a % 256 else m a := by
  induction n with
  | zero => simp [forLoop]
  | succ n ih =>
    simp only [forLoop]
    by_cases h : a = n
    · subst h
      rw [wr_same]
      simp
    · rw [wr_other _ _ _ _ h, ih]
      by_cases h2 : a < n
      · simp [h2, Nat.lt_succ_of_lt h2]
      · have h3 : ¬ a < n + 1 := by omega
        simp [h2, h3]

theorem storeFatDsk_frame (m : Mem) (k v a : Nat) (ha : a < 1024) : storeFatDsk m k v a = m a := by
  unfold storeFatDsk
  rw [wr_other _ _ _ _ (by omega), wr_other _ _ _ _ (by omega)]

theorem prepareFatLoop_fatDsk_frame (card : Mem) (fatAddr fatNum E : Nat) (n i ft : Nat) (m : Mem)
    (a : Nat) (ha : a < 1024) :
    prepareFatLoop storeFatDsk card fatAddr fatNum E n i ft m a = m a := by
  induction n generalizing i ft m with
  | zero => rfl
  | succ n ih =>
    simp only [prepareFatLoop]
    split_ifs <;> first
      | rw [ih, storeFatDsk_frame _ _ _ _ ha]
      | rw [ih]
      | rw [storeFatDsk_frame _ _ _ _ ha]
      | rfl

theorem prepareFat_fatDsk_frame (s : State) (i : Nat) (m : Mem) (len fatNum E a : Nat)
    (ha : a < 1024) : prepareFat storeFatDsk s i m len fatNum E a = m a := by
  unfold prepareFat
  split_ifs <;> first
    | rfl
    | rw [prepareFatLoop_fatDsk_frame _ _ _ _ _ _ _ _ _ ha, storeFatDsk_frame _ _ _ _ ha]
    | rw [prepareFatLoop_fatDsk_frame _ _ _ _ _ _ _ _ _ ha]

theorem reloadFatDsk_frame (s : State) (fatNum a : Nat) (ha : a < 1024) :
    (reloadFatDsk s fatNum).writeData a = s.writeData a := by
  unfold reloadFatDsk
  split_ifs
  · exact prepareFat_fatDsk_frame _ _ _ _ _ _ _ ha
  · rfl

theorem reloadFatDsk_eject (s : State) (fatNum : Nat) :
    (reloadFatDsk s fatNum).eject = s.eject := by
  unfold reloadFatDsk
  split_ifs <;> rfl

theorem reloadFatDsk_bus (s : State) (fatNum : Nat) : (reloadFatDsk s fatNum).bus = s.bus := by
  unfold reloadFatDsk
  split_ifs <;> rfl

theorem dsk2NicRead_frame (trk l : Nat) (s : State) (a : Nat) (h1 : 512 ≤ a) (h2 : a < 1024) :
    (dsk2NicRead trk l s).writeData a = s.writeData a := by
  unfold dsk2NicRead
  split_ifs with h
  · simp only
    rw [readLoop_val, if_neg (by omega)]
    exact reloadFatDsk_frame _ _ _ h2
  · rfl

theorem dsk2NicRead_eject (trk l : Nat) (s : State) : (dsk2NicRead trk l s).eject = s.eject := by
  unfold dsk2NicRead
  split_ifs
  · exact reloadFatDsk_eject _ _
  · rfl

theorem dsk2NicRead_bus (trk l : Nat) (s : State) : (dsk2NicRead trk l s).bus = s.bus := by
  unfold dsk2NicRead
  split_ifs
  · exact reloadFatDsk_bus _ _
  · rfl

theorem writeAddress_frame (dst trk p : Nat) (m : Mem) (a : Nat)
    (h : a < dst + 0x25 ∨ dst + 0x2c < a) : writeAddress dst trk p m a = m a := by
  unfold writeAddress
  rw [wr_other _ _ _ _ (by omega), wr_other _ _ _ _ (by omega), wr_other _ _ _ _ (by omega),
    wr_other _ _ _ _ (by omega), wr_other _ _ _ _ (by omega), wr_other _ _ _ _ (by omega),
    wr_other _ _ _ _ (by omega), wr_other _ _ _ _ (by omega)]

theorem encodeData_frame (src dst : Nat) (m : Mem) (a : Nat)
    (h : a < dst + 0x38 ∨ dst + 0x18e < a) : encodeData src dst m a = m a := by
  unfold encodeData encodeLoops
  rw [wr_other _ _ _ _ (by omega), encHigh_frame _ _ _ _ _ (by omega),
    encLow_frame _ _ _ _ _ (by omega)]

theorem dsk2NicEncode_frame (trk l : Nat) (m : Mem) (j : Nat)
    (h : j < 0x25 ∨ (0x2d ≤ j ∧ j < 0x38) ∨ 0x18f ≤ j) :
    dsk2NicEncode trk l m (512 + j) = m (512 + j) := by
  unfold dsk2NicEncode
  rw [encodeData_frame _ _ _ _ (by omega), writeAddress_frame _ _ _ _ _ (by omega)]

theorem nicFixedByte_past (j : Nat) (hj : 0x200 ≤ j) : nicFixedByte j = none := by
  unfold nicFixedByte
  repeat rw [if_neg (by omega)]

set_option maxRecDepth 100000 in
theorem nicFixedByte_zones : ∀ j, j < 512 →
    (j < 0x16 → nicFixedByte j = some 0xff) ∧
    (0x30 ≤ j → j < 0x35 → nicFixedByte j = some 0xff) ∧
    (0x192 ≤ j → j < 0x1a0 → nicFixedByte j = some 0xff) ∧
    (0x1a0 ≤ j → nicFixedByte j = some 0x00) ∧
    ((0x25 ≤ j ∧ j < 0x2d) ∨ (0x38 ≤ j ∧ j < 0x18f) → nicFixedByte j = none) := by
  decide

theorem nicFixedByte_range (j v : Nat) (h : nicFixedByte j = some v) :
    j < 0x25 ∨ (0x2d ≤ j ∧ j < 0x38) ∨ (0x18f ≤ j ∧ j < 0x200) := by
  by_contra hc
  by_cases hj : j < 512
  · rw [(nicFixedByte_zones j hj).2.2.2.2 (by omega)] at h
    cases h
  · rw [nicFixedByte_past j (by omega)] at h
    cases h

theorem NicFixed_congr (b b' : Nat → Nat) (hb : NicFixed b)
    (h : ∀ j, j < 0x25 ∨ (0x2d ≤ j ∧ j < 0x38) ∨ (0x18f ≤ j ∧ j < 0x200) → b' j = b j) :
    NicFixed b' := by
  intro j v hj
  rw [h j (nicFixedByte_range j v hj)]
  exact hb j v hj

/-! ### The fixed bytes -/

set_option maxRecDepth 4000 in
theorem dsk2NicFrame_bytes (m : Mem) (j : Nat) (hj : j < 512) :
    nicFixedByte j = none ∨ nicFixedByte j = some (dsk2NicFrame m (512 + j)) := by
  interval_cases j <;> first | (left; rfl) | (right; rfl)

theorem dsk2NicFrame_fixed (m : Mem) : NicFixed (fun j => dsk2NicFrame m (512 + j)) := by
  intro j v hv
  have hj : j < 512 := by
    have := nicFixedByte_range j v hv
    omega
  rcases dsk2NicFrame_bytes m j hj with h | h
  · rw [h] at hv
    cases hv
  · rw [h] at hv
    exact Option.some.inj hv

set_option maxRecDepth 100000 in
theorem nicFixedByte_all_lt :
    ∀ j, j < 512 → (nicFixedByte j).all (fun v => decide (v < 256)) = true := by
  decide

theorem nicFixedByte_lt (j v : Nat) (h : nicFixedByte j = some v) : v < 256 := by
  have hj : j < 512 := by
    have := nicFixedByte_range j v h
    omega
  have h2 := nicFixedByte_all_lt j hj
  rw [h] at h2
  simpa using h2

theorem dsk2NicBits_fixed (m : Mem) (hf : NicFixed (fun j => m (512 + j))) :
    NicFixed (dataByte (dsk2NicBits m)) := by
  intro j v hv
  have hj : j < 512 := by
    have := nicFixedByte_range j v hv
    omega
  have h := hf j v hv
  simp only at h
  rw [dsk2NicBits_dataByte m j hj, h]
  exact Nat.mod_eq_of_lt (nicFixedByte_lt j v hv)

/-! ### One pass and the whole run of `dsk2Nic`: bus and fixed bytes -/

theorem reloadFatNic_writeData (s : State) (fatNum : Nat) :
    (reloadFatNic s fatNum).writeData = s.writeData := by
  unfold reloadFatNic
  split_ifs <;> rfl

theorem reloadFatNic_eject (s : State) (fatNum : Nat) :
    (reloadFatNic s fatNum).eject = s.eject := by
  unfold reloadFatNic
  split_ifs <;> rfl

theorem reloadFatNic_bus (s : State) (fatNum : Nat) : (reloadFatNic s fatNum).bus = s.bus := by
  unfold reloadFatNic
  split_ifs <;> rfl

theorem dsk2NicWrite_writeData (trk l : Nat) (s : State) :
    (dsk2NicWrite trk l s).writeData = s.writeData := by
  simp only [dsk2NicWrite, sdWrite, reloadFatNic_writeData]

theorem dsk2NicWrite_eject (trk l : Nat) (s : State) :
    (dsk2NicWrite trk l s).eject = s.eject := by
  simp only [dsk2NicWrite, sdWrite, reloadFatNic_eject]

theorem dsk2NicWrite_bus (trk l : Nat) (s : State) :
    ∃ adr, (dsk2NicWrite trk l s).bus = s.bus ++ [SdEvent.write adr (dsk2NicBits s.writeData)] := by
  simp only [dsk2NicWrite, sdWrite, reloadFatNic_bus, reloadFatNic_writeData]
  exact ⟨_, rfl⟩

theorem dsk2NicSector_fixed (trk l : Nat) (s : State) (he : s.eject = false)
    (hf : NicFixed (fun j => s.writeData (512 + j))) :
    (dsk2NicSector trk l s).eject = false ∧
    NicFixed (fun j => (dsk2NicSector trk l s).writeData (512 + j)) ∧
    ∃ adr bits, (dsk2NicSector trk l s).bus = s.bus ++ [SdEvent.write adr bits] ∧
      bits.length = 8 * 516 ∧ NicFixed (dataByte bits) := by
  have hm : NicFixed (fun j =>
      dsk2NicEncode trk l (dsk2NicRead trk l s).writeData (512 + j)) := by
    apply NicFixed_congr _ _ hf
    intro j hj
    show dsk2NicEncode trk l (dsk2NicRead trk l s).writeData (512 + j) = s.writeData (512 + j)
    rw [dsk2NicEncode_frame _ _ _ _ (by omega), dsk2NicRead_frame _ _ _ _ (by omega) (by omega)]
  unfold dsk2NicSector
  rw [if_neg (by simp [he])]
  refine ⟨?_, ?_, ?_⟩
  · rw [dsk2NicWrite_eject]
    exact (dsk2NicRead_eject trk l s).trans he
  · rw [dsk2NicWrite_writeData]
    exact hm
  · obtain ⟨adr, h⟩ := dsk2NicWrite_bus trk l
      { dsk2NicRead trk l s with
        writeData := dsk2NicEncode trk l (dsk2NicRead trk l s).writeData }
    refine ⟨adr, _, ?_, dsk2NicBits_length _, dsk2NicBits_fixed _ hm⟩
    rw [h]
    show (dsk2NicRead trk l s).bus ++ _ = _
    rw [dsk2NicRead_bus]

theorem forLoop_nested {σ : Type} (f : Nat → Nat → σ → σ) (b : Nat) (hb : 0 < b) (a : Nat) (s : σ) :
    forLoop a (fun i s => forLoop b (fun j s => f i j s) s) s =
      forLoop (a * b) (fun n s => f (n / b) (n % b) s) s := by
  induction a with
  | zero => simp [forLoop]
  | succ a ih =>
    simp only [forLoop]
    rw [ih]
    have h : ∀ j, j ≤ b →
        forLoop j (fun j s => f a j s) (forLoop (a * b) (fun n s => f (n / b) (n % b) s) s) =
          forLoop (a * b + j) (fun n s => f (n / b) (n % b) s) s := by
      intro j
      induction j with
      | zero => intro _; rfl
      | succ j ihj =>
        intro hj
        have h1 : (a * b + j) / b = a := by
          rw [Nat.mul_comm, Nat.mul_add_div hb, Nat.div_eq_of_lt (by omega)]
          rfl
        have h2 : (a * b + j) % b = j := by
          rw [Nat.mul_comm, Nat.mul_add_mod, Nat.mod_eq_of_lt (by omega)]
        show f a j (forLoop j (fun j s => f a j s) _) =
          f ((a * b + j) / b) ((a * b + j) % b) (forLoop (a * b + j) _ s)
        rw [ihj (by omega), h1, h2]
    rw [h b le_rfl, Nat.succ_mul]

/-- The run of `dsk2Nic` as 560 passes, pass `n` handling track `n / 16` and logical sector
`n % 16`. -/
theorem dsk2NicLoops_eq (s : State) :
    dsk2NicLoops s = forLoop 560 (fun n s => dsk2NicSector (n / 16) (n % 16) s) s := by
  unfold dsk2NicLoops
  exact forLoop_nested (fun t l s => dsk2NicSector t l s) 16 (by norm_num) 35 s

theorem dsk2Nic_passes_fixed (s : State) (he : s.eject = false)
    (hf : NicFixed (fun j => s.writeData (512 + j))) (n : Nat) :
    (forLoop n (fun n s => dsk2NicSector (n / 16) (n % 16) s) s).eject = false ∧
    NicFixed (fun j =>
      (forLoop n (fun n s => dsk2NicSector (n / 16) (n % 16) s) s).writeData (512 + j)) ∧
    ∃ evs : List SdEvent,
      (forLoop n (fun n s => dsk2NicSector (n / 16) (n % 16) s) s).bus = s.bus ++ evs ∧
      evs.length = n ∧
      ∀ e, e ∈ evs → ∃ adr bits, e = SdEvent.write adr bits ∧ bits.length = 8 * 516 ∧
        NicFixed (dataByte bits) := by
  induction n with
  | zero => exact ⟨he, hf, [], by simp [forLoop], rfl, by simp⟩
  | succ n ih =>
    obtain ⟨he1, hf1, evs, hb, hl, hall⟩ := ih
    obtain ⟨he2, hf2, adr, bits, hb2, hlen, hfix⟩ :=
      dsk2NicSector_fixed (n / 16) (n % 16) _ he1 hf1
    refine ⟨he2, hf2, evs ++ [SdEvent.write adr bits], ?_, by simp [hl], ?_⟩
    · show (dsk2NicSector (n / 16) (n % 16) _).bus = _
      rw [hb2, hb, List.append_assoc]
    · intro e he
      rcases List.mem_append.1 he with h | h
      · exact hall e h
      · rw [List.mem_singleton] at h
        exact ⟨adr, bits, h, hlen, hfix⟩

theorem NicFixed_explicit (b : Nat → Nat) (h : NicFixed b) :
    (∀ j, j < 0x16 → b j = 0xff) ∧
    (List.range' 0x16 12).map b =
      [0x03, 0xfc, 0xff, 0x3f, 0xcf, 0xf3, 0xfc, 0xff, 0x3f, 0xcf, 0xf3, 0xfc] ∧
    (List.range' 0x22 3).map b = [0xd5, 0xaa, 0x96] ∧
    (List.range' 0x2d 3).map b = [0xde, 0xaa, 0xeb] ∧
    (∀ j, 0x30 ≤ j → j < 0x35 → b j = 0xff) ∧
    (List.range' 0x35 3).map b = [0xd5, 0xaa, 0xad] ∧
    (List.range' 0x18f 3).map b = [0xde, 0xaa, 0xeb] ∧
    (∀ j, 0x192 ≤ j → j < 0x1a0 → b j = 0xff) ∧
    (∀ j, 0x1a0 ≤ j → j < 0x200 → b j = 0x00) := by
  refine ⟨?_, ?_, ?_, ?_, ?_, ?_, ?_, ?_, ?_⟩
  · intro j hj
    exact h j _ ((nicFixedByte_zones j (by omega)).1 hj)
  · simp only [List.range', List.map_cons, List.map_nil, Nat.reduceAdd]
    rw [h 22 _ rfl, h 23 _ rfl, h 24 _ rfl, h 25 _ rfl, h 26 _ rfl, h 27 _ rfl, h 28 _ rfl,
      h 29 _ rfl, h 30 _ rfl, h 31 _ rfl, h 32 _ rfl, h 33 _ rfl]
  · simp only [List.range', List.map_cons, List.map_nil, Nat.reduceAdd]
    rw [h 34 _ rfl, h 35 _ rfl, h 36 _ rfl]
  · simp only [List.range', List.map_cons, List.map_nil, Nat.reduceAdd]
    rw [h 45 _ rfl, h 46 _ rfl, h 47 _ rfl]
  · intro j h1 h2
    exact h j _ ((nicFixedByte_zones j (by omega)).2.1 h1 h2)
  · simp only [List.range', List.map_cons, List.map_nil, Nat.reduceAdd]
    rw [h 53 _ rfl, h 54 _ rfl, h 55 _ rfl]
  · simp only [List.range', List.map_cons, List.map_nil, Nat.reduceAdd]
    rw [h 399 _ rfl, h 400 _ rfl, h 401 _ rfl]
  · intro j h1 h2
    exact h j _ ((nicFixedByte_zones j (by omega)).2.2.1 h1 h2)
  · intro j h1 h2
    exact h j _ ((nicFixedByte_zones j (by omega)).2.2.2.1 h1)

theorem buffClear_bus (s : State) : (buffClear s).bus = s.bus := rfl

/-- C2: NIC framing. With the card present, for every track `t` in 0..34, every logical sector
`l` in 0..15 and every state (any card and buffer contents), pass `t*16 + l` of `dsk2Nic`
sends one block write of 516 bytes (0xFF, token, 512 data bytes, 2 CRC bytes) whose data has
0xFF at 0x00..0x15, 03 FC FF 3F CF F3 FC FF 3F CF F3 FC at 0x16..0x21, D5 AA 96 at
0x22..0x24, DE AA EB at 0x2D..0x2F, 0xFF at 0x30..0x34, D5 AA AD at 0x35..0x37, DE AA EB at
0x18F..0x191, 0xFF at 0x192..0x19F and 0x00 at 0x1A0..0x1FF: the fixed bytes written before
the track loop survive every pass. -/
theorem nic_framing (s : State) (he : s.eject = false) (t l : Nat) (ht : t < 35) (hl : l < 16) :
    (dsk2Nic s).bus.length = s.bus.length + 560 ∧
    ∃ adr bits,
      (dsk2Nic s).bus[s.bus.length + (t * 16 + l)]? = some (SdEvent.write adr bits) ∧
      bits.length = 8 * 516 ∧
      (∀ j, j < 0x16 → dataByte bits j = 0xff) ∧
      (List.range' 0x16 12).map (dataByte bits) =
        [0x03, 0xfc, 0xff, 0x3f, 0xcf, 0xf3, 0xfc, 0xff, 0x3f, 0xcf, 0xf3, 0xfc] ∧
      (List.range' 0x22 3).map (dataByte bits) = [0xd5, 0xaa, 0x96] ∧
      (List.range' 0x2d 3).map (dataByte bits) = [0xde, 0xaa, 0xeb] ∧
      (∀ j, 0x30 ≤ j → j < 0x35 → dataByte bits j = 0xff) ∧
      (List.range' 0x35 3).map (dataByte bits) = [0xd5, 0xaa, 0xad] ∧
      (List.range' 0x18f 3).map (dataByte bits) = [0xde, 0xaa, 0xeb] ∧
      (∀ j, 0x192 ≤ j → j < 0x1a0 → dataByte bits j = 0xff) ∧
      (∀ j, 0x1a0 ≤ j → j < 0x200 → dataByte bits j = 0x00) := by
  obtain ⟨-, -, evs, hb, hlen, hall⟩ := dsk2Nic_passes_fixed
    { s with prevFatNumNic := 0xff, prevFatNumDsk := 0xff,
             writeData := dsk2NicFrame s.writeData } he (dsk2NicFrame_fixed s.writeData) 560
  have hbus : (dsk2Nic s).bus = s.bus ++ evs := by
    unfold dsk2Nic
    simp only
    rw [if_neg (by simp [he]), buffClear_bus, dsk2NicLoops_eq, hb]
  have hk : t * 16 + l < evs.length := by omega
  obtain ⟨adr, bits, hev, hl2, hfix⟩ := hall _ (List.getElem_mem hk)
  refine ⟨by rw [hbus, List.length_append, hlen], adr, bits, ?_, hl2, NicFixed_explicit _ hfix⟩
  rw [hbus, List.getElem?_append_right (by omega), Nat.add_sub_cancel_left,
    List.getElem?_eq_getElem hk, hev]

/-! ### The stream of `writeBackSub2` -/

set_option maxRecDepth 100000 in
theorem ones_loop : forLoop (22 * 8) (fun _ bits => bits ++ [true]) [] =
    (List.replicate 22 0xff).flatMap writeByteFast := by
  decide

set_option maxRecDepth 100000 in
theorem ones_loop14 : forLoop (14 * 8) (fun _ bits => bits ++ [true]) [] =
    (List.replicate 14 0xff).flatMap writeByteFast := by
  decide

set_option maxRecDepth 100000 in
theorem zeros_loop : forLoop (96 * 8) (fun _ bits => bits ++ [false]) [] =
    (List.replicate 96 0x00).flatMap writeByteFast := by
  decide

theorem writeBackSub2Bits_eq (m : Mem) (bn sc track : Nat) :
    writeBackSub2Bits m bn sc track = (writeBackSub2Bytes m bn sc track).flatMap writeByteFast := by
  unfold writeBackSub2Bits writeBackSub2Bytes wbs2Head wbs2Tail
  rw [forLoop_append_bytes, ones_loop, ones_loop14, zeros_loop]
  simp only [List.flatMap_append, List.flatMap_cons, List.flatMap_nil, List.append_nil,
    List.replicate, List.append_assoc, List.cons_append, List.nil_append]

theorem wbs2Head_length (sc track : Nat) : (wbs2Head sc track).length = 55 := rfl

theorem wbs2Tail_length : wbs2Tail.length = 112 := rfl

theorem writeBackSub2Bytes_length (m : Mem) (bn sc track : Nat) :
    (writeBackSub2Bytes m bn sc track).length = 516 := by
  unfold writeBackSub2Bytes
  rw [List.length_append, List.length_append, wbs2Head_length, wbs2Tail_length,
    List.length_map, List.length_range]

theorem writeBackSub2Bits_busByte (m : Mem) (bn sc track k : Nat) (hk : k < 516) :
    busByte (writeBackSub2Bits m bn sc track) k = (writeBackSub2Bytes m bn sc track).getD k 0 % 256 := by
  have h := busByte_flatMap (writeBackSub2Bytes m bn sc track) [] k
    (by rw [writeBackSub2Bytes_length]; exact hk)
  rw [List.append_nil] at h
  rw [writeBackSub2Bits_eq, h]

theorem writeBackSub2Bytes_head (m : Mem) (bn sc track k : Nat) (hk : k < 55) :
    (writeBackSub2Bytes m bn sc track).getD k 0 = (wbs2Head sc track).getD k 0 := by
  unfold writeBackSub2Bytes
  rw [List.append_assoc, List.getD_append _ _ _ _ (by rw [wbs2Head_length]; exact hk)]

theorem wbs2_dataByte_head (m : Mem) (bn sc track j : Nat) (hj : j < 53) :
    dataByte (writeBackSub2Bits m bn sc track) j = (wbs2Head sc track).getD (2 + j) 0 % 256 := by
  rw [dataByte, writeBackSub2Bits_busByte _ _ _ _ _ (by omega),
    writeBackSub2Bytes_head _ _ _ _ _ (by omega)]

theorem wbs2_address (m : Mem) (bn sc track : Nat) :
    (List.range' 0x25 8).map (dataByte (writeBackSub2Bits m bn sc track)) =
      fourAndFour volume ++ fourAndFour track ++ fourAndFour sc ++
        fourAndFour ((volume ^^^ track ^^^ sc) % 256) := by
  simp only [List.range', List.map_cons, List.map_nil, Nat.reduceAdd]
  rw [wbs2_dataByte_head _ _ _ _ _ (by omega), wbs2_dataByte_head _ _ _ _ _ (by omega),
    wbs2_dataByte_head _ _ _ _ _ (by omega), wbs2_dataByte_head _ _ _ _ _ (by omega),
    wbs2_dataByte_head _ _ _ _ _ (by omega), wbs2_dataByte_head _ _ _ _ _ (by omega),
    wbs2_dataByte_head _ _ _ _ _ (by omega), wbs2_dataByte_head _ _ _ _ _ (by omega)]
  rfl

theorem writeAddress_bytes (dst trk p : Nat) (m : Mem) :
    (List.range' 0x25 8).map (fun j => writeAddress dst trk p m (dst + j)) =
      fourAndFour volume ++ fourAndFour trk ++ fourAndFour p ++
        fourAndFour ((volume ^^^ trk ^^^ p) % 256) := by
  simp only [List.range', List.map_cons, List.map_nil, Nat.reduceAdd, writeAddress, fourAndFour,
    List.cons_append, List.nil_append]
  simp [wr]


theorem dsk2NicEncode_fixed (trk l : Nat) (mem : Mem) (hf : NicFixed (fun j => mem (512 + j))) :
    NicFixed (fun j => dsk2NicEncode trk l mem (512 + j)) := by
  apply NicFixed_congr _ _ hf
  intro j hj
  exact dsk2NicEncode_frame _ _ _ _ (by omega)

theorem dsk2NicEncode_address (trk l : Nat) (mem : Mem) :
    (List.range' 0x25 8).map (fun j => dsk2NicEncode trk l mem (512 + j)) =
      fourAndFour volume ++ fourAndFour trk ++
        fourAndFour (pgm_read_byte_near physicalSector l) ++
        fourAndFour ((volume ^^^ trk ^^^ pgm_read_byte_near physicalSector l) % 256) := by
  rw [← writeAddress_bytes 512 trk (pgm_read_byte_near physicalSector l) mem]
  apply List.map_congr_left
  intro j hj
  have hj2 : 0x25 ≤ j ∧ j < 0x25 + 8 := by
    have := List.mem_range'_1.1 hj
    omega
  unfold dsk2NicEncode
  rw [encodeData_frame _ _ _ _ (by omega)]

theorem dsk2NicEncode_address_mod (trk l : Nat) (mem : Mem) (j : Nat) (h1 : 0x25 ≤ j)
    (h2 : j < 0x2d) :
    dsk2NicEncode trk l mem (512 + j) % 256 = dsk2NicEncode trk l mem (512 + j) := by
  have hm : dsk2NicEncode trk l mem (512 + j) ∈
      (List.range' 0x25 8).map (fun j => dsk2NicEncode trk l mem (512 + j)) :=
    List.mem_map.2 ⟨j, List.mem_range'_1.2 ⟨h1, by omega⟩, rfl⟩
  rw [dsk2NicEncode_address] at hm
  simp only [fourAndFour, List.cons_append, List.nil_append, List.mem_cons,
    List.mem_singleton, List.not_mem_nil, or_false] at hm
  apply Nat.mod_eq_of_lt
  rcases hm with h | h | h | h | h | h | h | h <;> rw [h] <;> exact Nat.mod_lt _ (by norm_num)

/-- C8 (counterexample): for volume 0xFE, track 0x11, sector 0x0D neither `dsk2Nic` (bytes
`dst[0x25..0x2C]`) nor `writeBackSub2` (data bytes 0x25..0x2C) produces
FF FE A8 BB AE AD FD FE. -/
theorem address_field_counterexample :
    (List.range' 0x25 8).map (fun j => writeAddress 512 0x11 0x0D (fun _ => 0) (512 + j)) ≠
      [0xFF, 0xFE, 0xA8, 0xBB, 0xAE, 0xAD, 0xFD, 0xFE] ∧
    (List.range' 0x25 8).map (dataByte (writeBackSub2Bits (fun _ => 0) 0 0x0D 0x11)) ≠
      [0xFF, 0xFE, 0xA8, 0xBB, 0xAE, 0xAD, 0xFD, 0xFE] := by
  rw [writeAddress_bytes, wbs2_address]
  decide

/-- C8 (amended): for volume 0xFE, track 0x11, sector 0x0D the eight 4-and-4 encoded bytes at
offsets 0x25..0x2C, produced by `dsk2Nic` and by `writeBackSub2` alike, are
FF FE AA BB AE AF FB EA. -/
theorem address_field_scenario (m : Mem) (bn : Nat) :
    (List.range' 0x25 8).map (fun j => writeAddress 512 0x11 0x0D m (512 + j)) =
      [0xFF, 0xFE, 0xAA, 0xBB, 0xAE, 0xAF, 0xFB, 0xEA] ∧
    (List.range' 0x25 8).map (dataByte (writeBackSub2Bits m bn 0x0D 0x11)) =
      [0xFF, 0xFE, 0xAA, 0xBB, 0xAE, 0xAF, 0xFB, 0xEA] := by
  rw [writeAddress_bytes, wbs2_address]
  decide

/-- Witness for C2: the run on `sampleVolume` sends 560 blocks. -/
theorem nic_framing_witness :
    sampleVolume.eject = false ∧ 17 < 35 ∧ 1 < 16 ∧
    (dsk2Nic sampleVolume).bus.length = sampleVolume.bus.length + 560 :=
  ⟨rfl, by decide, by decide, (nic_framing sampleVolume rfl 17 1 (by decide) (by decide)).1⟩

/-! ### Flushing the write buffer -/

theorem reloadFatNic_sectors (s : State) (fatNum : Nat) :
    (reloadFatNic s fatNum).sectors = s.sectors := by
  unfold reloadFatNic
  split_ifs <;> rfl

theorem reloadFatNic_tracks (s : State) (fatNum : Nat) :
    (reloadFatNic s fatNum).tracks = s.tracks := by
  unfold reloadFatNic
  split_ifs <;> rfl

theorem reloadFatNic_sector (s : State) (fatNum : Nat) :
    (reloadFatNic s fatNum).sector = s.sector := by
  unfold reloadFatNic
  split_ifs <;> rfl

theorem reloadFatNic_ph_track (s : State) (fatNum : Nat) :
    (reloadFatNic s fatNum).ph_track = s.ph_track := by
  unfold reloadFatNic
  split_ifs <;> rfl

/-- The effect of `writeBackSub2` with the card present: one block write with the bits of
the slot; pool, buffer memory and eject line unchanged. -/
theorem writeBackSub2_spec (s : State) (bn sc track : Nat) (he : s.eject = false) :
    (∃ adr, (writeBackSub2 s bn sc track).bus =
      s.bus ++ [SdEvent.write adr (writeBackSub2Bits s.writeData bn sc track)]) ∧
    (writeBackSub2 s bn sc track).sectors = s.sectors ∧
    (writeBackSub2 s bn sc track).tracks = s.tracks ∧
    (writeBackSub2 s bn sc track).writeData = s.writeData ∧
    (writeBackSub2 s bn sc track).eject = false ∧
    (writeBackSub2 s bn sc track).sector = s.sector ∧
    (writeBackSub2 s bn sc track).ph_track = s.ph_track := by
  unfold writeBackSub2
  rw [if_neg (by simp [he])]
  simp only [sdWrite]
  rw [reloadFatNic_bus, reloadFatNic_writeData, reloadFatNic_sectors, reloadFatNic_tracks,
    reloadFatNic_eject, reloadFatNic_sector, reloadFatNic_ph_track]
  exact ⟨⟨_, rfl⟩, rfl, rfl, rfl, he, rfl, rfl⟩

theorem flushSlot_spec (i : Nat) (s : State) (he : s.eject = false) :
    (flushSlot i s).eject = false ∧
    (flushSlot i s).sector = s.sector ∧
    (flushSlot i s).ph_track = s.ph_track ∧
    (flushSlot i s).sectors = wr s.sectors i 0xff ∧
    (flushSlot i s).tracks = wr s.tracks i 0xff ∧
    (flushSlot i s).writeData = wr s.writeData (i * 350 + 2) 0 ∧
    (s.sectors i ≠ 0xff → ∃ adr, (flushSlot i s).bus =
      s.bus ++ [SdEvent.write adr (writeBackSub2Bits s.writeData i (s.sectors i) (s.tracks i))]) ∧
    (s.sectors i = 0xff → (flushSlot i s).bus = s.bus) := by
  obtain ⟨hb2, hs2, ht2, hw2, he2, hsec2, hph2⟩ :=
    writeBackSub2_spec s i (s.sectors i) (s.tracks i) he
  unfold flushSlot
  by_cases hne : s.sectors i ≠ 0xff
  · rw [if_pos hne]
    simp only
    rw [hs2, ht2, hw2, he2, hsec2, hph2]
    exact ⟨rfl, rfl, rfl, rfl, rfl, rfl, fun _ => hb2, fun h => absurd h hne⟩
  · rw [if_neg hne]
    exact ⟨he, rfl, rfl, rfl, rfl, rfl, fun h => absurd h hne, fun _ => rfl⟩

theorem writeBackSub2Bits_congr (m1 m2 : Mem) (bn sc track : Nat)
    (h : ∀ i, i < 349 → m1 (bn * 350 + i) = m2 (bn * 350 + i)) :
    writeBackSub2Bits m1 bn sc track = writeBackSub2Bits m2 bn sc track := by
  rw [writeBackSub2Bits_eq, writeBackSub2Bits_eq]
  unfold writeBackSub2Bytes
  congr 3
  apply List.map_congr_left
  intro i hi
  exact h i (List.mem_range.1 hi)

theorem wr_lt_succ (f : Nat → Nat) (n k : Nat) (g : Nat → Nat)
    (h : g k = if k < n then 0xff else f k) :
    wr g n 0xff k = if k < n + 1 then 0xff else f k := by
  by_cases hk : k = n
  · subst hk; simp [wr]
  · rw [wr_other _ _ _ _ hk, h]
    by_cases hk2 : k < n
    · simp [hk2, Nat.lt_succ_of_lt hk2]
    · simp [hk2, show ¬ k < n + 1 by omega]

theorem flushLoop_spec (s : State) (he : s.eject = false) (n : Nat) :
    (forLoop n flushSlot s).eject = false ∧
    (forLoop n flushSlot s).sector = s.sector ∧
    (forLoop n flushSlot s).ph_track = s.ph_track ∧
    (∀ k, (forLoop n flushSlot s).sectors k = if k < n then 0xff else s.sectors k) ∧
    (∀ k, (forLoop n flushSlot s).tracks k = if k < n then 0xff else s.tracks k) ∧
    (∀ a, (∀ i, i < n → a ≠ i * 350 + 2) → (forLoop n flushSlot s).writeData a = s.writeData a) ∧
    FlushedBy s n (forLoop n flushSlot s).bus := by
  induction n with
  | zero =>
    refine ⟨he, rfl, rfl, fun k => by simp [forLoop], fun k => by simp [forLoop],
      fun a _ => rfl, [], by simp [forLoop], by simp⟩
  | succ n ih =>
    obtain ⟨he1, hsec, hph, hs, ht, hw, ws, hb, hws⟩ := ih
    have hsn : (forLoop n flushSlot s).sectors n = s.sectors n := by rw [hs n, if_neg (by omega)]
    have htn : (forLoop n flushSlot s).tracks n = s.tracks n := by rw [ht n, if_neg (by omega)]
    have hbits : writeBackSub2Bits (forLoop n flushSlot s).writeData n (s.sectors n) (s.tracks n)
        = writeBackSub2Bits s.writeData n (s.sectors n) (s.tracks n) := by
      apply writeBackSub2Bits_congr
      intro i hi
      apply hw
      intro j hj
      have : j * 350 + 350 ≤ n * 350 := by
        have := Nat.mul_le_mul_right 350 (Nat.succ_le_of_lt hj)
        omega
      omega
    obtain ⟨he2, hsec2, hph2, hs2, ht2, hw2, hb2, hb3⟩ :=
      flushSlot_spec n (forLoop n flushSlot s) he1
    rw [hsn, htn, hbits] at hb2
    rw [hsn] at hb3
    show (flushSlot n (forLoop n flushSlot s)).eject = false ∧ _
    refine ⟨he2, hsec2.trans hsec, hph2.trans hph, ?_, ?_, ?_, ?_⟩
    · intro k
      show (flushSlot n (forLoop n flushSlot s)).sectors k = _
      rw [hs2]
      exact wr_lt_succ _ _ _ _ (hs k)
    · intro k
      show (flushSlot n (forLoop n flushSlot s)).tracks k = _
      rw [ht2]
      exact wr_lt_succ _ _ _ _ (ht k)
    · intro a ha
      show (flushSlot n (forLoop n flushSlot s)).writeData a = _
      rw [hw2, wr_other _ _ _ _ (ha n (by omega))]
      exact hw a (fun i hi => ha i (by omega))
    · show FlushedBy s (n + 1) (flushSlot n (forLoop n flushSlot s)).bus
      by_cases hne : s.sectors n ≠ 0xff
      · obtain ⟨adr, hb4⟩ := hb2 hne
        refine ⟨ws ++ [(adr, writeBackSub2Bits s.writeData n (s.sectors n) (s.tracks n))], ?_, ?_⟩
        · rw [hb4, hb]
          simp
        · rw [List.range_succ, List.filter_append, List.map_append, List.map_append, hws]
          simp [hne]
      · refine ⟨ws, ?_, ?_⟩
        · rw [hb3 (by simpa using hne), hb]
        · rw [List.range_succ, List.filter_append, List.map_append, hws]
          simp [hne]


theorem writeBackSubLoop_spec (n j : Nat) (s : State) :
    ((∃ k, j ≤ k ∧ k < j + n ∧ s.sectors k ≠ 0xff) → writeBackSubLoop n j s = flushAll s) ∧
    ((∀ k, j ≤ k → k < j + n → s.sectors k = 0xff) → writeBackSubLoop n j s = s) := by
  induction n generalizing j with
  | zero =>
    refine ⟨?_, fun _ => rfl⟩
    rintro ⟨k, h1, h2, -⟩
    omega
  | succ n ih =>
    constructor
    · rintro ⟨k, h1, h2, h3⟩
      unfold writeBackSubLoop
      by_cases hj : s.sectors j ≠ 0xff
      · rw [if_pos hj]
      · rw [if_neg hj]
        apply (ih (j + 1)).1
        refine ⟨k, ?_, by omega, h3⟩
        by_contra hc
        have : k = j := by omega
        subst this
        exact hj h3
    · intro h
      unfold writeBackSubLoop
      rw [if_neg (by simpa using h j le_rfl (by omega))]
      exact (ih (j + 1)).2 (fun k h1 h2 => h k (by omega) (by omega))

theorem flushAll_spec (s : State) (he : s.eject = false) :
    (flushAll s).eject = false ∧
    (flushAll s).sector = s.sector ∧
    (flushAll s).ph_track = s.ph_track ∧
    (∀ k, k < BUF_NUM → (flushAll s).sectors k = 0xff ∧ (flushAll s).tracks k = 0xff) ∧
    (flushAll s).buffNum = 0 ∧
    FlushedBy s BUF_NUM (flushAll s).bus := by
  have key := flushLoop_spec s he BUF_NUM
  unfold flushAll
  generalize forLoop BUF_NUM flushSlot s = t at key ⊢
  obtain ⟨h1, h2, h3, h4, h5, -, h7⟩ := key
  refine ⟨h1, h2, h3, ?_, rfl, h7⟩
  intro k hk
  constructor
  · show t.sectors k = 0xff
    rw [h4 k, if_pos hk]
  · show t.tracks k = 0xff
    rw [h5 k, if_pos hk]

theorem spc_bounds (spc k : Nat) (hpow : spc = 2 ^ k) (hk : k ≤ 7) : 1 ≤ spc ∧ spc ≤ 128 := by
  subst hpow
  exact ⟨Nat.one_le_two_pow, by
    calc 2 ^ k ≤ 2 ^ 7 := Nat.pow_le_pow_right (by norm_num) hk
      _ = 128 := by norm_num⟩

theorem clusterCount_eq (s : State) (hpow : s.sectorsPerCluster = 2 ^ s.sectorsPerCluster2)
    (hk : s.sectorsPerCluster2 ≤ 7) (n : Nat) (hn : n ≤ 560) :
    clusterCount s n = (n + s.sectorsPerCluster - 1) / s.sectorsPerCluster ∧
    clusterCount s n ≤ n := by
  have hb := spc_bounds _ _ hpow hk
  unfold clusterCount
  rw [Nat.shiftRight_eq_div_pow, ← hpow]
  have h1 : (n + s.sectorsPerCluster - 1) / s.sectorsPerCluster ≤ n := by
    cases n with
    | zero =>
      rw [Nat.zero_add, Nat.div_eq_of_lt (by omega)]
    | succ m =>
      apply Nat.div_le_of_le_mul
      have hm : m ≤ s.sectorsPerCluster * m := Nat.le_mul_of_pos_left m (by omega)
      rw [Nat.mul_succ]
      generalize s.sectorsPerCluster * m = y at hm
      omega
  rw [Nat.mod_eq_of_lt (by omega)]
  exact ⟨rfl, h1⟩

/-- Sector `n` of a file of `N` sectors lies in one of its `clusterCount N` clusters. -/
theorem cluster_index_lt (s : State) (hpow : s.sectorsPerCluster = 2 ^ s.sectorsPerCluster2)
    (hk : s.sectorsPerCluster2 ≤ 7) (N n : Nat) (hN : N ≤ 560) (hn : n < N) :
    n >>> s.sectorsPerCluster2 < clusterCount s N := by
  have hb := spc_bounds _ _ hpow hk
  rw [(clusterCount_eq s hpow hk N hN).1, Nat.shiftRight_eq_div_pow, ← hpow]
  have hpos : 0 < s.sectorsPerCluster := by omega
  rw [Nat.lt_iff_add_one_le, Nat.le_div_iff_mul_le hpos]
  have h1 : n / s.sectorsPerCluster * s.sectorsPerCluster ≤ n := Nat.div_mul_le_self _ _
  rw [Nat.add_mul, Nat.one_mul]
  omega

theorem clusterAddr_eq (s : State) (hpow : s.sectorsPerCluster = 2 ^ s.sectorsPerCluster2)
    (hk : s.sectorsPerCluster2 ≤ 7) (c n : Nat) (hc : ClusterOk s c) :
    clusterAddr s c n =
      s.userAddr + ((c - 2) * s.sectorsPerCluster + n % s.sectorsPerCluster) * 512 := by
  obtain ⟨h2, h3, -, hov⟩ := hc
  have hb := spc_bounds _ _ hpow hk
  have hX : (c - 1) * s.sectorsPerCluster = (c - 2) * s.sectorsPerCluster + s.sectorsPerCluster := by
    have : c - 1 = (c - 2) + 1 := by omega
    rw [this, Nat.add_mul, Nat.one_mul]
  rw [hX] at hov
  have hr : n % s.sectorsPerCluster < s.sectorsPerCluster := Nat.mod_lt _ (by omega)
  unfold clusterAddr
  have e1 : (c + 65536 - 2) % 65536 = c - 2 := by omega
  have e2 : (s.sectorsPerCluster + 65536 - 1) % 65536 = 2 ^ s.sectorsPerCluster2 - 1 := by
    rw [← hpow]; omega
  rw [e1, e2, Nat.and_pow_two_sub_one_eq_mod, Nat.shiftLeft_eq, ← hpow]
  generalize (c - 2) * s.sectorsPerCluster = X at *
  generalize n % s.sectorsPerCluster = r at *
  rw [Nat.mod_eq_of_lt (by omega : X < 2 ^ 32), Nat.mod_eq_of_lt (by omega : X + r < 2 ^ 32),
    Nat.mod_eq_of_lt (by omega : (X + r) * 512 < 2 ^ 32),
    Nat.mod_eq_of_lt (by omega : s.userAddr + (X + r) * 512 < 2 ^ 32)]

/-- Sectors in different clusters are different 512-byte blocks. -/
theorem cluster_block_ne (spc c1 c2 r1 r2 : Nat) (h1 : 2 ≤ c1) (h2 : 2 ≤ c2) (hne : c1 ≠ c2)
    (hr1 : r1 < spc) (hr2 : r2 < spc) : (c1 - 2) * spc + r1 ≠ (c2 - 2) * spc + r2 := by
  rcases Nat.lt_or_gt_of_ne hne with h | h
  · have : (c1 - 2 + 1) * spc ≤ (c2 - 2) * spc := Nat.mul_le_mul_right _ (by omega)
    rw [Nat.add_mul, Nat.one_mul] at this
    omega
  · have : (c2 - 2 + 1) * spc ≤ (c1 - 2) * spc := Nat.mul_le_mul_right _ (by omega)
    rw [Nat.add_mul, Nat.one_mul] at this
    omega


/-! ### `prepareFat` loads the window of the chain -/

theorem read16_lt (card : Mem) (adr : Nat) : read16 card adr < 65536 :=
  Nat.mod_lt _ (by norm_num)

theorem chain_lt (s : State) (dir k : Nat) : chain s dir k < 65536 := by
  cases k with
  | zero => exact read16_lt _ _
  | succ k => exact read16_lt _ _

theorem mod_ne_of_div_eq (E a b : Nat) (hd : a / E = b / E) (hne : a ≠ b) : a % E ≠ b % E := by
  intro hm
  apply hne
  rw [← Nat.div_add_mod a E, ← Nat.div_add_mod b E, hd, hm]

theorem prepareFatLoop_spec {α : Type} (store : α → Nat → Nat → α) (get : α → Nat → Nat)
    (hget : ∀ f k v k', get (store f k v) k' = if k' = k then v % 65536 else get f k')
    (card : Mem) (fatAddr fatNum E : Nat) (hE : 0 < E) (c : Nat → Nat)
    (hlt : ∀ k, c k < 65536)
    (hc : ∀ k, read16 card ((fatAddr + c k * 2) % 2 ^ 32) = c (k + 1))
    (n i : Nat) (fat : α) (hbound : i + n < 256 * E) :
    (∀ k, i < k → k ≤ i + n → k / E = fatNum → (∀ j, i < j → j < k → c j ≤ 0xfff6) →
      get (prepareFatLoop store card fatAddr fatNum E n i (c i) fat) (k % E) = c k) ∧
    (∀ idx, (∀ k, i < k → k ≤ i + n → k / E = fatNum → k % E ≠ idx) →
      get (prepareFatLoop store card fatAddr fatNum E n i (c i) fat) idx = get fat idx) := by
  induction n generalizing i fat with
  | zero =>
    refine ⟨fun k h1 h2 => by omega, fun idx _ => rfl⟩
  | succ n ih =>
    have hfn : ((i + 1) / E) % 256 = (i + 1) / E := by
      apply Nat.mod_eq_of_lt
      rw [Nat.div_lt_iff_lt_mul hE]
      omega
    obtain ⟨ihA, ihB⟩ := ih (i + 1)
      (if (i + 1) / E = fatNum then store fat ((i + 1) % E) (c (i + 1)) else fat) (by omega)
    have hstep : prepareFatLoop store card fatAddr fatNum E (n + 1) i (c i) fat =
        if c (i + 1) > 0xfff6 ∨ (i + 1) / E > fatNum then
          (if (i + 1) / E = fatNum then store fat ((i + 1) % E) (c (i + 1)) else fat)
        else prepareFatLoop store card fatAddr fatNum E n (i + 1) (c (i + 1))
          (if (i + 1) / E = fatNum then store fat ((i + 1) % E) (c (i + 1)) else fat) := by
      rw [prepareFatLoop]
      simp only [hfn, hc i]
    rw [hstep]
    have hs1 : (i + 1) / E = fatNum →
        get (if (i + 1) / E = fatNum then store fat ((i + 1) % E) (c (i + 1)) else fat)
          ((i + 1) % E) = c (i + 1) := by
      intro h3
      rw [if_pos h3, hget, if_pos rfl, Nat.mod_eq_of_lt (hlt _)]
    have hs2 : ∀ idx, ((i + 1) / E = fatNum → (i + 1) % E ≠ idx) →
        get (if (i + 1) / E = fatNum then store fat ((i + 1) % E) (c (i + 1)) else fat) idx
          = get fat idx := by
      intro idx hidx
      by_cases h3 : (i + 1) / E = fatNum
      · rw [if_pos h3, hget, if_neg (Ne.symm (hidx h3))]
      · rw [if_neg h3]
    generalize (if (i + 1) / E = fatNum then store fat ((i + 1) % E) (c (i + 1)) else fat)
      = fat1 at ihA ihB hs1 hs2 ⊢
    constructor
    · intro k h1 h2 h3 h4
      by_cases hk : k = i + 1
      · subst hk
        by_cases hbr : c (i + 1) > 0xfff6 ∨ (i + 1) / E > fatNum
        · rw [if_pos hbr]
          exact hs1 h3
        · rw [if_neg hbr, ihB ((i + 1) % E) (fun k' g1 g2 g3 =>
            mod_ne_of_div_eq E k' (i + 1) (g3.trans h3.symm) (by omega))]
          exact hs1 h3
      · have hnb : ¬ (c (i + 1) > 0xfff6 ∨ (i + 1) / E > fatNum) := by
          rintro (hb | hb)
          · have := h4 (i + 1) (by omega) (by omega)
            omega
          · have : (i + 1) / E ≤ k / E := Nat.div_le_div_right (by omega)
            omega
        rw [if_neg hnb]
        exact ihA k (by omega) (by omega) h3 (fun j g1 g2 => h4 j (by omega) g2)
    · intro idx hidx
      have hstore := hs2 idx (fun h3 => hidx (i + 1) (by omega) (by omega) h3)
      by_cases hbr : c (i + 1) > 0xfff6 ∨ (i + 1) / E > fatNum
      · rw [if_pos hbr]
        exact hstore
      · rw [if_neg hbr, ihB idx (fun k g1 g2 g3 => hidx k (by omega) (by omega) g3)]
        exact hstore

/-- After `prepareFat` with the card present, entry `k % E` of the window holds cluster `k`
of the chain, for every `k` of the window up to `len` before which the chain does not end. -/
theorem prepareFat_spec {α : Type} (store : α → Nat → Nat → α) (get : α → Nat → Nat)
    (hget : ∀ f k v k', get (store f k v) k' = if k' = k then v % 65536 else get f k')
    (s : State) (he : s.eject = false) (dir : Nat) (fat : α) (len fatNum E : Nat) (hE : 0 < E)
    (hbound : len < 256 * E) (k : Nat) (hk : k ≤ len) (hw : k / E = fatNum)
    (hno : ∀ j, 0 < j → j < k → chain s dir j ≤ 0xfff6) :
    get (prepareFat store s dir fat len fatNum E) (k % E) = chain s dir k := by
  unfold prepareFat
  rw [if_neg (by simp [he])]
  obtain ⟨hA, hB⟩ := prepareFatLoop_spec store get hget s.card s.fatAddr fatNum E hE
    (chain s dir) (chain_lt s dir) (fun _ => rfl) len 0
    (if 0 = fatNum then store fat 0 (chain s dir 0) else fat) (by omega)
  show get (prepareFatLoop store s.card s.fatAddr fatNum E len 0 (chain s dir 0)
    (if 0 = fatNum then store fat 0 (chain s dir 0) else fat)) (k % E) = _
  cases k with
  | zero =>
    have h0 : 0 = fatNum := by rw [← hw, Nat.zero_div]
    rw [Nat.zero_mod, hB 0 (by
      intro k' g1 g2 g3
      have : k' < E := by
        rw [← h0] at g3
        exact (Nat.div_eq_zero_iff hE).1 g3
      rw [Nat.mod_eq_of_lt this]
      omega), if_pos h0, hget, if_pos rfl, Nat.mod_eq_of_lt (chain_lt _ _ _)]
  | succ k =>
    exact hA (k + 1) (by omega) (by omega) hw hno


theorem wr16_get (f : Nat → Nat) (k v k' : Nat) :
    wr16 f k v k' = if k' = k then v % 65536 else f k' := rfl

theorem fatDsk_store (m : Mem) (k v k' : Nat) :
    fatDsk (storeFatDsk m k v) k' = if k' = k then v % 65536 else fatDsk m k' := by
  unfold fatDsk storeFatDsk
  by_cases h : k' = k
  · subst h
    rw [if_pos rfl, wr_same, wr_other _ _ _ _ (by omega), wr_same]
    omega
  · rw [if_neg h, wr_other _ _ _ _ (by omega), wr_other _ _ _ _ (by omega),
      wr_other _ _ _ _ (by omega), wr_other _ _ _ _ (by omega)]

theorem SameGeom.trans {a b c : State} (h1 : SameGeom a b) (h2 : SameGeom b c) : SameGeom a c := by
  obtain ⟨a1, a2, a3, a4, a5, a6, a7⟩ := h1
  obtain ⟨b1, b2, b3, b4, b5, b6, b7⟩ := h2
  exact ⟨a1.trans b1, a2.trans b2, a3.trans b3, a4.trans b4, a5.trans b5, a6.trans b6,
    a7.trans b7⟩

theorem clusterAddr_geom (a b : State) (h : SameGeom a b) (ft n : Nat) :
    clusterAddr a ft n = clusterAddr b ft n := by
  obtain ⟨-, -, h3, h4, h5, -, -⟩ := h
  unfold clusterAddr
  rw [h3, h4, h5]

theorem clusterCount_geom (a b : State) (h : SameGeom a b) (n : Nat) :
    clusterCount a n = clusterCount b n := by
  obtain ⟨-, -, -, h4, h5, -, -⟩ := h
  unfold clusterCount
  rw [h4, h5]

theorem read16_congr (c1 c2 : Mem) (adr : Nat) (h0 : c1 adr = c2 adr)
    (h1 : c1 (adr + 1) = c2 (adr + 1)) : read16 c1 adr = read16 c2 adr := by
  unfold read16
  rw [h0, h1]

/-- The chain read from a card that agrees with the card of `s` below the data area is the
chain of `s`, as far as the FAT entries read lie below the data area. -/
theorem chain_congr (s σ : State) (hg : SameGeom σ s)
    (hlow : ∀ a, a < s.userAddr → σ.card a = s.card a) (hU : s.userAddr < 2 ^ 32) (dir N : Nat)
    (hdir : s.rootAddr + dir * 32 + 28 ≤ s.userAddr)
    (hfat : ∀ k, k < N → s.fatAddr + 2 * chain s dir k + 2 ≤ s.userAddr) (k : Nat)
    (hk : k ≤ N) : chain σ dir k = chain s dir k := by
  obtain ⟨g1, g2, -, -, -, -, -⟩ := hg
  induction k with
  | zero =>
    show read16 σ.card ((σ.rootAddr + dir * 32 + 26) % 2 ^ 32) =
      read16 s.card ((s.rootAddr + dir * 32 + 26) % 2 ^ 32)
    rw [g1, Nat.mod_eq_of_lt (by omega)]
    exact read16_congr _ _ _ (hlow _ (by omega)) (hlow _ (by omega))
  | succ k ih =>
    show read16 σ.card ((σ.fatAddr + chain σ dir k * 2) % 2 ^ 32) =
      read16 s.card ((s.fatAddr + chain s dir k * 2) % 2 ^ 32)
    have hf := hfat k (by omega)
    rw [g2, ih (by omega), Nat.mod_eq_of_lt (by omega)]
    exact read16_congr _ _ _ (hlow _ (by omega)) (hlow _ (by omega))

/-! ### One pass of `dsk2Nic` on a well-formed volume -/

theorem reloadFatDsk_other (s : State) (fatNum : Nat) :
    SameGeom (reloadFatDsk s fatNum) s ∧ (reloadFatDsk s fatNum).card = s.card ∧
    (reloadFatDsk s fatNum).fatNic = s.fatNic ∧
    (reloadFatDsk s fatNum).prevFatNumNic = s.prevFatNumNic := by
  unfold reloadFatDsk
  split_ifs <;> exact ⟨⟨rfl, rfl, rfl, rfl, rfl, rfl, rfl⟩, rfl, rfl, rfl⟩

theorem reloadFatNic_other (s : State) (fatNum : Nat) :
    SameGeom (reloadFatNic s fatNum) s ∧ (reloadFatNic s fatNum).card = s.card ∧
    (reloadFatNic s fatNum).prevFatNumDsk = s.prevFatNumDsk := by
  unfold reloadFatNic
  split_ifs <;> exact ⟨⟨rfl, rfl, rfl, rfl, rfl, rfl, rfl⟩, rfl, rfl⟩

/-- The chain seen by a later state of the run is the chain of the state at the call. -/
theorem chain_kept (s σ : State) (hv : VolumeOk s) (hg : SameGeom σ s)
    (hlow : ∀ a, a < s.userAddr → σ.card a = s.card a) :
    (∀ k, k ≤ clusterCount s 280 → chain σ σ.dskDir k = chain s s.dskDir k) ∧
    (∀ k, k ≤ clusterCount s 560 → chain σ σ.nicDir k = chain s s.nicDir k) := by
  obtain ⟨-, -, -, v4, v5, v6, v7, v8, -⟩ := hv
  constructor
  · intro k hk
    rw [hg.2.2.2.2.2.2]
    exact chain_congr s σ hg hlow v6 _ _ v4 (fun j hj => (v7 j hj).2.2.1) k hk
  · intro k hk
    rw [hg.2.2.2.2.2.1]
    exact chain_congr s σ hg hlow v6 _ _ v5 (fun j hj => (v8 j hj).2.2.1) k hk

/-- After the window reload of `dsk2Nic` for `fatNum`, the DSK window holds the chain. -/
theorem reloadFatDsk_window (s σ : State) (hv : VolumeOk s) (he : σ.eject = false)
    (hg : SameGeom σ s) (hlow : ∀ a, a < s.userAddr → σ.card a = s.card a)
    (hw : ∀ k, k / FAT_DSK_ELEMS = σ.prevFatNumDsk → k < clusterCount s 280 →
      fatDsk σ.writeData (k % FAT_DSK_ELEMS) = chain s s.dskDir k)
    (fatNum : Nat) :
    (reloadFatDsk σ fatNum).prevFatNumDsk = fatNum ∧
    ∀ k, k / FAT_DSK_ELEMS = fatNum → k < clusterCount s 280 →
      fatDsk (reloadFatDsk σ fatNum).writeData (k % FAT_DSK_ELEMS) = chain s s.dskDir k := by
  have hcnt := clusterCount_eq s hv.2.1 hv.2.2.1 280 (by norm_num)
  have hch := (chain_kept s σ hv hg hlow).1
  unfold reloadFatDsk
  by_cases h : fatNum ≠ σ.prevFatNumDsk
  · rw [if_pos h]
    refine ⟨rfl, ?_⟩
    intro k hk1 hk2
    show fatDsk (prepareFat storeFatDsk σ σ.dskDir σ.writeData (clusterCount σ 280) fatNum
      FAT_DSK_ELEMS) (k % FAT_DSK_ELEMS) = _
    rw [clusterCount_geom σ s hg, prepareFat_spec storeFatDsk fatDsk fatDsk_store σ he _ _ _ _ _
      (by norm_num [FAT_DSK_ELEMS]) (by norm_num [FAT_DSK_ELEMS]; omega) k (by omega) hk1
      (by
        intro j _ hj
        rw [hch j (by omega)]
        exact (hv.2.2.2.2.2.2.1 j (by omega)).2.1)]
    exact hch k (by omega)
  · rw [if_neg h]
    have h2 : fatNum = σ.prevFatNumDsk := by simpa using h
    exact ⟨h2.symm, fun k hk1 hk2 => hw k (hk1.trans h2) hk2⟩

/-- After the window reload for `fatNum`, the NIC window holds the chain. -/
theorem reloadFatNic_window (s σ : State) (hv : VolumeOk s) (he : σ.eject = false)
    (hg : SameGeom σ s) (hlow : ∀ a, a < s.userAddr → σ.card a = s.card a)
    (hw : ∀ k, k / FAT_NIC_ELEMS = σ.prevFatNumNic → k < clusterCount s 560 →
      σ.fatNic (k % FAT_NIC_ELEMS) = chain s s.nicDir k)
    (fatNum : Nat) :
    (reloadFatNic σ fatNum).prevFatNumNic = fatNum ∧
    ∀ k, k / FAT_NIC_ELEMS = fatNum → k < clusterCount s 560 →
      (reloadFatNic σ fatNum).fatNic (k % FAT_NIC_ELEMS) = chain s s.nicDir k := by
  have hcnt := clusterCount_eq s hv.2.1 hv.2.2.1 560 (by norm_num)
  have hch := (chain_kept s σ hv hg hlow).2
  unfold reloadFatNic
  by_cases h : fatNum ≠ σ.prevFatNumNic
  · rw [if_pos h]
    refine ⟨rfl, ?_⟩
    intro k hk1 hk2
    show (prepareFat wr16 σ σ.nicDir σ.fatNic (clusterCount σ 560) fatNum
      FAT_NIC_ELEMS) (k % FAT_NIC_ELEMS) = _
    rw [clusterCount_geom σ s hg, prepareFat_spec wr16 (fun f k => f k) wr16_get σ he _ _ _ _ _
      (by norm_num [FAT_NIC_ELEMS]) (by norm_num [FAT_NIC_ELEMS]; omega) k (by omega) hk1
      (by
        intro j _ hj
        rw [hch j (by omega)]
        exact (hv.2.2.2.2.2.2.2.1 j (by omega)).2.1)]
    exact hch k (by omega)
  · rw [if_neg h]
    have h2 : fatNum = σ.prevFatNumNic := by simpa using h
    exact ⟨h2.symm, fun k hk1 hk2 => hw k (hk1.trans h2) hk2⟩

theorem pass_index (n : Nat) (hn : n < 560) :
    ((n / 16) * 8 + (n % 16) / 2) % 65536 = n / 2 ∧ n / 2 < 280 := by
  omega

set_option maxRecDepth 100000 in
theorem physicalSector_lt : ∀ l, l < 16 → pgm_read_byte_near physicalSector l < 16 := by
  decide

theorem nicIndex_lt (n : Nat) (hn : n < 560) :
    ((n / 16) * 16 + pgm_read_byte_near physicalSector (n % 16)) % 65536 = nicIndex n ∧
    nicIndex n < 560 := by
  have h := physicalSector_lt (n % 16) (Nat.mod_lt _ (by norm_num))
  unfold nicIndex
  omega

/-- The read step of pass `n`: afterwards `writeData[0..511]` holds the DSK sector `n / 2`
of the file. -/
theorem dsk2NicRead_pass (s σ : State) (n : Nat) (hv : VolumeOk s) (hI : PassInv s σ n)
    (hn : n < 560) :
    (dsk2NicRead (n / 16) (n % 16) σ).eject = false ∧
    SameGeom (dsk2NicRead (n / 16) (n % 16) σ) s ∧
    (dsk2NicRead (n / 16) (n % 16) σ).card = σ.card ∧
    (dsk2NicRead (n / 16) (n % 16) σ).fatNic = σ.fatNic ∧
    (dsk2NicRead (n / 16) (n % 16) σ).prevFatNumNic = σ.prevFatNumNic ∧
    (dsk2NicRead (n / 16) (n % 16) σ).bus = σ.bus ∧
    (∀ a, 512 ≤ a → a < 1024 →
      (dsk2NicRead (n / 16) (n % 16) σ).writeData a = σ.writeData a) ∧
    (∀ k, k / FAT_DSK_ELEMS = (dsk2NicRead (n / 16) (n % 16) σ).prevFatNumDsk →
      k < clusterCount s 280 →
      fatDsk (dsk2NicRead (n / 16) (n % 16) σ).writeData (k % FAT_DSK_ELEMS) =
        chain s s.dskDir k) ∧
    (∀ j, j < 512 → (dsk2NicRead (n / 16) (n % 16) σ).writeData j =
      s.card (fileSectorAddr s s.dskDir (n / 2) + j) % 256) := by
  obtain ⟨hidx, hidx2⟩ := pass_index n hn
  have hg := hI.geom
  have hcnt := clusterCount_eq s hv.2.1 hv.2.2.1 280 (by norm_num)
  have hlc := cluster_index_lt s hv.2.1 hv.2.2.1 280 (n / 2) (by norm_num) hidx2
  have hlc2 : (n / 2) >>> s.sectorsPerCluster2 ≤ n / 2 := by
    rw [Nat.shiftRight_eq_div_pow]
    exact Nat.div_le_self _ _
  unfold dsk2NicRead
  by_cases hl : (n % 16) &&& 1 = 0
  · rw [if_pos hl]
    simp only [hidx, hg.2.2.2.2.1]
    have hfn : (n / 2) >>> s.sectorsPerCluster2 / FAT_DSK_ELEMS % 256 =
        (n / 2) >>> s.sectorsPerCluster2 / FAT_DSK_ELEMS := by
      unfold FAT_DSK_ELEMS
      generalize (n / 2) >>> s.sectorsPerCluster2 = lc at hlc2
      omega
    rw [hfn]
    obtain ⟨w1, w2⟩ := reloadFatDsk_window s σ hv hI.eject hg hI.cardLow hI.winDsk
      ((n / 2) >>> s.sectorsPerCluster2 / FAT_DSK_ELEMS)
    obtain ⟨o1, o2, o3, o4⟩ := reloadFatDsk_other σ
      ((n / 2) >>> s.sectorsPerCluster2 / FAT_DSK_ELEMS)
    have o5 := reloadFatDsk_eject σ ((n / 2) >>> s.sectorsPerCluster2 / FAT_DSK_ELEMS)
    have o6 := reloadFatDsk_bus σ ((n / 2) >>> s.sectorsPerCluster2 / FAT_DSK_ELEMS)
    have o7 := reloadFatDsk_frame σ ((n / 2) >>> s.sectorsPerCluster2 / FAT_DSK_ELEMS)
    generalize reloadFatDsk σ ((n / 2) >>> s.sectorsPerCluster2 / FAT_DSK_ELEMS) = σ1 at *
    have hft : fatDsk σ1.writeData ((n / 2) >>> s.sectorsPerCluster2 % FAT_DSK_ELEMS) =
        chain s s.dskDir ((n / 2) >>> s.sectorsPerCluster2) := w2 _ rfl hlc
    have hadr : clusterAddr σ1
        (fatDsk σ1.writeData ((n / 2) >>> s.sectorsPerCluster2 % FAT_DSK_ELEMS)) (n / 2) =
        fileSectorAddr s s.dskDir (n / 2) := by
      rw [hft, clusterAddr_geom σ1 s (o1.trans hg)]
      rfl
    rw [hadr]
    refine ⟨o5.trans hI.eject, o1.trans hg, o2, o3, o4, o6, ?_, ?_, ?_⟩
    · intro a h1 h2
      show forLoop 512 _ σ1.writeData a = _
      rw [readLoop_val, if_neg (by omega)]
      exact o7 a h2
    · intro k hk1 hk2
      have hk3 : k % FAT_DSK_ELEMS < 18 := Nat.mod_lt _ (by norm_num [FAT_DSK_ELEMS])
      have e : fatDsk (forLoop 512 (fun i m => wr m i
          (σ1.card (fileSectorAddr s s.dskDir (n / 2) + i))) σ1.writeData) (k % FAT_DSK_ELEMS)
          = fatDsk σ1.writeData (k % FAT_DSK_ELEMS) := by
        unfold fatDsk
        rw [readLoop_val, readLoop_val, if_neg (by omega), if_neg (by omega)]
      show fatDsk (forLoop 512 _ σ1.writeData) (k % FAT_DSK_ELEMS) = _
      rw [e]
      exact w2 k (hk1.trans w1) hk2
    · intro j hj
      show forLoop 512 _ σ1.writeData j = _
      rw [readLoop_val, if_pos hj, o2, hI.cardDsk _ _ hidx2 hj]
  · rw [if_neg hl]
    have hodd : n % 2 = 1 := by
      rw [Nat.and_one_is_mod] at hl
      omega
    refine ⟨hI.eject, hg, rfl, rfl, rfl, rfl, fun _ _ _ => rfl, hI.winDsk, ?_⟩
    intro j hj
    rw [hI.scratch (by omega) j hj, show (n - 1) / 2 = n / 2 by omega]

theorem sixBit_congr (m1 m2 : Mem) (src1 src2 : Nat)
    (h : ∀ j, j < 256 → m1 (src1 + j) = m2 (src2 + j)) (k : Nat) :
    sixBit m1 src1 k = sixBit m2 src2 k := by
  unfold sixBit
  by_cases h1 : k < 86
  · rw [if_pos h1, if_pos h1]
    unfold lowValue
    rw [h k (by omega), h (k + 86) (by omega)]
    by_cases h83 : k ≤ 83
    · rw [if_pos h83, if_pos h83, h (k + 172) (by omega)]
    · rw [if_neg h83, if_neg h83]
  · rw [if_neg h1, if_neg h1]
    by_cases h2 : k < 342
    · rw [if_pos h2, if_pos h2]
      unfold highValue
      rw [h (k - 86) (by omega)]
    · rw [if_neg h2, if_neg h2]

theorem dsk2NicSrc_eq (n : Nat) : dsk2NicSrc (n % 16) = (n % 2) * 256 := by
  unfold dsk2NicSrc
  rw [Nat.and_one_is_mod]
  have h : n % 16 % 2 = n % 2 := by omega
  rw [h]
  rcases Nat.mod_two_eq_zero_or_one n with h0 | h0 <;> rw [h0] <;> simp

/-- The block that pass `n` builds from a buffer whose first 512 bytes are the DSK sector
`n / 2` is the block the pass must send. -/
theorem dsk2NicEncode_good (s : State) (n : Nat) (m : Mem)
    (hm : ∀ j, j < 512 → m j = s.card (fileSectorAddr s s.dskDir (n / 2) + j) % 256) :
    GoodBlock s n (dsk2NicBits (dsk2NicEncode (n / 16) (n % 16) m)) := by
  refine ⟨dsk2NicBits_length _, ?_, ?_⟩
  · rw [← dsk2NicEncode_address (n / 16) (n % 16) m]
    apply List.map_congr_left
    intro j hj
    have hj2 := List.mem_range'_1.1 hj
    rw [dsk2NicBits_dataByte _ _ (by omega), dsk2NicEncode_address_mod _ _ _ _ (by omega)
      (by omega)]
  · unfold gcrNibbles
    apply List.map_congr_left
    intro k hk
    have hk2 : k < 343 := List.mem_range.1 hk
    have hsrc : dsk2NicSrc (n % 16) + 256 ≤ 512 := by
      rw [dsk2NicSrc_eq]
      omega
    have hcong : ∀ j, j < 256 →
        writeAddress 512 (n / 16) (pgm_read_byte_near physicalSector (n % 16)) m
          (dsk2NicSrc (n % 16) + j) = loadSector (dskBytes s n) (0 + j) := by
      intro j hj
      rw [writeAddress_frame _ _ _ _ _ (by omega), hm _ (by omega), Nat.zero_add]
      unfold loadSector dskBytes
      rw [getD_map_range _ _ _ hj, dsk2NicSrc_eq]
    rw [dsk2NicBits_dataByte _ _ (by omega)]
    unfold dsk2NicEncode
    rw [nibble_spec _ 512 _ hsrc k hk2, nibble_spec 0 512 _ (by omega) k hk2,
      Nat.mod_eq_of_lt (encTable_lt _), sixBit_congr _ _ _ _ hcong k,
      sixBit_congr _ _ _ _ hcong (k - 1)]

theorem dsk2NicEncode_low (trk l : Nat) (m : Mem) (a : Nat) (h : a < 512 ∨ 1024 ≤ a) :
    dsk2NicEncode trk l m a = m a := by
  unfold dsk2NicEncode
  rw [encodeData_frame _ _ _ _ (by omega), writeAddress_frame _ _ _ _ _ (by omega)]

/-- The address of a file sector whose cluster is valid. -/
theorem fileSectorAddr_eq (s : State) (hpow : s.sectorsPerCluster = 2 ^ s.sectorsPerCluster2)
    (hk : s.sectorsPerCluster2 ≤ 7) (dir n : Nat)
    (hc : ClusterOk s (chain s dir (n >>> s.sectorsPerCluster2))) :
    fileSectorAddr s dir n = s.userAddr +
      ((chain s dir (n >>> s.sectorsPerCluster2) - 2) * s.sectorsPerCluster +
        n % s.sectorsPerCluster) * 512 :=
  clusterAddr_eq s hpow hk _ n hc

/-- The write step of pass `n`: the block goes to NIC sector `nicIndex n`; the card keeps its
contents below the data area and in the sectors of the DSK file. -/
theorem dsk2NicWrite_pass (s σ : State) (n : Nat) (hv : VolumeOk s) (hn : n < 560)
    (he : σ.eject = false) (hg : SameGeom σ s)
    (hlow : ∀ a, a < s.userAddr → σ.card a = s.card a)
    (hdsk : ∀ m j, m < 280 → j < 512 →
      σ.card (fileSectorAddr s s.dskDir m + j) = s.card (fileSectorAddr s s.dskDir m + j))
    (hwin : ∀ k, k / FAT_NIC_ELEMS = σ.prevFatNumNic → k < clusterCount s 560 →
      σ.fatNic (k % FAT_NIC_ELEMS) = chain s s.nicDir k) :
    (dsk2NicWrite (n / 16) (n % 16) σ).eject = false ∧
    SameGeom (dsk2NicWrite (n / 16) (n % 16) σ) s ∧
    (dsk2NicWrite (n / 16) (n % 16) σ).writeData = σ.writeData ∧
    (dsk2NicWrite (n / 16) (n % 16) σ).prevFatNumDsk = σ.prevFatNumDsk ∧
    (∀ a, a < s.userAddr → (dsk2NicWrite (n / 16) (n % 16) σ).card a = s.card a) ∧
    (∀ m j, m < 280 → j < 512 →
      (dsk2NicWrite (n / 16) (n % 16) σ).card (fileSectorAddr s s.dskDir m + j) =
        s.card (fileSectorAddr s s.dskDir m + j)) ∧
    (∀ k, k / FAT_NIC_ELEMS = (dsk2NicWrite (n / 16) (n % 16) σ).prevFatNumNic →
      k < clusterCount s 560 →
      (dsk2NicWrite (n / 16) (n % 16) σ).fatNic (k % FAT_NIC_ELEMS) = chain s s.nicDir k) ∧
    (dsk2NicWrite (n / 16) (n % 16) σ).bus =
      σ.bus ++ [SdEvent.write (fileSectorAddr s s.nicDir (nicIndex n))
        (dsk2NicBits σ.writeData)] := by
  obtain ⟨hx, hx2⟩ := nicIndex_lt n hn
  have hv0 := hv
  obtain ⟨-, vpow, vk, -, -, vU, vD, vN, vne, -, -⟩ := hv
  have hb := spc_bounds _ _ vpow vk
  have hlc := cluster_index_lt s vpow vk 560 (nicIndex n) (by norm_num) hx2
  have hlc2 : (nicIndex n) >>> s.sectorsPerCluster2 ≤ nicIndex n := by
    rw [Nat.shiftRight_eq_div_pow]
    exact Nat.div_le_self _ _
  have hfn : (nicIndex n) >>> s.sectorsPerCluster2 / FAT_NIC_ELEMS % 256 =
      (nicIndex n) >>> s.sectorsPerCluster2 / FAT_NIC_ELEMS := by
    unfold FAT_NIC_ELEMS
    generalize (nicIndex n) >>> s.sectorsPerCluster2 = lc at hlc2
    omega
  have hN := vN _ hlc
  have hadrN := fileSectorAddr_eq s vpow vk s.nicDir (nicIndex n) hN
  unfold dsk2NicWrite
  simp only [hx, hg.2.2.2.2.1, hfn]
  obtain ⟨w1, w2⟩ := reloadFatNic_window s σ hv0 he hg hlow hwin
    ((nicIndex n) >>> s.sectorsPerCluster2 / FAT_NIC_ELEMS)
  obtain ⟨o1, o2, o3⟩ := reloadFatNic_other σ
    ((nicIndex n) >>> s.sectorsPerCluster2 / FAT_NIC_ELEMS)
  have o4 := reloadFatNic_eject σ ((nicIndex n) >>> s.sectorsPerCluster2 / FAT_NIC_ELEMS)
  have o5 := reloadFatNic_bus σ ((nicIndex n) >>> s.sectorsPerCluster2 / FAT_NIC_ELEMS)
  have o6 := reloadFatNic_writeData σ ((nicIndex n) >>> s.sectorsPerCluster2 / FAT_NIC_ELEMS)
  generalize reloadFatNic σ ((nicIndex n) >>> s.sectorsPerCluster2 / FAT_NIC_ELEMS) = σ1 at *
  have hadr : clusterAddr σ1
      (σ1.fatNic ((nicIndex n) >>> s.sectorsPerCluster2 % FAT_NIC_ELEMS)) (nicIndex n) =
      fileSectorAddr s s.nicDir (nicIndex n) := by
    rw [w2 _ rfl hlc, clusterAddr_geom σ1 s (o1.trans hg)]
    rfl
  rw [hadr, o6]
  unfold sdWrite
  refine ⟨o4.trans he, o1.trans hg, o6, o3, ?_, ?_, ?_, ?_⟩
  · intro a ha
    show (if fileSectorAddr s s.nicDir (nicIndex n) ≤ a ∧
      a < fileSectorAddr s s.nicDir (nicIndex n) + 512 then _ else σ1.card a) = _
    rw [if_neg (by rw [hadrN]; omega), o2]
    exact hlow a ha
  · intro m j hm hj
    have hmc := cluster_index_lt s vpow vk 280 m (by norm_num) hm
    have hD := vD _ hmc
    have hadrD := fileSectorAddr_eq s vpow vk s.dskDir m hD
    have hne := cluster_block_ne s.sectorsPerCluster _ _
      (nicIndex n % s.sectorsPerCluster) (m % s.sectorsPerCluster) hN.1 hD.1
      (vne _ _ hlc hmc) (Nat.mod_lt _ (by omega)) (Nat.mod_lt _ (by omega))
    show (if fileSectorAddr s s.nicDir (nicIndex n) ≤ fileSectorAddr s s.dskDir m + j ∧
      fileSectorAddr s s.dskDir m + j < fileSectorAddr s s.nicDir (nicIndex n) + 512 then _
      else σ1.card (fileSectorAddr s s.dskDir m + j)) = _
    rw [if_neg (by rw [hadrN, hadrD]; omega), o2]
    exact hdsk m j hm hj
  · intro k hk1 hk2
    exact w2 k (hk1.trans w1) hk2
  · show σ1.bus ++ _ = _
    rw [o5]

set_option maxRecDepth 100000 in
theorem physicalSector_onto : ∀ r, r < 16 → ∃ l, l < 16 ∧ pgm_read_byte_near physicalSector l = r := by
  decide

set_option maxRecDepth 100000 in
theorem physicalSector_inj : ∀ l1, l1 < 16 → ∀ l2, l2 < 16 →
    pgm_read_byte_near physicalSector l1 = pgm_read_byte_near physicalSector l2 → l1 = l2 := by
  decide

/-- Every NIC sector index below 560 is the index of exactly one pass. -/
theorem nicIndex_once (x : Nat) (hx : x < 560) : ∃! n, n < 560 ∧ nicIndex n = x := by
  obtain ⟨l, hl, hp⟩ := physicalSector_onto (x % 16) (Nat.mod_lt _ (by norm_num))
  refine ⟨(x / 16) * 16 + l, ⟨by omega, ?_⟩, ?_⟩
  · unfold nicIndex
    have h1 : ((x / 16) * 16 + l) / 16 = x / 16 := by omega
    have h2 : ((x / 16) * 16 + l) % 16 = l := by omega
    rw [h1, h2, hp]
    omega
  · rintro n ⟨hn, hnx⟩
    unfold nicIndex at hnx
    have hlt := physicalSector_lt (n % 16) (Nat.mod_lt _ (by norm_num))
    have h3 : pgm_read_byte_near physicalSector (n % 16) = pgm_read_byte_near physicalSector l := by
      rw [hp]
      omega
    have h4 := physicalSector_inj _ (Nat.mod_lt _ (by norm_num)) _ hl h3
    omega

theorem dsk2NicSector_pass (s σ : State) (n : Nat) (hv : VolumeOk s) (hI : PassInv s σ n)
    (hn : n < 560) : PassInv s (dsk2NicSector (n / 16) (n % 16) σ) (n + 1) := by
  obtain ⟨r1, r2, r3, r4, r5, r6, r7, r8, r9⟩ := dsk2NicRead_pass s σ n hv hI hn
  unfold dsk2NicSector
  rw [if_neg (by simp [hI.eject])]
  generalize dsk2NicRead (n / 16) (n % 16) σ = σ1 at *
  have hfix1 : NicFixed (fun j => σ1.writeData (512 + j)) :=
    NicFixed_congr _ _ hI.fixed (fun j hj => r7 _ (by omega) (by omega))
  obtain ⟨w1, w2, w3, w4, w5, w6, w7, w8⟩ := dsk2NicWrite_pass s
    { σ1 with writeData := dsk2NicEncode (n / 16) (n % 16) σ1.writeData } n hv hn r1 r2
    (fun a ha => by
      show σ1.card a = _
      rw [r3]
      exact hI.cardLow a ha)
    (fun m j hm hj => by
      show σ1.card _ = _
      rw [r3]
      exact hI.cardDsk m j hm hj)
    (fun k hk1 hk2 => by
      show σ1.fatNic _ = _
      rw [r4]
      exact hI.winNic k (hk1.trans r5) hk2)
  simp only at w3 w4 w8
  generalize dsk2NicWrite (n / 16) (n % 16)
    { σ1 with writeData := dsk2NicEncode (n / 16) (n % 16) σ1.writeData } = σ3 at *
  obtain ⟨evs, hb, hl, hall⟩ := hI.bus
  refine ⟨w1, w2, w5, w6, ?_, ?_, w7, ?_, ?_⟩
  · rw [w3]
    exact dsk2NicEncode_fixed _ _ _ hfix1
  · intro k hk1 hk2
    have hk3 : k % FAT_DSK_ELEMS < 18 := Nat.mod_lt _ (by norm_num [FAT_DSK_ELEMS])
    rw [w3]
    unfold fatDsk
    rw [dsk2NicEncode_low _ _ _ _ (by omega), dsk2NicEncode_low _ _ _ _ (by omega)]
    exact r8 k (hk1.trans w4) hk2
  · intro _ j hj
    rw [w3, dsk2NicEncode_low _ _ _ _ (by omega), Nat.add_sub_cancel]
    exact r9 j hj
  · refine ⟨evs ++ [SdEvent.write (fileSectorAddr s s.nicDir (nicIndex n))
      (dsk2NicBits (dsk2NicEncode (n / 16) (n % 16) σ1.writeData))], ?_, by simp [hl], ?_⟩
    · rw [w8, r6, hb, List.append_assoc]
    · intro m hm
      by_cases hmn : m < n
      · obtain ⟨bits, h1, h2⟩ := hall m hmn
        exact ⟨bits, by rw [List.getElem?_append_left (by omega)]; exact h1, h2⟩
      · have hme : m = n := by omega
        subst hme
        refine ⟨_, ?_, dsk2NicEncode_good s m σ1.writeData r9⟩
        rw [List.getElem?_append_right (by omega), hl, Nat.sub_self]
        rfl

/-- The invariant holds after every number of passes of the run. -/
theorem dsk2Nic_passes (s : State) (hv : VolumeOk s) (n : Nat) (hn : n ≤ 560) :
    PassInv s (forLoop n (fun n σ => dsk2NicSector (n / 16) (n % 16) σ)
      { s with prevFatNumNic := 0xff, prevFatNumDsk := 0xff,
               writeData := dsk2NicFrame s.writeData }) n := by
  induction n with
  | zero =>
    have c1 := (clusterCount_eq s hv.2.1 hv.2.2.1 280 (by norm_num)).2
    have c2 := (clusterCount_eq s hv.2.1 hv.2.2.1 560 (by norm_num)).2
    refine ⟨hv.1, ⟨rfl, rfl, rfl, rfl, rfl, rfl, rfl⟩, fun _ _ => rfl, fun _ _ _ _ => rfl,
      dsk2NicFrame_fixed _, ?_, ?_, fun h => absurd h (by omega), [], by simp [forLoop], rfl,
      fun m hm => absurd hm (by omega)⟩
    · intro k hk1 hk2
      exfalso
      have : k / FAT_DSK_ELEMS = 0xff := hk1
      unfold FAT_DSK_ELEMS at this
      omega
    · intro k hk1 hk2
      exfalso
      have : k / FAT_NIC_ELEMS = 0xff := hk1
      unfold FAT_NIC_ELEMS at this
      omega
  | succ n ih =>
    exact dsk2NicSector_pass s _ n hv (ih (by omega)) (by omega)

/-! ### C3: DSK to NIC placement -/

/-- C3: DSK to NIC placement. On a well-formed volume (card present), for every track `t` in
0..34 and logical sector `l` in 0..15, with `p = physicalSector[l]`, pass `t*16 + l` of
`dsk2Nic` writes to the SD address of NIC sector `t*16 + p` (file byte offset
`(t*16 + p) * 512`, resolved through the NIC cluster chain: sector `(t*16 + p) mod
sectorsPerCluster` of cluster number `(t*16 + p) >> sectorsPerCluster2` of the chain) a block of 512 data bytes whose
address field is the 4-and-4 code of volume 0xFE, track `t`, sector `p` and checksum
`0xFE xor t xor p`, and whose 343 payload nibbles are the GCR encoding of the 256 DSK bytes
at file offset `(t*16 + l) * 256`.  The run makes exactly 560 block writes, and every NIC
sector index below 560 is the index of exactly one pass. -/
theorem dsk2Nic_placement (s : State) (hv : VolumeOk s) (t l : Nat) (ht : t < 35)
    (hl : l < 16) :
    (dsk2Nic s).bus.length = s.bus.length + 560 ∧
    (∃ bits,
      (dsk2Nic s).bus[s.bus.length + (t * 16 + l)]? =
        some (SdEvent.write
          (fileSectorAddr s s.nicDir (t * 16 + pgm_read_byte_near physicalSector l)) bits) ∧
      fileSectorAddr s s.nicDir (t * 16 + pgm_read_byte_near physicalSector l) =
        s.userAddr +
          ((chain s s.nicDir
              ((t * 16 + pgm_read_byte_near physicalSector l) >>> s.sectorsPerCluster2) - 2) *
            s.sectorsPerCluster +
            (t * 16 + pgm_read_byte_near physicalSector l) % s.sectorsPerCluster) * 512 ∧
      bits.length = 8 * 516 ∧
      (List.range' 0x25 8).map (dataByte bits) =
        fourAndFour 0xFE ++ fourAndFour t ++ fourAndFour (pgm_read_byte_near physicalSector l) ++
          fourAndFour (0xFE ^^^ t ^^^ pgm_read_byte_near physicalSector l) ∧
      (List.range 343).map (fun k => dataByte bits (0x38 + k)) =
        gcrNibbles (dskBytes s (t * 16 + l))) ∧
    (∀ x, x < 560 → ∃! n, n < 560 ∧
      (n / 16) * 16 + pgm_read_byte_near physicalSector (n % 16) = x) := by
  obtain ⟨-, -, -, -, -, -, -, -, evs, hb, hlen, hall⟩ := dsk2Nic_passes s hv 560 le_rfl
  have hbus : (dsk2Nic s).bus = s.bus ++ evs := by
    unfold dsk2Nic
    simp only
    rw [if_neg (by simp [hv.1]), buffClear_bus, dsk2NicLoops_eq, hb]
  have h1 : (t * 16 + l) / 16 = t := by omega
  have h2 : (t * 16 + l) % 16 = l := by omega
  have hp := physicalSector_lt l hl
  obtain ⟨bits, hev, g1, g2, g3⟩ := hall (t * 16 + l) (by omega)
  rw [h1, h2] at g2
  unfold nicIndex at hev
  rw [h1, h2] at hev
  refine ⟨by rw [hbus, List.length_append, hlen], ⟨bits, ?_, ?_, g1, ?_, g3⟩, nicIndex_once⟩
  · rw [hbus, List.getElem?_append_right (by omega), Nat.add_sub_cancel_left]
    exact hev
  · exact fileSectorAddr_eq s hv.2.1 hv.2.2.1 _ _
      (hv.2.2.2.2.2.2.2.1 _ (cluster_index_lt s hv.2.1 hv.2.2.1 560 _ (by norm_num) (by omega)))
  · rw [g2]
    have hc : (volume ^^^ t ^^^ pgm_read_byte_near physicalSector l) % 256 =
        0xFE ^^^ t ^^^ pgm_read_byte_near physicalSector l := by
      apply Nat.mod_eq_of_lt
      apply Nat.xor_lt_two_pow (n := 8)
      · apply Nat.xor_lt_two_pow (n := 8)
        · decide
        · omega
      · omega
    rw [hc]
    rfl

set_option maxRecDepth 100000 in
theorem sampleVolume_ok : VolumeOk sampleVolume := by
  have h1 : clusterCount sampleVolume 280 = 5 := by decide
  have h2 : clusterCount sampleVolume 560 = 9 := by decide
  refine ⟨rfl, by decide, by decide, by decide, by decide, by decide, ?_, ?_, ?_,
    by decide, by decide⟩
  · rw [h1]
    intro k hk
    unfold ClusterOk
    interval_cases k <;> decide
  · rw [h2]
    intro k hk
    unfold ClusterOk
    interval_cases k <;> decide
  · rw [h1, h2]
    intro i j hi hj
    interval_cases i <;> interval_cases j <;> decide

/-- Witness for C3: `sampleVolume` is well-formed; track 17, logical sector 1. -/
theorem dsk2Nic_placement_witness :
    VolumeOk sampleVolume ∧ 17 < 35 ∧ 1 < 16 ∧
    (dsk2Nic sampleVolume).bus.length = sampleVolume.bus.length + 560 :=
  ⟨sampleVolume_ok, by decide, by decide,
    (dsk2Nic_placement sampleVolume sampleVolume_ok 17 1 (by decide) (by decide)).1⟩

/-! ### C4: write then read -/

theorem writeBackSub2_geom (s : State) (bn sc track : Nat) :
    SameGeom (writeBackSub2 s bn sc track) s := by
  unfold writeBackSub2
  by_cases he : s.eject = true
  · rw [if_pos he]
    exact ⟨rfl, rfl, rfl, rfl, rfl, rfl, rfl⟩
  · rw [if_neg he]
    exact (reloadFatNic_other s _).1

theorem flushSlot_geom (i : Nat) (s : State) : SameGeom (flushSlot i s) s := by
  unfold flushSlot
  by_cases hne : s.sectors i ≠ 0xff
  · rw [if_pos hne]
    exact writeBackSub2_geom s i _ _
  · rw [if_neg hne]
    exact ⟨rfl, rfl, rfl, rfl, rfl, rfl, rfl⟩

theorem flushLoop_geom (s : State) (n : Nat) : SameGeom (forLoop n flushSlot s) s := by
  induction n with
  | zero => exact ⟨rfl, rfl, rfl, rfl, rfl, rfl, rfl⟩
  | succ n ih => exact (flushSlot_geom n (forLoop n flushSlot s)).trans ih

theorem flushAll_geom (s : State) : SameGeom (flushAll s) s := by
  have key := flushLoop_geom s BUF_NUM
  unfold flushAll
  generalize forLoop BUF_NUM flushSlot s = t at key ⊢
  exact key

/-- C4: write-then-read coherence. In the foreground prepare step (`inited` and `prepare`
set, card present), if the (track, sector) about to be staged, `(ph_track>>2,
(sector+1)&0xF)`, equals `(tracks[i], sectors[i])` of some slot, then the bus receives one
block write per non-empty slot (`sectors[i] != 0xff`), in slot order and with the bits
`writeBackSub2` builds from that slot, and only then the `cmd17Fast` of the staged sector, at
the address computed from the NIC window entry of its cluster (`ls` is the index of the
sector in the NIC file, `lc` the index of its cluster); afterwards all slots are empty,
`sector` is the staged sector and `prepare` is clear. -/
theorem write_then_read (s : State) (he : s.eject = false) (hi : s.inited ≠ 0)
    (hp : s.prepare ≠ 0)
    (hm : ∃ i, i < BUF_NUM ∧ s.sectors i = (s.sector + 1) &&& 0xf ∧
      s.tracks i = s.ph_track >>> 2)
    (ls lc : Nat) (hls : ls = ((s.ph_track >>> 2) * 16 + ((s.sector + 1) &&& 0xf)) % 65536)
    (hlc : lc = ls >>> s.sectorsPerCluster2) :
    (∃ ws : List (Nat × List Bool),
      (prepareStep s).bus =
        s.bus ++ ws.map (fun w => SdEvent.write w.1 w.2) ++
          [SdEvent.read (clusterAddr s
            ((reloadFatNic s ((lc / FAT_NIC_ELEMS) % 256)).fatNic (lc % FAT_NIC_ELEMS)) ls)] ∧
      ws.map Prod.snd =
        ((List.range BUF_NUM).filter (fun i => decide (s.sectors i ≠ 0xff))).map
          (fun i => writeBackSub2Bits s.writeData i (s.sectors i) (s.tracks i))) ∧
    (∀ i, i < BUF_NUM → (prepareStep s).sectors i = 0xff ∧ (prepareStep s).tracks i = 0xff) ∧
    (prepareStep s).sector = (s.sector + 1) &&& 0xf ∧
    (prepareStep s).prepare = 0 := by
  obtain ⟨i, hi5, hsi, hti⟩ := hm
  have hle : (s.sector + 1) &&& 0xf ≤ 0xf := Nat.and_le_right
  -- `s2` is the state when the slots are tested
  have hstep : ∃ s2 adr, s2.eject = false ∧ s2.sectors = s.sectors ∧ s2.tracks = s.tracks ∧
      s2.writeData = s.writeData ∧ s2.bus = s.bus ∧ s2.sector = (s.sector + 1) &&& 0xf ∧
      SameGeom s2 s ∧
      adr = (if slotMatch s2 (s.ph_track >>> 2) then writeBackSub s2 else s2,
        (reloadFatNic { s with sector := (s.sector + 1) &&& 0xf }
          ((lc / FAT_NIC_ELEMS) % 256)).fatNic (lc % FAT_NIC_ELEMS)) ∧
      prepareStep s = { cmd17Stage (if slotMatch s2 (s.ph_track >>> 2) then writeBackSub s2
        else s2) (clusterAddr adr.1 adr.2 ls) with bitbyte := 0, prepare := 0 } := by
    subst hlc
    subst hls
    unfold prepareStep
    rw [if_pos ⟨hi, hp⟩]
    refine ⟨reloadFatNic _ _, _, ?_, ?_, ?_, ?_, ?_, ?_, ?_, rfl, rfl⟩
    · rw [reloadFatNic_eject]; exact he
    · rw [reloadFatNic_sectors]
    · rw [reloadFatNic_tracks]
    · rw [reloadFatNic_writeData]
    · rw [reloadFatNic_bus]
    · rw [reloadFatNic_sector]
    · exact (reloadFatNic_other _ _).1.trans ⟨rfl, rfl, rfl, rfl, rfl, rfl, rfl⟩
  obtain ⟨s2, adr, e2, hsec2, htr2, hwd2, hbus2, hsr2, hg2, hadr, hstep⟩ := hstep
  have hmatch : slotMatch s2 (s.ph_track >>> 2) = true := by
    unfold slotMatch
    rw [hsec2, htr2, hsr2]
    have h5 : i = 0 ∨ i = 1 ∨ i = 2 ∨ i = 3 ∨ i = 4 := by
      unfold BUF_NUM at hi5
      omega
    rcases h5 with rfl | rfl | rfl | rfl | rfl <;> simp [hsi, hti]
  have hwb : writeBackSub s2 = flushAll s2 := by
    unfold writeBackSub
    rw [if_neg (by simp [e2])]
    apply (writeBackSubLoop_spec BUF_NUM 0 s2).1
    refine ⟨i, Nat.zero_le _, by omega, ?_⟩
    rw [hsec2, hsi]
    omega
  have hfw : (reloadFatNic { s with sector := (s.sector + 1) &&& 0xf }
        ((lc / FAT_NIC_ELEMS) % 256)).fatNic =
      (reloadFatNic s ((lc / FAT_NIC_ELEMS) % 256)).fatNic := by
    unfold reloadFatNic
    split_ifs <;> rfl
  obtain ⟨-, f2, -, f4, -, ws, fb, fws⟩ := flushAll_spec s2 e2
  have fg := (flushAll_geom s2).trans hg2
  rw [hmatch, if_pos rfl, hwb] at hstep hadr
  generalize flushAll s2 = s3 at hstep f2 f4 fb fg hadr
  subst hadr
  simp only at hstep
  rw [clusterAddr_geom s3 s fg, hfw] at hstep
  generalize clusterAddr s _ _ = a at hstep ⊢
  have hbus : (prepareStep s).bus = s3.bus ++ [SdEvent.read a] := by rw [hstep]; rfl
  have hsec : (prepareStep s).sectors = s3.sectors := by rw [hstep]; rfl
  have htr : (prepareStep s).tracks = s3.tracks := by rw [hstep]; rfl
  have hsr : (prepareStep s).sector = s3.sector := by rw [hstep]; rfl
  have hpr : (prepareStep s).prepare = 0 := by rw [hstep]
  rw [hbus, hsec, htr, hsr, hpr]
  refine ⟨⟨ws, ?_, ?_⟩, f4, f2.trans hsr2, rfl⟩
  · rw [fb, hbus2]
  · rw [fws, hsec2, htr2, hwd2]

/-- Witness for C4: the scenario of the spec, slot 0 holds (5, 3) and (5, 3) is staged, which
is sector 83 of the NIC file, in its cluster 1. -/
theorem write_then_read_witness :
    sampleBuffered.eject = false ∧ sampleBuffered.inited ≠ 0 ∧ sampleBuffered.prepare ≠ 0 ∧
    (∃ i, i < BUF_NUM ∧ sampleBuffered.sectors i = (sampleBuffered.sector + 1) &&& 0xf ∧
      sampleBuffered.tracks i = sampleBuffered.ph_track >>> 2) ∧
    83 = ((sampleBuffered.ph_track >>> 2) * 16 + ((sampleBuffered.sector + 1) &&& 0xf)) % 65536 ∧
    1 = 83 >>> sampleBuffered.sectorsPerCluster2 ∧
    (∀ i, i < BUF_NUM → (prepareStep sampleBuffered).sectors i = 0xff ∧
      (prepareStep sampleBuffered).tracks i = 0xff) :=
  ⟨rfl, by decide, by decide, ⟨0, by decide, by decide, by decide⟩, by decide, by decide,
    (write_then_read sampleBuffered rfl (by decide) (by decide)
      ⟨0, by decide, by decide, by decide⟩ 83 1 (by decide) (by decide)).2.1⟩

/-! ### C14: the interleave table -/

/-- C14: interleave table. `physicalSector` has 16 entries, every value in 0..15 occurs
exactly once among them, and so the table is a permutation of 0, 1, ..., 15. -/
theorem interleave_permutation :
    physicalSector.length = 16 ∧ (∀ v, v < 16 → physicalSector.count v = 1) ∧
    physicalSector.Perm (List.range 16) := by
  decide

/-! ### C16: the disk-byte tables -/

/-- C16 (counterexample): entry 0 of `encTable` is 0x96 = 1001 0110, whose bits 5 and 6 are
both zero, so not every entry is free of two consecutive zero bits. -/
theorem disk_byte_counterexample :
    pgm_read_byte_near encTable 0 = 0x96 ∧ Nat.testBit 0x96 5 = false ∧
    Nat.testBit 0x96 6 = false ∧
    ¬ (∀ x, x < 64 → zeroPairs (pgm_read_byte_near encTable x) = 0) := by
  refine ⟨rfl, by decide, by decide, ?_⟩
  intro h
  have := h 0 (by decide)
  revert this
  decide

set_option maxRecDepth 100000 in
/-- C16 (amended): disk-byte table validity. The 64 entries of `encTable` are pairwise
distinct, every entry has its most significant bit set, and no entry contains more than one
pair of consecutive zero bits; `decTable` has 256 entries and is the inverse of `encTable`:
`decTable[encTable[x]] = x` for every `x` in 0..63, and `decTable[b] = 0` for every byte `b`
that is not an entry of `encTable`. -/
theorem disk_byte_tables :
    encTable.length = 64 ∧ encTable.Nodup ∧
    (∀ x, x < 64 → (pgm_read_byte_near encTable x).testBit 7 = true ∧
      pgm_read_byte_near encTable x < 256) ∧
    (∀ x, x < 64 → zeroPairs (pgm_read_byte_near encTable x) ≤ 1) ∧
    decTable.length = 256 ∧
    (∀ x, x < 64 → pgm_read_byte_near decTable (pgm_read_byte_near encTable x) = x) ∧
    (∀ b, b < 256 → b ∉ encTable → pgm_read_byte_near decTable b = 0) := by
  refine ⟨by decide, by decide, by decide, by decide, by decide, by decide, by decide⟩

/-! ### C15: the FAT window load -/

theorem chain_longChain (k : Nat) (hk : k ≤ 1000) : chain longChainVolume 0 k = k + 2 := by
  induction k with
  | zero => decide
  | succ k ih =>
    show read16 longChainCard ((0 + chain longChainVolume 0 k * 2) % 2 ^ 32) = k + 1 + 2
    rw [ih (by omega), Nat.zero_add, Nat.mod_eq_of_lt (by omega)]
    unfold read16 longChainCard
    rw [if_pos (by omega), if_pos (by omega), if_pos (by omega), if_neg (by omega)]
    omega

set_option maxRecDepth 1000000 in
theorem prepareFat_longChain :
    prepareFat wr16 longChainVolume 0 (fun _ => 0) 511 255 1 0 = 513 := by
  decide

set_option maxRecDepth 1000000 in
/-- C15 (counterexample): with `fatElemNum = 1`, `fatNum = 255` and `len = 511` on a chain
`c_k = k + 2`, step 255 is in the window and no entry before it is above 0xFFF6, but `fat[0]`
ends as 513 = `c_511`, not 257 = `c_255`: the 8-bit `fn` of step 511 is 255 again.  With
`len = 257` the walk makes all 257 steps, although step 256 is the first past the window.
And with a start cluster `c_0 = 0xFFFF` the walk still makes all 9 steps of `len = 9`. -/
theorem fat_window_counterexample :
    ¬ (∀ k, k ≤ 511 → k / 1 = 255 → (∀ j, j < k → chain longChainVolume 0 j ≤ 0xfff6) →
      prepareFat wr16 longChainVolume 0 (fun _ => 0) 511 255 1 (k % 1) =
        chain longChainVolume 0 k) ∧
    prepareFatReads longChainVolume 0 257 255 1 = 257 ∧
    chain badStartVolume 0 0 = 0xffff ∧ prepareFatReads badStartVolume 0 9 0 35 = 9 := by
  refine ⟨?_, by decide, by decide, by decide⟩
  intro h
  have h255 := h 255 (by omega) (by omega) (fun j hj => by
    rw [chain_longChain j (by omega)]
    omega)
  rw [chain_longChain 255 (by omega)] at h255
  have h0 : 255 % 1 = 0 := by omega
  rw [h0, prepareFat_longChain] at h255
  omega

/-! ### `findExt` -/

/-- One pass of the loop on an entry inside the 32-bit address space: the newest match so
far is replaced when entry `i` matches and is not older; `*protect` is overwritten when
entry `i` passes the filter, whatever its extension. -/
theorem findExtStep_eq (s : State) (hroot : s.rootAddr + 512 * 32 ≤ 2 ^ 32)
    (str : Nat → Nat) (hp : Bool) (i : Nat) (hi : i < 512) (st : FindExt) :
    findExtStep s str hp i st =
      { max_file := if EntryMatches s str i ∧ (entryDate s i > st.max_date ∨
            (entryDate s i = st.max_date ∧ entryTime s i ≥ st.max_time)) then i
          else st.max_file
        max_time := if EntryMatches s str i ∧ (entryDate s i > st.max_date ∨
            (entryDate s i = st.max_date ∧ entryTime s i ≥ st.max_time)) then entryTime s i
          else st.max_time
        max_date := if EntryMatches s str i ∧ (entryDate s i > st.max_date ∨
            (entryDate s i = st.max_date ∧ entryTime s i ≥ st.max_time)) then entryDate s i
          else st.max_date
        protect := if hp = true ∧ EntryFiltered s i then (rootByte s i 11 &&& 1) <<< 3
          else st.protect } := by
  have a0 : (s.rootAddr + i * 32) % 2 ^ 32 = s.rootAddr + i * 32 + 0 :=
    Nat.mod_eq_of_lt (by omega)
  have a11 : (s.rootAddr + i * 32 + 11) % 2 ^ 32 = s.rootAddr + i * 32 + 11 :=
    Nat.mod_eq_of_lt (by omega)
  have a8 : (s.rootAddr + i * 32 + 8) % 2 ^ 32 = s.rootAddr + i * 32 + 8 :=
    Nat.mod_eq_of_lt (by omega)
  have a22 : (s.rootAddr + i * 32 + 22) % 2 ^ 32 = s.rootAddr + i * 32 + 22 :=
    Nat.mod_eq_of_lt (by omega)
  unfold findExtStep EntryMatches EntryFiltered entryDate entryTime rootByte
  rw [a0, a11, a8, a22]
  simp only [Nat.add_assoc, Nat.reduceAdd]
  generalize s.card (s.rootAddr + (i * 32 + 0)) % 256 = d0
  generalize s.card (s.rootAddr + (i * 32 + 11)) % 256 = d11
  generalize s.card (s.rootAddr + (i * 32 + 8)) % 256 = e0
  generalize s.card (s.rootAddr + (i * 32 + 9)) % 256 = e1
  generalize s.card (s.rootAddr + (i * 32 + 10)) % 256 = e2
  generalize s.card (s.rootAddr + (i * 32 + 22)) % 256 = t0
  generalize s.card (s.rootAddr + (i * 32 + 23)) % 256 = t1
  generalize s.card (s.rootAddr + (i * 32 + 24)) % 256 = u0
  generalize s.card (s.rootAddr + (i * 32 + 25)) % 256 = u1
  cases st with
  | mk mf mt md pr =>
    simp only []
    by_cases hA : (65 ≤ d0 ∧ d0 ≤ 90 ∨ 48 ≤ d0 ∧ d0 ≤ 57)
    · have h1 : ¬ (d0 = 0 ∨ d0 = 5 ∨ d0 = 46 ∨ d0 = 229) := by omega
      rw [if_neg h1, if_neg (not_not.2 hA)]
      by_cases hB : d11 &&& 30 = 0
      · have h15 : d11 ≠ 15 := by
          rintro rfl
          revert hB
          decide
        rw [if_neg (not_not.2 hB), if_neg h15]
        by_cases hm : e0 = str 0 ∧ e1 = str 1 ∧ e2 = str 2
        · by_cases hn : u0 + u1 * 256 > md ∨ u0 + u1 * 256 = md ∧ t0 + t1 * 256 ≥ mt
          · cases hp <;> simp [hA, hB, hm, hn]
          · cases hp <;> simp [hA, hB, hm, hn]
        · cases hp <;> simp [hA, hB, hm]
      · rw [if_pos hB]
        simp [hA, hB]
    · by_cases h1 : d0 = 0 ∨ d0 = 5 ∨ d0 = 46 ∨ d0 = 229
      · rw [if_pos h1]
        simp [hA]
      · rw [if_neg h1, if_pos hA]
        simp [hA]

/-- The invariant of the scan after `n` passes: either no entry below `n` matches and the
locals are as initialised, or `max_file` is a matching entry below `n` with the greatest
stamp `(date, time)` among the matching entries below `n`. -/
theorem findExt_scan (s : State) (hroot : s.rootAddr + 512 * 32 ≤ 2 ^ 32) (str : Nat → Nat)
    (hp : Bool) (p : Nat) (n : Nat) (hn : n ≤ 512) (st : FindExt)
    (hst : st = forLoop n (findExtStep s str hp)
      { max_file := 512, max_time := 0, max_date := 0, protect := p }) :
    (st.max_file = 512 ∧ st.max_date = 0 ∧ st.max_time = 0 ∧
      ∀ j, j < n → ¬ EntryMatches s str j) ∨
    (st.max_file < n ∧ EntryMatches s str st.max_file ∧
      st.max_date = entryDate s st.max_file ∧ st.max_time = entryTime s st.max_file ∧
      ∀ j, j < n → EntryMatches s str j →
        entryDate s j < st.max_date ∨
        (entryDate s j = st.max_date ∧ entryTime s j ≤ st.max_time)) := by
  induction n generalizing st with
  | zero =>
    left
    subst hst
    exact ⟨rfl, rfl, rfl, fun j hj => by omega⟩
  | succ n ih =>
    have ih := ih (by omega) _ rfl
    have hs : forLoop (n + 1) (findExtStep s str hp)
        { max_file := 512, max_time := 0, max_date := 0, protect := p } =
      findExtStep s str hp n (forLoop n (findExtStep s str hp)
        { max_file := 512, max_time := 0, max_date := 0, protect := p }) := rfl
    rw [hs, findExtStep_eq s hroot str hp n (by omega)] at hst
    generalize forLoop n (findExtStep s str hp)
      { max_file := 512, max_time := 0, max_date := 0, protect := p } = st0 at ih hst
    subst hst
    simp only []
    by_cases hM : EntryMatches s str n ∧ (entryDate s n > st0.max_date ∨
        (entryDate s n = st0.max_date ∧ entryTime s n ≥ st0.max_time))
    · rw [if_pos hM, if_pos hM, if_pos hM]
      right
      refine ⟨by omega, hM.1, rfl, rfl, ?_⟩
      intro j hj hmj
      by_cases hjn : j = n
      · subst hjn
        exact Or.inr ⟨rfl, Nat.le_refl _⟩
      · rcases ih with ⟨-, -, -, hnone⟩ | ⟨-, -, -, -, hall⟩
        · exact absurd hmj (hnone j (by omega))
        · have := hall j (by omega) hmj
          have := hM.2
          omega
    · rw [if_neg hM, if_neg hM, if_neg hM]
      rcases ih with ⟨h1, h2, h3, hnone⟩ | ⟨h1, h2, h3, h4, hall⟩
      · left
        refine ⟨h1, h2, h3, ?_⟩
        intro j hj hmj
        by_cases hjn : j = n
        · subst hjn
          apply hM
          refine ⟨hmj, ?_⟩
          rw [h2, h3]
          omega
        · exact hnone j (by omega) hmj
      · right
        refine ⟨by omega, h2, h3, h4, ?_⟩
        intro j hj hmj
        by_cases hjn : j = n
        · subst hjn
          have hnew : ¬ (entryDate s j > st0.max_date ∨
              (entryDate s j = st0.max_date ∧ entryTime s j ≥ st0.max_time)) :=
            fun h => hM ⟨hmj, h⟩
          omega
        · exact hall j (by omega) hmj

/-- C11 (amended): directory newest-wins. With the card present (root directory inside the
32-bit address space, `str` three ASCII characters), `findExt(str, ...)` returns 512 exactly
when no root entry passes the filter (first byte a capital letter `A`..`Z` or a digit
`0`..`9`, attribute byte without the bits 0x1E) with extension `str` at offset 8; otherwise
it returns the index of such an entry whose `(date, time)` pair, little-endian at offsets
24..25 and 22..23, is lexicographically greatest among all such entries. -/
theorem newest_wins (s : State) (he : s.eject = false)
    (hroot : s.rootAddr + 512 * 32 ≤ 2 ^ 32) (str : Nat → Nat)
    (_hstr : ∀ j, j < 3 → str j < 128) (protect : Option Nat) (name : Option (Nat → Nat)) :
    ((findExt s str protect name).1 = 512 ↔ ∀ i, i < 512 → ¬ EntryMatches s str i) ∧
    ((findExt s str protect name).1 ≠ 512 →
      (findExt s str protect name).1 < 512 ∧
      EntryMatches s str (findExt s str protect name).1 ∧
      ∀ j, j < 512 → EntryMatches s str j →
        entryDate s j < entryDate s (findExt s str protect name).1 ∨
        (entryDate s j = entryDate s (findExt s str protect name).1 ∧
          entryTime s j ≤ entryTime s (findExt s str protect name).1)) := by
  have hr : (findExt s str protect name).1 =
      (forLoop 512 (findExtStep s str protect.isSome)
        { max_file := 512, max_time := 0, max_date := 0, protect := protect.getD 0 }).max_file := by
    unfold findExt
    rw [if_neg (by simp [he])]
  rw [hr]
  have hscan := findExt_scan s hroot str protect.isSome (protect.getD 0) 512 (Nat.le_refl _)
    _ rfl
  generalize forLoop 512 (findExtStep s str protect.isSome)
    { max_file := 512, max_time := 0, max_date := 0, protect := protect.getD 0 } = st at hscan ⊢
  rcases hscan with ⟨h1, -, -, hnone⟩ | ⟨h1, h2, h3, h4, hall⟩
  · exact ⟨⟨fun _ => hnone, fun _ => h1⟩, fun h => absurd h1 h⟩
  · refine ⟨⟨fun h => by omega, fun h => absurd h2 (h _ h1)⟩, fun _ => ⟨h1, h2, ?_⟩⟩
    intro j hj hmj
    rw [← h3, ← h4]
    exact hall j hj hmj

set_option maxRecDepth 1000000 in
/-- Witness for C11: the scenario of the spec, two NIC entries dated 2021-06-15 (entry 0)
and 2020-01-01 (entry 1); the scan returns entry 0. -/
theorem newest_wins_witness :
    dirVolume.eject = false ∧ dirVolume.rootAddr + 512 * 32 ≤ 2 ^ 32 ∧
    (∀ j, j < 3 → nicExt j < 128) ∧
    (findExt dirVolume nicExt none none).1 = 0 ∧
    EntryMatches dirVolume nicExt (findExt dirVolume nicExt none none).1 :=
  ⟨rfl, by decide, by decide, by decide,
    ((newest_wins dirVolume rfl (by decide) nicExt (by decide) none none).2
      (by decide)).2.1⟩

/-- The value `findExt` leaves in `*protect` is the protect bit of the last root entry that
passes the filter, whatever its extension and whichever entry is returned. -/
theorem findExt_protect (s : State) (he : s.eject = false)
    (hroot : s.rootAddr + 512 * 32 ≤ 2 ^ 32) (str : Nat → Nat) (p : Nat)
    (name : Option (Nat → Nat)) (i : Nat) (hi : i < 512) (hf : EntryFiltered s i)
    (hlast : ∀ j, i < j → j < 512 → ¬ EntryFiltered s j) :
    (findExt s str (some p) name).2.1 = some ((rootByte s i 11 &&& 1) <<< 3) := by
  have hloop : ∀ n, i < n → n ≤ 512 →
      (forLoop n (findExtStep s str true)
        { max_file := 512, max_time := 0, max_date := 0, protect := p }).protect =
        (rootByte s i 11 &&& 1) <<< 3 := by
    intro n
    induction n with
    | zero =>
      intro h
      omega
    | succ n ih =>
      intro h1 h2
      show (findExtStep s str true n _).protect = _
      rw [findExtStep_eq s hroot str true n (by omega)]
      simp only []
      by_cases hn : n = i
      · subst hn
        rw [if_pos ⟨trivial, hf⟩]
      · rw [if_neg (fun h => hlast n (by omega) (by omega) h.2)]
        exact ih (by omega) (by omega)
  have h512 := hloop 512 hi (Nat.le_refl _)
  unfold findExt
  rw [if_neg (by simp [he])]
  show some (forLoop 512 (findExtStep s str true)
    { max_file := 512, max_time := 0, max_date := 0, protect := p }).protect = _
  rw [h512]

set_option maxRecDepth 1000000 in
/-- C12 (failing input): on `dirCard` the scan for `"NIC"` returns entry 0 (`A.NIC`,
read-only, protect bit 8), but `*protect` ends as 0, the protect bit of entry 2 (`B.DSK`),
the last entry that passes the filter. -/
theorem protect_not_of_selected :
    (findExt dirVolume nicExt (some 0) none).1 = 0 ∧
    (findExt dirVolume nicExt (some 0) none).2.1 = some 0 ∧
    (rootByte dirVolume 0 11 &&& 1) <<< 3 = 8 ∧
    (rootByte dirVolume 2 11 &&& 1) <<< 3 = 0 := by
  decide

/-! ### `createNic` -/

/-- The search loop stops at the first free entry. -/
theorem createNicSearch_spec (s : State) (n re : Nat) :
    re ≤ createNicSearch s n re ∧ createNicSearch s n re ≤ re + n ∧
    (∀ k, re ≤ k → k < createNicSearch s n re → entryFree s k = false) ∧
    (createNicSearch s n re < re + n → entryFree s (createNicSearch s n re) = true) := by
  induction n generalizing re with
  | zero =>
    refine ⟨Nat.le_refl _, Nat.le_refl _, ?_, ?_⟩
    · intro k h1 h2
      simp only [createNicSearch] at h2
      omega
    · intro h
      simp only [createNicSearch] at h
      omega
  | succ n ih =>
    rw [createNicSearch]
    by_cases hf : entryFree s re = true
    · rw [if_pos hf]
      refine ⟨Nat.le_refl _, by omega, ?_, fun _ => hf⟩
      intro k h1 h2
      omega
    · rw [if_neg hf]
      obtain ⟨i1, i2, i3, i4⟩ := ih (re + 1)
      refine ⟨by omega, by omega, ?_, fun h => i4 (by omega)⟩
      intro k h1 h2
      by_cases hk : k = re
      · subst hk
        simpa using hf
      · exact i3 k (by omega) h2

/-- With the card present, `createNic` returns 0 when no root entry is free, and once a
free root entry is found its only return value is 1, whatever the FAT holds: the linking
loop has no failure exit. -/
theorem createNic_returns (fuel sectorsPerFat : Nat) (s : State) (name : Nat → Nat)
    (he : s.eject = false) :
    ((∀ re, re < 512 → entryFree s re = false) →
      createNic fuel sectorsPerFat s name = some (s, 0)) ∧
    ((∃ re, re < 512 ∧ entryFree s re = true) →
      ∀ s2 r, createNic fuel sectorsPerFat s name = some (s2, r) → r = 1) := by
  obtain ⟨h1, h2, h3, h4⟩ := createNicSearch_spec s 512 0
  constructor
  · intro hnone
    have h512 : createNicSearch s 512 0 = 512 := by
      by_contra hne
      have hfree := h4 (by omega)
      rw [hnone _ (by omega)] at hfree
      exact Bool.false_ne_true hfree
    unfold createNic
    rw [if_neg (by simp [he]), if_pos h512]
  · rintro ⟨re, hre, hfree⟩ s2 r hret
    have hne : createNicSearch s 512 0 ≠ 512 := by
      intro h512
      have := h3 re (Nat.zero_le _) (by omega)
      rw [hfree] at this
      exact Bool.false_ne_true this.symm
    unfold createNic at hret
    rw [if_neg (by simp [he]), if_neg hne] at hret
    simp only at hret
    split at hret
    · exact absurd hret (by simp)
    · simp only [Option.some.injEq, Prod.mk.injEq] at hret
      exact hret.2.symm

theorem blockBits_eq (buf : Mem) :
    blockBits buf =
      ([0xff, 0xfe] ++ (List.range 512).map buf ++ [0xff, 0xff]).flatMap writeByteFast := by
  unfold blockBits
  rw [forLoop_append_bytes]
  simp [List.flatMap_append]

theorem blockBits_dataByte (buf : Mem) (j : Nat) (hj : j < 512) :
    dataByte (blockBits buf) j = buf j % 256 := by
  have h := busByte_flatMap ([0xff, 0xfe] ++ (List.range 512).map buf ++ [0xff, 0xff]) []
    (2 + j) (by simp; omega)
  rw [List.append_nil] at h
  rw [dataByte, blockBits_eq, h]
  congr 1
  rw [List.append_assoc, List.getD_eq_getElem?_getD, List.getElem?_append_right (by simp)]
  simp only [List.length_cons, List.length_nil, Nat.add_sub_cancel_left, Nat.zero_add,
    Nat.reduceAdd]
  rw [List.getElem?_append_left (by simpa using hj)]
  simp [hj]

/-- The effect of `memcp(buf + off, data, len)`. -/
theorem memcp_val (data : Nat → Nat) (off len : Nat) (m : Mem) (k : Nat) :
    forLoop len (fun i m => wr m (off + i) (data i)) m k =
      if off ≤ k ∧ k < off + len then data (k - off) % 256 else m k := by
  induction len with
  | zero =>
    rw [if_neg (by omega)]
    rfl
  | succ n ih =>
    show wr (forLoop n (fun i m => wr m (off + i) (data i)) m) (off + n) (data n) k = _
    by_cases hk : k = off + n
    · subst hk
      rw [wr_same, if_pos ⟨by omega, by omega⟩, Nat.add_sub_cancel_left]
    · rw [wr_other _ _ _ _ hk, ih]
      by_cases h2 : off ≤ k ∧ k < off + n
      · rw [if_pos h2, if_pos ⟨h2.1, by omega⟩]
      · rw [if_neg h2, if_neg (by omega)]

theorem mask_block (x : Nat) (hx : x < 2 ^ 32) : x &&& 0xfffffe00 = x / 512 * 512 := by
  have hc : (0xfffffe00 : Nat) = 2 ^ 9 * (2 ^ 23 - 1) := by norm_num
  have hr : x / 512 * 512 = 2 ^ 9 * (x >>> 9) := by
    have h512 : (2 : Nat) ^ 9 = 512 := by norm_num
    rw [Nat.shiftRight_eq_div_pow, h512]
    omega
  rw [hc, hr]
  apply Nat.eq_of_testBit_eq
  intro j
  rw [Nat.testBit_and, Nat.testBit_mul_pow_two, Nat.testBit_mul_pow_two,
    Nat.testBit_two_pow_sub_one, Nat.testBit_shiftRight]
  by_cases h9 : 9 ≤ j
  · have e : 9 + (j - 9) = j := by omega
    rw [e]
    by_cases h32 : j < 32
    · have : j - 9 < 23 := by omega
      simp [h9, this]
    · have hlt : x < 2 ^ j :=
        Nat.lt_of_lt_of_le hx (Nat.pow_le_pow_right (by norm_num) (by omega))
      rw [Nat.testBit_lt_two_pow hlt]
      simp
  · simp [h9]

theorem mask_offset (x : Nat) : x &&& 0x1ff = x % 512 := Nat.and_pow_two_sub_one_eq_mod x 9

/-- The card after `writeSD` with the card present: the `len` bytes of `data` at `adr` as
far as they lie in the 512-byte block of `adr`, the other bytes of that block rewritten as
they were, the rest of the card untouched. -/
theorem writeSD_card (s : State) (he : s.eject = false) (adr : Nat) (hadr : adr < 2 ^ 32)
    (data : Nat → Nat) (len a : Nat) :
    (writeSD s adr data len).card a =
      if adr / 512 * 512 ≤ a ∧ a < adr / 512 * 512 + 512 then
        (if adr ≤ a ∧ a < adr + len then data (a - adr) % 256 else s.card a % 256)
      else s.card a := by
  unfold writeSD
  rw [if_neg (by simp [he]), mask_block adr hadr, mask_offset]
  show (if adr / 512 * 512 ≤ a ∧ a < adr / 512 * 512 + 512 then
      dataByte (blockBits _) (a - adr / 512 * 512) else s.card a) = _
  have hsplit : adr / 512 * 512 + adr % 512 = adr := Nat.div_add_mod' adr 512
  by_cases hb : adr / 512 * 512 ≤ a ∧ a < adr / 512 * 512 + 512
  · rw [if_pos hb, if_pos hb, blockBits_dataByte _ _ (by omega), memcp_val, readLoop_val,
      if_pos (by omega : a - adr / 512 * 512 < 512)]
    by_cases hin : adr ≤ a ∧ a < adr + len
    · rw [if_pos hin, if_pos (by omega), Nat.mod_mod]
      congr 2
      omega
    · rw [if_neg hin, if_neg (by omega), Nat.mod_mod]
      congr 2
      omega
  · rw [if_neg hb, if_neg hb]

theorem writeSD_kept (s : State) (adr : Nat) (data : Nat → Nat) (len : Nat) :
    (writeSD s adr data len).eject = s.eject ∧ SameGeom (writeSD s adr data len) s := by
  unfold writeSD
  by_cases he : s.eject = true
  · rw [if_pos he]
    exact ⟨rfl, rfl, rfl, rfl, rfl, rfl, rfl, rfl⟩
  · rw [if_neg he]
    exact ⟨rfl, rfl, rfl, rfl, rfl, rfl, rfl, rfl⟩

/-- Outside the bytes it is given, `writeSD` leaves every byte of the card as it was. -/
theorem writeSD_frame (s : State) (he : s.eject = false) (adr : Nat) (hadr : adr < 2 ^ 32)
    (data : Nat → Nat) (len a : Nat) (ha : a < adr ∨ adr + len ≤ a) :
    (writeSD s adr data len).card a % 256 = s.card a % 256 := by
  rw [writeSD_card s he adr hadr]
  by_cases hb : adr / 512 * 512 ≤ a ∧ a < adr / 512 * 512 + 512
  · rw [if_pos hb, if_neg (by omega), Nat.mod_mod]
  · rw [if_neg hb]

theorem read16_mod (c1 c2 : Mem) (adr : Nat) (h0 : c1 adr % 256 = c2 adr % 256)
    (h1 : c1 (adr + 1) % 256 = c2 (adr + 1) % 256) : read16 c1 adr = read16 c2 adr := by
  unfold read16
  rw [h0, h1]

theorem zeroWords_congr (c1 c2 : Mem) (fatAddr : Nat) (n ft : Nat)
    (hwrap : fatAddr + 2 * (ft + n) ≤ 2 ^ 32)
    (h : ∀ a, fatAddr + 2 * ft ≤ a → a < fatAddr + 2 * (ft + n) → c1 a % 256 = c2 a % 256) :
    zeroWords c1 fatAddr ft n = zeroWords c2 fatAddr ft n := by
  induction n generalizing ft with
  | zero => rfl
  | succ n ih =>
    rw [zeroWords, zeroWords, ih (ft + 1) (by omega) (fun a h1 h2 => h a (by omega) (by omega)),
      Nat.mod_eq_of_lt (by omega : fatAddr + ft * 2 < 2 ^ 32),
      read16_mod c1 c2 _ (h _ (by omega) (by omega)) (h _ (by omega) (by omega))]

/-- The linking loop returns as soon as the words it scans hold enough zero words. -/
theorem createNicChain_returns (needed : Nat) (hn : needed < 65536) (fuel : Nat) (s : State)
    (he : s.eject = false) (ft cn adr : Nat) (hadr : adr < 2 ^ 32)
    (hwrap : s.fatAddr + 2 * (ft + fuel) ≤ 2 ^ 32)
    (hout : adr + 2 ≤ s.fatAddr + 2 * ft ∨ s.fatAddr + 2 * (ft + fuel) ≤ adr)
    (hneed : needed ≤ cn + zeroWords s.card s.fatAddr ft fuel) :
    ∃ r, createNicChain needed fuel s ft cn adr = some r := by
  induction fuel generalizing s ft cn adr with
  | zero =>
    rw [createNicChain, if_neg]
    · exact ⟨_, rfl⟩
    · simp only [zeroWords] at hneed
      omega
  | succ fuel ih =>
    rw [createNicChain]
    by_cases hc : cn < needed
    · rw [if_pos hc]
      have hmod : (s.fatAddr + ft * 2) % 2 ^ 32 = s.fatAddr + ft * 2 :=
        Nat.mod_eq_of_lt (by omega)
      rw [zeroWords, hmod] at hneed
      simp only [hmod]
      by_cases hd : read16 s.card (s.fatAddr + ft * 2) = 0
      · rw [if_pos hd]
        rw [if_pos hd] at hneed
        obtain ⟨k1, k2⟩ := writeSD_kept s adr (fun j => if j = 0 then ft % 256
          else ft / 256 % 256) 2
        have hcard : zeroWords (writeSD s adr (fun j => if j = 0 then ft % 256
            else ft / 256 % 256) 2).card s.fatAddr (ft + 1) fuel =
            zeroWords s.card s.fatAddr (ft + 1) fuel := by
          apply zeroWords_congr _ _ _ _ _ (by omega)
          intro a h1 h2
          exact writeSD_frame s he adr hadr _ 2 a (by omega)
        generalize writeSD s adr (fun j => if j = 0 then ft % 256 else ft / 256 % 256) 2
          = s2 at k1 k2 hcard ⊢
        have hf : s2.fatAddr = s.fatAddr := k2.2.1
        rw [Nat.mod_eq_of_lt (by omega : ft + 1 < 2 ^ 32),
          Nat.mod_eq_of_lt (by omega : cn + 1 < 65536)]
        apply ih s2 (k1.trans he) (ft + 1) (cn + 1) (s.fatAddr + ft * 2) (by omega)
        · rw [hf]
          omega
        · rw [hf]
          omega
        · rw [hf, hcard]
          omega
      · rw [if_neg hd]
        rw [if_neg hd] at hneed
        rw [Nat.mod_eq_of_lt (by omega : ft + 1 < 2 ^ 32)]
        exact ih s he (ft + 1) cn adr hadr (by omega) (by omega) (by omega)
    · rw [if_neg hc]
      exact ⟨_, rfl⟩

/-- `createNic` returns 1 whenever a root entry is free and the `fuel` 16-bit words from
`fatAddr + 4` on, which end before that entry, hold at least
`ceil(560 / sectorsPerCluster)` zero words: nothing ties the scan to the size of the FAT. -/
theorem createNic_scan (fuel sectorsPerFat : Nat) (s : State) (name : Nat → Nat)
    (he : s.eject = false) (hroot : s.rootAddr + 512 * 32 ≤ 2 ^ 32)
    (hre : createNicSearch s 512 0 < 512)
    (hend : s.fatAddr + 2 * (2 + fuel) ≤ s.rootAddr + createNicSearch s 512 0 * 32)
    (hzero : clusterCount s 560 ≤ zeroWords s.card s.fatAddr 2 fuel) :
    ∃ s2, createNic fuel sectorsPerFat s name = some (s2, 1) := by
  unfold createNic
  rw [if_neg (by simp [he]), if_neg (by omega)]
  simp only
  generalize createNicSearch s 512 0 = re at hre hend
  have hm : (s.rootAddr + re * 32) % 2 ^ 32 = s.rootAddr + re * 32 :=
    Nat.mod_eq_of_lt (by omega)
  rw [hm]
  obtain ⟨k1, k2⟩ := writeSD_kept s (s.rootAddr + re * 32) (nicDirEntry name) 32
  have hcard : zeroWords (writeSD s (s.rootAddr + re * 32) (nicDirEntry name) 32).card
      s.fatAddr 2 fuel = zeroWords s.card s.fatAddr 2 fuel := by
    apply zeroWords_congr _ _ _ _ _ (by omega)
    intro a h1 h2
    exact writeSD_frame s he _ (by omega) _ 32 a (by omega)
  generalize writeSD s (s.rootAddr + re * 32) (nicDirEntry name) 32 = s1 at k1 k2 hcard ⊢
  have hf : s1.fatAddr = s.fatAddr := k2.2.1
  have hr : s1.rootAddr = s.rootAddr := k2.1
  have hcc : clusterCount s1 560 = clusterCount s 560 := clusterCount_geom s1 s k2 560
  have hm2 : (s1.rootAddr + re * 32 + 26) % 2 ^ 32 = s.rootAddr + re * 32 + 26 := by
    rw [hr]
    exact Nat.mod_eq_of_lt (by omega)
  rw [hm2, hcc]
  obtain ⟨r, hr2⟩ := createNicChain_returns (clusterCount s 560)
    (Nat.mod_lt _ (by norm_num)) fuel s1 (k1.trans he) 2 0 (s.rootAddr + re * 32 + 26)
    (by omega) (by rw [hf]; omega) (Or.inr (by rw [hf]; omega))
    (by rw [hf, hcard]; omega)
  rw [hr2]
  exact ⟨_, rfl⟩

set_option maxRecDepth 1000000 in
/-- C13 (failing input): on `fullFatCard` none of the 512 entries of the two FAT copies is
zero, while a NIC file needs 5 clusters; `createNic` takes root entry 1, scans past the FAT
into the root directory, takes the five zero words at offsets 12..21 of the entry of `A.DSK`
for free clusters and returns 1. -/
theorem createNic_full_fat :
    (∀ c, c < 512 → read16 fullFatCard (0x200 + 2 * c) = 0xffff) ∧
    clusterCount fullFatVolume 560 = 5 ∧
    ∃ s2, createNic 521 1 fullFatVolume (fun _ => 0x41) = some (s2, 1) := by
  refine ⟨by decide, by decide, ?_⟩
  apply createNic_scan 521 1 fullFatVolume _ rfl (by decide)
  · decide
  · decide
  · decide

/-! ### C5: uniqueness in the write buffer -/

set_option maxRecDepth 1000000 in
/-- A run with no address capture that ends with a duplicate, once the timer interrupt sets
`prepare` again: in `tickDupState` the slots 0 and 2 are both non-empty and both hold
(track 0, sector 1). -/
theorem tick_run_duplicate : ¬ Unique tickDupState := by
  intro h
  exact h 0 2 (by decide) (by decide) (by decide) (by decide) (by decide)
    ⟨by decide, by decide⟩

set_option maxRecDepth 1000000 in
/-- C11 (counterexample): root entry 0 of `lowerCaseVolume` is `a.NIC`: its first byte 0x61
is alphanumeric (a lower-case letter) and none of 0x00, 0x05, 0x2E, 0xE5, its attribute byte
has none of the bits 0x1E and its extension is `NIC`, and yet `findExt("NIC", ...)` returns
512. -/
theorem newest_wins_counterexample :
    lowerCaseVolume.eject = false ∧
    rootByte lowerCaseVolume 0 0 = 0x61 ∧
    rootByte lowerCaseVolume 0 11 &&& 0x1e = 0 ∧
    rootByte lowerCaseVolume 0 8 = nicExt 0 ∧ rootByte lowerCaseVolume 0 9 = nicExt 1 ∧
    rootByte lowerCaseVolume 0 10 = nicExt 2 ∧
    (findExt lowerCaseVolume nicExt none none).1 = 512 := by
  refine ⟨rfl, by decide, by decide, by decide, by decide, by decide, by decide⟩

/-! ### C15: the walk of `prepareFat` -/

theorem succ_div_le (E i : Nat) (hE : 0 < E) : (i + 1) / E ≤ i / E + 1 := by
  have h : (i + 1) / E ≤ (i + E) / E := Nat.div_le_div_right (by omega)
  rw [Nat.add_div_right i hE] at h
  exact h

/-- The loop of `prepareFat` on an `unsigned short` array, entered at a step `i` not past
the window, when the window number does not wrap in the 8-bit `fn` before the loop is left
(`fatNum < 255`, or no step beyond `256 * fatElemNum`): it runs `r` passes, where pass `r` is
the first that reads an entry `> 0xfff6` or leaves the window; the entries of the window read
in these passes are in the array, and nothing else is written. -/
theorem prepareFatLoop_walk (card : Mem) (fatAddr fatNum E : Nat) (hE : 0 < E)
    (hfat : fatNum ≤ 255)
    (c : Nat → Nat) (hlt : ∀ k, c k < 65536)
    (hc : ∀ k, read16 card ((fatAddr + c k * 2) % 2 ^ 32) = c (k + 1))
    (n i : Nat) (fat : Nat → Nat) (hinv : i / E ≤ fatNum)
    (hbound : fatNum < 255 ∨ i + n ≤ 256 * E) :
    prepareFatSteps card fatAddr fatNum E n i (c i) ≤ n ∧
    (∀ k, i < k → k < i + prepareFatSteps card fatAddr fatNum E n i (c i) →
      c k ≤ 0xfff6 ∧ k / E ≤ fatNum) ∧
    (prepareFatSteps card fatAddr fatNum E n i (c i) < n →
      1 ≤ prepareFatSteps card fatAddr fatNum E n i (c i) ∧
      (c (i + prepareFatSteps card fatAddr fatNum E n i (c i)) > 0xfff6 ∨
        (i + prepareFatSteps card fatAddr fatNum E n i (c i)) / E > fatNum)) ∧
    (∀ k, i < k → k ≤ i + prepareFatSteps card fatAddr fatNum E n i (c i) →
      k / E = fatNum →
      prepareFatLoop wr16 card fatAddr fatNum E n i (c i) fat (k % E) = c k) ∧
    (∀ idx, (∀ k, i < k → k ≤ i + prepareFatSteps card fatAddr fatNum E n i (c i) →
        k / E = fatNum → k % E ≠ idx) →
      prepareFatLoop wr16 card fatAddr fatNum E n i (c i) fat idx = fat idx) := by
  induction n generalizing i fat with
  | zero =>
    refine ⟨Nat.le_refl _, ?_, ?_, ?_, fun idx _ => rfl⟩
    · intro k h1 h2
      simp only [prepareFatSteps] at h2
      omega
    · intro h
      simp only [prepareFatSteps] at h
      omega
    · intro k h1 h2
      simp only [prepareFatSteps] at h2
      omega
  | succ n ih =>
    have hdiv := succ_div_le E i hE
    by_cases hlast : (i + 1) / E < 256
    · have hfn : ((i + 1) / E) % 256 = (i + 1) / E := Nat.mod_eq_of_lt hlast
      have hsteps : prepareFatSteps card fatAddr fatNum E (n + 1) i (c i) =
          if c (i + 1) > 0xfff6 ∨ (i + 1) / E > fatNum then 1
          else 1 + prepareFatSteps card fatAddr fatNum E n (i + 1) (c (i + 1)) := by
        rw [prepareFatSteps]
        simp only [hfn, hc i]
      have hloop : prepareFatLoop wr16 card fatAddr fatNum E (n + 1) i (c i) fat =
          if c (i + 1) > 0xfff6 ∨ (i + 1) / E > fatNum then
            (if (i + 1) / E = fatNum then wr16 fat ((i + 1) % E) (c (i + 1)) else fat)
          else prepareFatLoop wr16 card fatAddr fatNum E n (i + 1) (c (i + 1))
            (if (i + 1) / E = fatNum then wr16 fat ((i + 1) % E) (c (i + 1)) else fat) := by
        rw [prepareFatLoop]
        simp only [hfn, hc i]
      rw [hsteps, hloop]
      have hs1 : (i + 1) / E = fatNum →
          (if (i + 1) / E = fatNum then wr16 fat ((i + 1) % E) (c (i + 1)) else fat)
            ((i + 1) % E) = c (i + 1) := by
        intro h3
        rw [if_pos h3, wr16_get, if_pos rfl, Nat.mod_eq_of_lt (hlt _)]
      have hs2 : ∀ idx, ((i + 1) / E = fatNum → (i + 1) % E ≠ idx) →
          (if (i + 1) / E = fatNum then wr16 fat ((i + 1) % E) (c (i + 1)) else fat) idx
            = fat idx := by
        intro idx hidx
        by_cases h3 : (i + 1) / E = fatNum
        · rw [if_pos h3, wr16_get, if_neg (Ne.symm (hidx h3))]
        · rw [if_neg h3]
      by_cases hbr : c (i + 1) > 0xfff6 ∨ (i + 1) / E > fatNum
      · rw [if_pos hbr, if_pos hbr]
        refine ⟨by omega, ?_, fun _ => ⟨Nat.le_refl _, hbr⟩, ?_, ?_⟩
        · intro k h1 h2
          omega
        · intro k h1 h2 h3
          have hk : k = i + 1 := by omega
          subst hk
          exact hs1 h3
        · intro idx hidx
          exact hs2 idx (fun h3 => hidx (i + 1) (by omega) (by omega) h3)
      · rw [if_neg hbr, if_neg hbr]
        have hnb : c (i + 1) ≤ 0xfff6 ∧ (i + 1) / E ≤ fatNum := by
          constructor
          · by_contra hc1
            exact hbr (Or.inl (by omega))
          · by_contra hc1
            exact hbr (Or.inr (by omega))
        obtain ⟨ih1, ih2, ih3, ih4, ih5⟩ := ih (i + 1)
          (if (i + 1) / E = fatNum then wr16 fat ((i + 1) % E) (c (i + 1)) else fat) hnb.2
          (by omega)
        generalize (if (i + 1) / E = fatNum then wr16 fat ((i + 1) % E) (c (i + 1)) else fat)
          = fat1 at ih4 ih5 hs1 hs2 ⊢
        generalize prepareFatSteps card fatAddr fatNum E n (i + 1) (c (i + 1)) = r at *
        have harith : i + (1 + r) = i + 1 + r := by omega
        rw [harith]
        refine ⟨by omega, ?_, ?_, ?_, ?_⟩
        · intro k h1 h2
          by_cases hk : k = i + 1
          · subst hk
            exact hnb
          · exact ih2 k (by omega) (by omega)
        · intro h
          obtain ⟨g1, g2⟩ := ih3 (by omega)
          exact ⟨by omega, g2⟩
        · intro k h1 h2 h3
          by_cases hk : k = i + 1
          · subst hk
            rw [ih5 ((i + 1) % E) (fun k' g1 g2 g3 =>
              mod_ne_of_div_eq E k' (i + 1) (g3.trans h3.symm) (by omega))]
            exact hs1 h3
          · exact ih4 k (by omega) h2 h3
        · intro idx hidx
          rw [ih5 idx (fun k g1 g2 g3 => hidx k (by omega) g2 g3)]
          exact hs2 idx (fun h3 => hidx (i + 1) (by omega) (by omega) h3)
    · have hf : fatNum = 255 := by omega
      have h256 : (i + 1) / E = 256 := by omega
      have hge : 256 * E ≤ i + 1 := by
        have h := (Nat.le_div_iff_mul_le hE).1 (Nat.le_of_eq h256.symm)
        omega
      have hn : n = 0 := by omega
      subst hn
      subst hf
      have hsteps : prepareFatSteps card fatAddr 255 E (0 + 1) i (c i) = 1 := by
        simp only [prepareFatSteps, h256]
        split_ifs <;> rfl
      have hloop : prepareFatLoop wr16 card fatAddr 255 E (0 + 1) i (c i) fat = fat := by
        simp only [prepareFatLoop, h256, if_neg (show ¬ (256 % 256 = 255) by decide)]
        split_ifs <;> rfl
      rw [hsteps, hloop]
      refine ⟨Nat.le_refl _, ?_, ?_, ?_, fun idx _ => rfl⟩
      · intro k h1 h2
        omega
      · intro h
        omega
      · intro k h1 h2 h3
        have hk : k = i + 1 := by omega
        subst hk
        omega

/-- C15 (amended): FAT window load. For arguments in the range where the 16-bit `int i` of
the source does not overflow (`dir < 1024`, `len <= 32767`), with the card present,
`0 < fatElemNum <= 255`, `fatNum <= 255`, and `fatNum < 255` or `len <= 256 * fatElemNum`
(the window number does not wrap in the 8-bit `fn`), `prepareFat(dir, fat, len, fatNum,
fatElemNum)` reads `r <= len` FAT entries `c_1 .. c_r` after the start cluster `c_0`, where
step `r` is the first step `k >= 1` whose entry `c_k` is above 0xFFF6 or whose window
`k / fatElemNum` is past `fatNum` (`r = len` when there is none; `c_0` is not tested).
Afterwards `fat[k % fatElemNum] == c_k` for every step `k <= r` of the window
(`k / fatElemNum == fatNum`), every other element of `fat` is as before, and in particular
`fat[k % fatElemNum] == c_k` for every `k <= len` of the window before which no entry
`c_j`, `1 <= j < k`, is above 0xFFF6. -/
theorem fat_window_load (s : State) (he : s.eject = false) (dir len fatNum E : Nat)
    (hE : 0 < E) (_hE8 : E ≤ 255) (hfat : fatNum ≤ 255) (_hdir : dir < 1024)
    (_hlen : len ≤ 32767) (hwrap : fatNum < 255 ∨ len ≤ 256 * E) (fat : Nat → Nat) :
    prepareFatReads s dir len fatNum E ≤ len ∧
    (∀ k, 1 ≤ k → k < prepareFatReads s dir len fatNum E →
      chain s dir k ≤ 0xfff6 ∧ k / E ≤ fatNum) ∧
    (prepareFatReads s dir len fatNum E < len →
      1 ≤ prepareFatReads s dir len fatNum E ∧
      (chain s dir (prepareFatReads s dir len fatNum E) > 0xfff6 ∨
        prepareFatReads s dir len fatNum E / E > fatNum)) ∧
    (∀ k, k ≤ prepareFatReads s dir len fatNum E → k / E = fatNum →
      prepareFat wr16 s dir fat len fatNum E (k % E) = chain s dir k) ∧
    (∀ idx, (∀ k, k ≤ prepareFatReads s dir len fatNum E → k / E = fatNum → k % E ≠ idx) →
      prepareFat wr16 s dir fat len fatNum E idx = fat idx) ∧
    (∀ k, k ≤ len → k / E = fatNum → (∀ j, 1 ≤ j → j < k → chain s dir j ≤ 0xfff6) →
      prepareFat wr16 s dir fat len fatNum E (k % E) = chain s dir k) := by
  have hR : prepareFatReads s dir len fatNum E =
      prepareFatSteps s.card s.fatAddr fatNum E len 0 (chain s dir 0) := by
    unfold prepareFatReads
    rw [if_neg (by simp [he])]
    rfl
  have hF : prepareFat wr16 s dir fat len fatNum E =
      prepareFatLoop wr16 s.card s.fatAddr fatNum E len 0 (chain s dir 0)
        (if 0 = fatNum then wr16 fat 0 (chain s dir 0) else fat) := by
    unfold prepareFat
    rw [if_neg (by simp [he])]
    rfl
  obtain ⟨w1, w2, w3, w4, w5⟩ := prepareFatLoop_walk s.card s.fatAddr fatNum E hE hfat
    (chain s dir) (chain_lt s dir) (fun _ => rfl) len 0
    (if 0 = fatNum then wr16 fat 0 (chain s dir 0) else fat)
    (by rw [Nat.zero_div]; exact Nat.zero_le _) (by omega)
  rw [hR, hF]
  generalize prepareFatSteps s.card s.fatAddr fatNum E len 0 (chain s dir 0) = r at *
  generalize prepareFatLoop wr16 s.card s.fatAddr fatNum E len 0 (chain s dir 0)
    (if 0 = fatNum then wr16 fat 0 (chain s dir 0) else fat) = fat2 at *
  rw [Nat.zero_add] at w2 w3 w4 w5
  have hzero : ∀ k', 0 < k' → k' / E = fatNum → 0 = fatNum → k' % E ≠ 0 := by
    intro k' g1 g3 h0
    have : k' < E := by
      rw [← h0] at g3
      exact (Nat.div_eq_zero_iff hE).1 g3
    rw [Nat.mod_eq_of_lt this]
    omega
  have hwin : ∀ k, k ≤ r → k / E = fatNum → fat2 (k % E) = chain s dir k := by
    intro k hk hw
    cases k with
    | zero =>
      have h0 : 0 = fatNum := by rw [← hw, Nat.zero_div]
      rw [Nat.zero_mod, w5 0 (fun k' g1 _ g3 => hzero k' g1 g3 h0), if_pos h0, wr16_get,
        if_pos rfl, Nat.mod_eq_of_lt (chain_lt _ _ _)]
    | succ k => exact w4 (k + 1) (by omega) hk hw
  refine ⟨w1, fun k h1 h2 => w2 k (by omega) h2, w3, hwin, ?_, ?_⟩
  · intro idx hidx
    rw [w5 idx (fun k g1 g2 g3 => hidx k g2 g3)]
    by_cases h0 : 0 = fatNum
    · rw [if_pos h0, wr16_get, if_neg]
      intro h
      apply hidx 0 (Nat.zero_le _) (by rw [Nat.zero_div]; exact h0)
      rw [Nat.zero_mod, h]
    · rw [if_neg h0]
  · intro k hk hw hno
    apply hwin k _ hw
    by_contra hlt
    have hr : r < len := by omega
    obtain ⟨g1, g2⟩ := w3 hr
    rcases g2 with g2 | g2
    · have := hno r g1 (by omega)
      omega
    · have : r / E ≤ k / E := Nat.div_le_div_right (by omega)
      omega

/-- Witness for C15: the NIC window 0 of `sampleVolume` (9 clusters, 35 entries per
window). -/
theorem fat_window_load_witness :
    sampleVolume.eject = false ∧ 0 < 35 ∧ 35 ≤ 255 ∧ 0 ≤ 255 ∧ 1 < 1024 ∧ 9 ≤ 32767 ∧
    (0 < 255 ∨ 9 ≤ 256 * 35) ∧ prepareFatReads sampleVolume 1 9 0 35 ≤ 9 :=
  ⟨rfl, by decide, by decide, by decide, by decide, by decide, Or.inl (by decide),
    (fat_window_load sampleVolume rfl 1 9 0 35 (by decide) (by decide) (by decide)
      (by decide) (by decide) (Or.inl (by decide)) (fun _ => 0)).1⟩

end Sdisk2
